import Mathlib

/-!
# kangaru `kgr::Container` : a shallow embedding of `include/kangaru/container.hpp`

The container is a record of its two data members, `_instances` (the Instance
Store, a vector of owning pointers paired with a deleter) and `_services` (the
Registry, a map from type identity to a raw pointer).  Objects live in a heap
that is shared by all containers; `new` hands out fresh, non-null addresses.

What the C++ templates decide at compile time (the traits `is_single`,
`is_abstract`, `has_overrides`, `has_invoke`, the parameter list of a
`construct` function, the autocall chain) is read from a table of service
definitions, `Decls`.  User code (factories, autocall methods, invoked
callables) is a function of the argument list it receives; every call of user
code, every `new` and every call of a destruction callback is recorded in a
ghost trace so that "is called", "is called once" and "is called before" can be
stated.  A program with several containers (forks, merges) is a list of
containers that share one heap.

Recursion through `get_service` is bounded by a fuel argument; running out of
fuel is its own outcome and is never confused with a result.

The C++ standard leaves the order in which a call expression evaluates its
arguments unspecified, so the order in which the services of a parameter list
are resolved is a choice of the compiler (g++ resolves them right to left,
clang left to right).  Every callable carries the order of the call expression
that is instantiated for it, an `EvalOrder`, which may choose a different
order in every state; the arguments are always passed in the order of the
parameters.  Every theorem holds for every such order.
-/

namespace kgr

/-- The key type of the Registry, `detail::type_id_t`. -/
abbrev type_id_t := Nat

/-- A raw pointer (`void*`); `0` is the null pointer. -/
abbrev Ptr := Nat

/-- The state of a service object, as far as the container is concerned. -/
abbrev Val := Nat

/-- What is passed to, and returned from, the container: a reference to a
stored singleton, a transient service by value, or a container service bound
to the requesting container. -/
inductive Arg where
  | ref (p : Ptr)
  | val (v : Val)
  | container
  deriving DecidableEq, Repr

/-- Exceptions: the `std::out_of_range` thrown by the container for an abstract
service, or whatever user code throws. -/
inductive Err where
  | out_of_range
  | user (code : Nat)
  deriving DecidableEq, Repr

/-- Modelled from the spec: the objects on the heap.  The class
`detail::ServiceOverride<T, Override>` is declared in a header that is not part
of the sources; the spec describes it as "a thin adapter object that
re-exposes the concrete instance under the parent's type", "storing ... a
reference to the true owning entry".  An object is a service of type `T` with
its state, or such an adapter, constructed from `*service`, that refers to
the `T` at `target`. -/
inductive Obj where
  | service (T : type_id_t) (v : Val)
  | ServiceOverride (T Override : type_id_t) (target : Ptr)
  deriving DecidableEq, Repr

/-- The callables the container calls: `T::construct`, the `i`-th method of the
autocall chain of `T`, or a callable handed to the public `invoke`. -/
inductive FnId where
  | construct (T : type_id_t)
  | autocall (T : type_id_t) (i : Nat)
  | user (n : Nat)
  deriving DecidableEq, Repr

/-- Ghost trace: a call of user code with its argument list, a `new`, or a call
`deleter<C>(p)` of a destruction callback. -/
inductive Event where
  | call (f : FnId) (args : List Arg)
  | alloc (p : Ptr) (o : Obj)
  | destroy (p : Ptr) (C : type_id_t)
  deriving DecidableEq, Repr

/-- The service type an event belongs to, if any. -/
def Event.owner : Event → Option type_id_t
  | .call (.construct T) _ => some T
  | .call (.autocall T _) _ => some T
  | .call (.user _) _ => none
  | .alloc _ (.service T _) => some T
  | .alloc _ (.ServiceOverride T _ _) => some T
  | .destroy _ _ => none

/-- Source `instance_ptr<void>` : `std::unique_ptr<void, void(*)(void*)>`; `deleter` is
the `C` of `&Container::deleter<C>`. -/
structure instance_ptr where
  get : Ptr
  deleter : type_id_t
  deriving DecidableEq, Repr

/-- Source `instance_cont` : `std::vector<instance_ptr<void>>`. -/
abbrev instance_cont := List instance_ptr

/-- Source `service_cont` : `std::unordered_map<detail::type_id_t, void*>`, as an
association list with at most one pair per key. -/
abbrev service_cont := List (type_id_t × Ptr)

/-- Source `std::unordered_map::find`. -/
def map_find : service_cont → type_id_t → Option Ptr
  | [], _ => none
  | (k', v') :: m, k => if k' = k then some v' else map_find m k

/-- Source `std::unordered_map::operator[]` read: the mapped value, and the map, in
which a missing key has been inserted with a value-initialised (null) pointer. -/
def map_index (m : service_cont) (k : type_id_t) : Ptr × service_cont :=
  match map_find m k with
  | some v => (v, m)
  | none => (0, m ++ [(k, 0)])

/-- Assignment `m[k] = v` : `std::unordered_map::operator[]` followed by assignment. -/
def map_assign : service_cont → type_id_t → Ptr → service_cont
  | [], k, v => [(k, v)]
  | (k', v') :: m, k, v => if k' = k then (k, v) :: m else (k', v') :: map_assign m k v

/-- Source `std::unordered_map::insert(value)` : inserts only if the key is absent. -/
def map_insert (m : service_cont) (kv : type_id_t × Ptr) : service_cont :=
  match map_find m kv.1 with
  | some _ => m
  | none => m ++ [kv]

/-- Source `std::unordered_map::insert(first, last)`. -/
def map_insert_range (m other : service_cont) : service_cont :=
  other.foldl map_insert m

/-- The identity of the class `Container` itself. -/
def container_class : type_id_t := 0

/-- The class `struct Container` : its data members, and the classes derived from
`Container` that the dynamic type of the object is or derives from (what
`dynamic_cast` on `this` consults); it is empty for a plain `Container`. -/
structure Container where
  _instances : instance_cont
  _services : service_cont
  dynamic_type : List type_id_t
  deriving DecidableEq, Repr

/-- Whether `dynamic_cast<C*>(this)` yields a non-null pointer: `C` is `Container`
or a class the dynamic type of the object derives from. -/
def Container.is_a (self : Container) (C : type_id_t) : Bool :=
  decide (C = container_class) || decide (C ∈ self.dynamic_type)

/-- The heap shared by all containers, the allocation counter and the ghost trace. -/
structure World where
  heap : List (Ptr × Obj)
  next : Ptr
  trace : List Event
  deriving DecidableEq, Repr

/-- The object at an address. -/
def heap_find : List (Ptr × Obj) → Ptr → Option Obj
  | [], _ => none
  | (q, o) :: h, p => if q = p then some o else heap_find h p

/-- Result of running a member function: normal return, an exception (the
state is what it was when the exception was thrown), undefined behaviour,
a call no overload accepts, or fuel exhausted. -/
inductive Outcome (α : Type) where
  | ok (a : α) (self : Container) (w : World)
  | throw (e : Err) (self : Container) (w : World)
  | undefined
  | ill_formed
  | out_of_fuel
  deriving DecidableEq, Repr

/-- Sequencing: continue after a normal return, propagate everything else. -/
def Outcome.bind {α β : Type} (o : Outcome α) (k : α → Container → World → Outcome β) : Outcome β :=
  match o with
  | .ok a self w => k a self w
  | .throw e self w => .throw e self w
  | .undefined => .undefined
  | .ill_formed => .ill_formed
  | .out_of_fuel => .out_of_fuel

/-- The order in which a call expression evaluates its arguments: for `n`
arguments, the positions `0, ..., n - 1` in the order of evaluation, each
once.  The C++ standard leaves this order unspecified, and it need not be the
same every time the expression is evaluated: the order is a function of the
state in which the evaluation starts. -/
structure EvalOrder where
  seq : Container → World → Nat → List Nat
  perm : ∀ s w n, (seq s w n).Perm (List.range n)

/-- The order of a compiler that evaluates the arguments first to last (clang). -/
def left_to_right : EvalOrder :=
  { seq := fun _ _ n => List.range n, perm := fun _ _ _ => List.Perm.refl _ }

/-- The order of a compiler that evaluates the arguments last to first (g++). -/
def right_to_left : EvalOrder :=
  { seq := fun _ _ n => (List.range n).reverse, perm := fun _ _ _ => List.reverse_perm _ }

/-- A method of an autocall chain (an element of the chain that has a `Next`):
the service types resolved for the call (the `Params` of a `kgr::Invoke`, or
the parameter types of the method), the method body, which may modify the
service it is called on, and the order in which the call of the method
evaluates the resolved arguments. -/
structure Method where
  params : List type_id_t
  run : Val → List Arg → Except Err Val
  order : EvalOrder

/-- What the traits and member types of a service definition `T` say;
`construct_order` is the order in which the call of `T::construct` evaluates
the resolved arguments. -/
structure ServiceDef where
  is_single : Bool
  is_abstract : Bool
  is_container_service : Bool
  is_base_of_container_service : Bool
  Type_ : type_id_t
  ParentTypes : Option (List type_id_t)
  construct_params : List type_id_t
  construct : List Arg → Except Err Val
  construct_order : EvalOrder
  invoke : Option (List Method)

/-- The service definitions of a program. -/
abbrev Decls := type_id_t → ServiceDef

/-- A callable as the signature inspector sees it: its declared parameter
types, and its body; `order` is the order in which the call expression
`function(get_service<A>()..., args...)` instantiated for it evaluates the
resolved arguments. -/
structure Callable where
  id : FnId
  params : List type_id_t
  body : List Arg → Except Err Val
  order : EvalOrder

/-- The type of `get_service<A>()` as used by the invocation engine. -/
abbrev Resolver := type_id_t → Container → World → Outcome Arg

/-- Source `makeInstancePtr<T, C>(args...)` : `new T(args...)` owned with `deleter<C>`. -/
def makeInstancePtr (C : type_id_t) (o : Obj) (w : World) : instance_ptr × World :=
  ({ get := w.next + 1, deleter := C },
   { heap := (w.next + 1, o) :: w.heap, next := w.next + 1,
     trace := w.trace ++ [Event.alloc (w.next + 1) o] })

/-- Source `save_instance_helper<T, Override, Others...>` (l.144) and
`save_instance_helper<T>` (l.134), by recursion on the list of overrides. -/
def save_instance_helper (T : type_id_t) :
    List type_id_t → instance_ptr → Container → World → Ptr × Container × World
  | [], service, self, w =>
      (service.get,
       { self with _services := map_assign self._services T service.get,
                   _instances := self._instances ++ [service] },
       w)
  | Override :: Others, service, self, w =>
      let r := makeInstancePtr Override (Obj.ServiceOverride T Override service.get) w
      save_instance_helper T Others service
        { self with _services := map_assign self._services Override r.1.get,
                    _instances := self._instances ++ [r.1] }
        r.2

/-- Source `save_instance(T&& service)` (l.117, l.122, l.128). -/
def save_instance (D : Decls) (T : type_id_t) (service : Val) (self : Container) (w : World) :
    Ptr × Container × World :=
  let r := makeInstancePtr T (Obj.service T service) w
  match (D T).ParentTypes with
  | some parents => save_instance_helper T parents r.1 self r.2
  | none => save_instance_helper T [] r.1 self r.2

/-- The calls `get_service<A>()` of a pack expansion over the parameter types
`As`, made for the listed positions one after the other, each in the state the
previous one left; every result is kept with its position. -/
def resolve_at (gs : Resolver) (As : List type_id_t) :
    List Nat → Container → World → Outcome (List (Nat × Arg))
  | [], self, w => .ok [] self w
  | i :: rest, self, w =>
      match As[i]? with
      | some A =>
          (gs A self w).bind fun a self1 w1 =>
            (resolve_at gs As rest self1 w1).bind fun rs self2 w2 => .ok ((i, a) :: rs) self2 w2
      | none => resolve_at gs As rest self w

/-- The pack expansion `get_service<A>()...` of the invocation engine: the
calls are made in the order in which the call expression evaluates its
arguments, and the results are passed in the order of the parameters. -/
def resolve (order : EvalOrder) (gs : Resolver) (As : List type_id_t) (self : Container)
    (w : World) : Outcome (List Arg) :=
  (resolve_at gs As (order.seq self w As.length) self w).bind fun rs self1 w1 =>
    .ok ((List.range As.length).filterMap fun i => rs.lookup i) self1 w1

/-- The call `function(resolved..., args...)` at the end of every `invoke` overload. -/
def call (function : Callable) (all : List Arg) (self : Container) (w : World) : Outcome Val :=
  match function.body all with
  | .ok r => .ok r self { w with trace := w.trace ++ [Event.call function.id all] }
  | .error e => .throw e self { w with trace := w.trace ++ [Event.call function.id all] }

/-- Source `invoke(detail::seq<S...>, function, args...)` (l.197). -/
def invoke_seq (gs : Resolver) (S : List type_id_t) (function : Callable) (args : List Arg)
    (self : Container) (w : World) : Outcome Val :=
  (resolve function.order gs S self w).bind fun rs self1 w1 =>
    call function (rs ++ args) self1 w1

/-- Source `invoke_raw(function, args...)` (l.219): the sequence is
`tuple_seq_minus<function_arguments_t<U>, sizeof...(Args)>`. -/
def invoke_raw (gs : Resolver) (function : Callable) (args : List Arg)
    (self : Container) (w : World) : Outcome Val :=
  if args.length ≤ function.params.length then
    invoke_seq gs (function.params.take (function.params.length - args.length)) function args self w
  else .ill_formed

/-- Source `do_invoke_service(seq, service, function)` (l.278): `invoke_raw` of a lambda
that calls the method on `service`. -/
def do_invoke_service (gs : Resolver) (T : type_id_t) (i : Nat) (m : Method) (service : Val)
    (self : Container) (w : World) : Outcome Val :=
  invoke_raw gs
    { id := FnId.autocall T i, params := m.params, body := m.run service, order := m.order }
    [] self w

/-- Source `invoke_service_helper<Method>` (l.236, l.243): walks the chain. -/
def invoke_service_helper (gs : Resolver) (T : type_id_t) :
    Nat → List Method → Val → Container → World → Outcome Val
  | _, [], service, self, w => .ok service self w
  | i, m :: Next, service, self, w =>
      (do_invoke_service gs T i m service self w).bind fun service1 self1 w1 =>
        invoke_service_helper gs T (i + 1) Next service1 self1 w1

/-- Source `invoke_service(service)` (l.229, l.285). -/
def invoke_service (gs : Resolver) (D : Decls) (T : type_id_t) (service : Val)
    (self : Container) (w : World) : Outcome Val :=
  match (D T).invoke with
  | some chain => invoke_service_helper gs T 0 chain service self w
  | none => .ok service self w

/-- Source `make_service_instance<T>(args...)` (l.186). -/
def make_service_instance (gs : Resolver) (D : Decls) (T : type_id_t) (args : List Arg)
    (self : Container) (w : World) : Outcome Val :=
  (invoke_raw gs { id := FnId.construct T, params := (D T).construct_params,
                   body := (D T).construct, order := (D T).construct_order }
      args self w).bind fun service self1 w1 =>
    invoke_service gs D T service self1 w1

/-- Source `save_new_instance<T>(args...)` (l.107, l.112). -/
def save_new_instance (gs : Resolver) (D : Decls) (T : type_id_t) (args : List Arg)
    (self : Container) (w : World) : Outcome Ptr :=
  if (D T).is_single then
    if (D T).is_abstract then .throw Err.out_of_range self w
    else
      (make_service_instance gs D T args self w).bind fun service self1 w1 =>
        let r := save_instance D T service self1 w1
        .ok r.1 r.2.1 r.2.2
  else .ill_formed

/-- Source `get_service<T>(args...)` (l.158, l.163, l.168, l.173). -/
def get_service : Nat → Decls → type_id_t → List Arg → Container → World → Outcome Arg
  | 0, _, _, _, _, _ => .out_of_fuel
  | fuel + 1, D, T, args, self, w =>
      if (D T).is_container_service then
        if args = [] then .ok Arg.container self w else .ill_formed
      else if (D T).is_base_of_container_service then
        if args = [] then
          if self.is_a (D T).Type_ then .ok Arg.container self w else .undefined
        else .ill_formed
      else if (D T).is_single then
        if args = [] then
          let r := map_index self._services T
          if r.1 ≠ 0 then .ok (Arg.ref r.1) { self with _services := r.2 } w
          else
            (save_new_instance (fun A => get_service fuel D A []) D T []
              { self with _services := r.2 } w).bind fun p self1 w1 => .ok (Arg.ref p) self1 w1
        else .ill_formed
      else
        (make_service_instance (fun A => get_service fuel D A []) D T args self w).bind
          fun v self1 w1 => .ok (Arg.val v) self1 w1

/-- Modelled from the spec: `forward()` of a stored service definition, which is
declared in the service headers and not in `container.hpp`.  A service forwards
itself; an override adapter "re-exposes the concrete instance under the
parent's type" and forwards the object it refers to. -/
def forward (heap : List (Ptr × Obj)) : Arg → Arg
  | .ref p =>
      match heap_find heap p with
      | some (.ServiceOverride _ _ target) => .ref target
      | _ => .ref p
  | a => a

/-- Source `service<T>(args...)` (l.71): `get_service<T>(args...).forward()`. -/
def service (fuel : Nat) (D : Decls) (T : type_id_t) (args : List Arg)
    (self : Container) (w : World) : Outcome Arg :=
  (get_service fuel D T args self w).bind fun a self1 w1 => .ok (forward w1.heap a) self1 w1

/-- Source `instance(T&& service)` (l.61). -/
def instance_value (D : Decls) (T : type_id_t) (service : Val) (self : Container) (w : World) :
    Outcome Unit :=
  if (D T).is_single then
    let r := save_instance D T service self w
    .ok () r.2.1 r.2.2
  else .ill_formed

/-- Source `instance<T>(args...)` (l.66). -/
def instance_new (fuel : Nat) (D : Decls) (T : type_id_t) (args : List Arg)
    (self : Container) (w : World) : Outcome Unit :=
  if (D T).is_single then
    (save_new_instance (fun A => get_service fuel D A []) D T args self w).bind
      fun _ self1 w1 => .ok () self1 w1
  else .ill_formed

/-- Source `invoke<Map>(function, args...)` (l.76, l.202): every auto-resolved parameter
`A` is obtained as `service<Map<A>::Service>()`. -/
def invoke_map (fuel : Nat) (D : Decls) (Map : type_id_t → type_id_t) (function : Callable)
    (args : List Arg) (self : Container) (w : World) : Outcome Val :=
  if args.length ≤ function.params.length then
    invoke_seq (fun A => service fuel D (Map A) [])
      (function.params.take (function.params.length - args.length)) function args self w
  else .ill_formed

/-- Source `invoke<Services...>(function, args...)` (l.81). -/
def invoke_services (fuel : Nat) (D : Decls) (Services : List type_id_t) (function : Callable)
    (args : List Arg) (self : Container) (w : World) : Outcome Val :=
  invoke_seq (fun A => service fuel D A []) Services function args self w

/-- Source `fork()` (l.91) with the constructor `Container(service_cont&)` (l.101): the
member `_services` is initialised from the argument, `_instances` is empty. -/
def fork (self : Container) : Container :=
  { _instances := [], _services := self._services, dynamic_type := [] }

/-- Source `merge(Container&& other)` (l.95): returns `self` and the moved-from `other`,
whose owning pointers have been moved out (they are null afterwards). -/
def merge (self other : Container) : Container × Container :=
  ({ self with _instances := self._instances ++ other._instances,
               _services := map_insert_range self._services other._services },
   { other with _instances := other._instances.map fun e => { e with get := 0 } })

/-! ## A small program on which the model is evaluated

`1` is a concrete singleton without dependencies, `2` a concrete singleton that
depends on `1`, declares the parent `3` and an autocall chain of two methods,
`3` an abstract singleton, `4` a transient service with two parameters, `5` a
singleton whose factory throws, `6` a concrete singleton without dependencies
that declares the parents `3` and `8`. -/

/-- A service definition with every trait off. -/
def no_service : ServiceDef :=
  { is_single := false, is_abstract := false, is_container_service := false,
    is_base_of_container_service := false, Type_ := 0, ParentTypes := none,
    construct_params := [], construct := fun _ => Except.ok 0,
    construct_order := left_to_right, invoke := none }

/-- First autocall method of service `2`: takes service `1`, adds one. -/
def demo_method0 : Method :=
  { params := [1], run := fun v _ => Except.ok (v + 1), order := left_to_right }

/-- Second autocall method of service `2`: no parameters, doubles. -/
def demo_method1 : Method :=
  { params := [], run := fun v _ => Except.ok (v * 2), order := left_to_right }

/-- The service definitions of the small program. -/
def demo : Decls := fun T =>
  match T with
  | 1 => { no_service with is_single := true, construct := fun _ => Except.ok 10 }
  | 2 =>
    { no_service with
      is_single := true, construct_params := [1], ParentTypes := some [3],
      construct := fun _ => Except.ok 20, invoke := some [demo_method0, demo_method1] }
  | 3 => { no_service with is_single := true, is_abstract := true }
  | 4 => { no_service with construct_params := [1, 0], construct := fun a => Except.ok a.length }
  | 5 =>
    { no_service with
      is_single := true, construct_params := [1], construct := fun _ => Except.error (Err.user 7) }
  | 6 => { no_service with is_single := true, ParentTypes := some [3, 8] }
  | 8 => { no_service with is_single := true, is_abstract := true }
  | _ => no_service

/-- A default-constructed container. -/
def empty_container : Container :=
  { _instances := [], _services := [], dynamic_type := [] }

/-- The world before anything has been allocated or called. -/
def empty_world : World :=
  { heap := [], next := 0, trace := [] }

/-- The container after `service<1>()` on the empty container. -/
def demo_container1 : Container :=
  { _instances := [{ get := 1, deleter := 1 }], _services := [(1, 1)], dynamic_type := [] }

/-- The world after `service<1>()` on the empty container. -/
def demo_world1 : World :=
  { heap := [(1, Obj.service 1 10)], next := 1,
    trace := [Event.call (FnId.construct 1) [], Event.alloc 1 (Obj.service 1 10)] }

/-- A fork of `demo_container1` after `instance(x)` with a second service `1`. -/
def demo_child : Container :=
  { _instances := [{ get := 2, deleter := 1 }], _services := [(1, 2)], dynamic_type := [] }

/-- The world after that `instance(x)`. -/
def demo_world2 : World :=
  { heap := [(2, Obj.service 1 11), (1, Obj.service 1 10)], next := 2,
    trace := [Event.call (FnId.construct 1) [], Event.alloc 1 (Obj.service 1 10),
              Event.alloc 2 (Obj.service 1 11)] }

/-! ## Several containers in one program -/

/-- A program state with several containers: the container objects, by index,
and the world they share. -/
structure Process where
  containers : List Container
  world : World
  deriving DecidableEq, Repr

/-- Store back what a member function called on container `i` left behind. -/
def Process.commit {α : Type} (s : Process) (i : Nat) : Outcome α → Process
  | .ok _ c w => { containers := s.containers.set i c, world := w }
  | .throw _ c w => { containers := s.containers.set i c, world := w }
  | .undefined => s
  | .ill_formed => s
  | .out_of_fuel => s

/-- The statement `containers[i].service<T>(args...)`. -/
def Process.service (fuel : Nat) (D : Decls) (s : Process) (i : Nat) (T : type_id_t)
    (args : List Arg) : Process :=
  match s.containers[i]? with
  | some c => s.commit i (kgr.service fuel D T args c s.world)
  | none => s

/-- The statement `containers[i].instance(service)`. -/
def Process.instance_value (D : Decls) (s : Process) (i : Nat) (T : type_id_t) (v : Val) :
    Process :=
  match s.containers[i]? with
  | some c => s.commit i (kgr.instance_value D T v c s.world)
  | none => s

/-- The statement `containers[i].instance<T>(args...)`. -/
def Process.instance_new (fuel : Nat) (D : Decls) (s : Process) (i : Nat) (T : type_id_t)
    (args : List Arg) : Process :=
  match s.containers[i]? with
  | some c => s.commit i (kgr.instance_new fuel D T args c s.world)
  | none => s

/-- The statement `Container child = containers[i].fork();` : the new container
gets the next index. -/
def Process.fork (s : Process) (i : Nat) : Process :=
  match s.containers[i]? with
  | some c => { s with containers := s.containers ++ [kgr.fork c] }
  | none => s

/-- The container after `instance(x)` with a service `6` on the empty container
in the world `demo_world1`. -/
def demo_container6 : Container :=
  { _instances := [{ get := 3, deleter := 3 }, { get := 4, deleter := 8 }, { get := 2, deleter := 6 }],
    _services := [(3, 3), (8, 4), (6, 2)],
    dynamic_type := [] }

/-- A program with one default-constructed container. -/
def demo_process : Process :=
  { containers := [empty_container], world := empty_world }

/-- Modelled from the spec: reading the state of a service through a handle that
`service<T>()` returned ("read the change via the other"); the handle types and
their accessors are declared by the services, not by `container.hpp`. -/
def read (heap : List (Ptr × Obj)) : Arg → Option Val
  | .ref p =>
      match heap_find heap p with
      | some (.service _ v) => some v
      | _ => none
  | .val v => some v
  | .container => none

/-- Replace the state of the service object at an address. -/
def heap_store : List (Ptr × Obj) → Ptr → Val → List (Ptr × Obj)
  | [], _, _ => []
  | (q, o) :: h, p, v =>
      if q = p then
        match o with
        | .service T _ => (q, Obj.service T v) :: h
        | .ServiceOverride T O t => (q, Obj.ServiceOverride T O t) :: h
      else (q, o) :: heap_store h p v

/-- Modelled from the spec: changing the state of a service through a handle
that `service<T>()` returned ("mutate via one handle"). -/
def write (heap : List (Ptr × Obj)) (a : Arg) (v : Val) : List (Ptr × Obj) :=
  match a with
  | .ref p => heap_store heap p v
  | _ => heap

/-- The state in which `Impl` is registered with the alias `Base`: the Registry
maps `Impl` to a live `Impl` object at `p`, and maps `Base` to a pointer that
forwards to `p`. -/
def Aliased (self : Container) (w : World) (Impl Base : type_id_t) (p : Ptr) : Prop :=
  p ≠ 0 ∧ map_find self._services Impl = some p ∧
  (∃ v, heap_find w.heap p = some (Obj.service Impl v)) ∧
  ∃ q, q ≠ 0 ∧ map_find self._services Base = some q ∧ forward w.heap (Arg.ref q) = Arg.ref p

/-- The container after `service<2>()` on the empty container. -/
def demo_container2 : Container :=
  { _instances := [{ get := 1, deleter := 1 }, { get := 3, deleter := 3 }, { get := 2, deleter := 2 }],
    _services := [(2, 2), (1, 1), (3, 3)],
    dynamic_type := [] }

/-- The world after `service<2>()` on the empty container. -/
def demo_world3 : World :=
  { heap := [(3, Obj.ServiceOverride 2 3 2), (2, Obj.service 2 42), (1, Obj.service 1 10)],
    next := 3,
    trace := [Event.call (FnId.construct 1) [],
              Event.alloc 1 (Obj.service 1 10),
              Event.call (FnId.construct 2) [Arg.ref 1],
              Event.call (FnId.autocall 2 0) [Arg.ref 1],
              Event.call (FnId.autocall 2 1) [],
              Event.alloc 2 (Obj.service 2 42),
              Event.alloc 3 (Obj.ServiceOverride 2 3 2)] }

/-! ## What a resolution may touch -/

/-- The autocall chain of `T`; empty when `T` declares none. -/
def chain_of (D : Decls) (T : type_id_t) : List Method :=
  match (D T).invoke with
  | some chain => chain
  | none => []

/-- The service types that are resolved while a `T` is made: the parameters of
its factory and of its autocall methods. -/
def deps (D : Decls) (T : type_id_t) : List type_id_t :=
  (D T).construct_params ++ (chain_of D T).flatMap Method.params

/-- The state a call leaves behind, when it returns or throws. -/
def Outcome.final {α : Type} : Outcome α → Option (Container × World)
  | .ok _ s w => some (s, w)
  | .throw _ s w => some (s, w)
  | .undefined => none
  | .ill_formed => none
  | .out_of_fuel => none

/-- The state a call leaves behind, whether it returns or throws, satisfies `R`. -/
def Outcome.Sat {α : Type} (o : Outcome α) (R : Container → World → Prop) : Prop :=
  ∀ s w, o.final = some (s, w) → R s w

/-- The events of a trace that belong to the service type `T`. -/
def events_of (T : type_id_t) (tr : List Event) : List Event :=
  tr.filter fun e => decide (e.owner = some T)

/-- A relation between the state before and after a resolution of `T` that
holds for every step such a resolution takes. -/
structure Footprint (D : Decls)
    (P : type_id_t → Container → World → Container → World → Prop) : Prop where
  refl : ∀ T s w, P T s w s w
  trans : ∀ T s w s1 w1 s2 w2, P T s w s1 w1 → P T s1 w1 s2 w2 → P T s w s2 w2
  dep : ∀ T V, V ∈ deps D T → ∀ s w s1 w1, P V s w s1 w1 → P T s w s1 w1
  lookup : ∀ T s w, P T s w { s with _services := (map_index s._services T).2 } w
  call : ∀ T f args s w, (Event.call f args).owner = some T →
    P T s w s { w with trace := w.trace ++ [Event.call f args] }
  save : ∀ T v s w, P T s w (save_instance D T v s w).2.1 (save_instance D T v s w).2.2

/-- The parent identities `T` declares; none when it has no `ParentTypes`. -/
def parents_of (D : Decls) (T : type_id_t) : List type_id_t :=
  match (D T).ParentTypes with
  | some parents => parents
  | none => []

/-- The relation `Reaches D T U` : making a `T` may resolve a `U`, directly or
through the dependencies of its dependencies (`T` itself included). -/
inductive Reaches (D : Decls) : type_id_t → type_id_t → Prop where
  | refl (T : type_id_t) : Reaches D T T
  | step (T V U : type_id_t) : V ∈ deps D T → Reaches D V U → Reaches D T U

/-- The trace grew by events of service types that `T` reaches. -/
def TraceWithin (D : Decls) (T : type_id_t) (w w1 : World) : Prop :=
  ∃ evs, w1.trace = w.trace ++ evs ∧ ∀ e, e ∈ evs → ∃ t, e.owner = some t ∧ Reaches D T t

/-- The events the `new`s of `save_instance` leave in the trace: the service
object at `p`, then one adapter per parent. -/
def save_events (D : Decls) (T : type_id_t) (p : Ptr) (v : Val) : List Event :=
  Event.alloc p (Obj.service T v)
    :: (List.enumFrom (p + 1) (parents_of D T)).map
        (fun x => Event.alloc x.1 (Obj.ServiceOverride T x.2 p))

/-- The events of one construction of a `T`: the call of the factory, then the
calls of the autocall methods, numbered from `0`, in this order. -/
def construction_events (T : type_id_t) (cargs : List Arg) (hargs : List (List Arg)) :
    List Event :=
  Event.call (FnId.construct T) cargs
    :: (List.enumFrom 0 hargs).map (fun x => Event.call (FnId.autocall T x.1) x.2)

/-- A run of a member function that does not return: an exception (with the
state in which it was thrown), undefined behaviour, a call no overload
accepts, or fuel exhausted. -/
inductive Failure where
  | throw (e : Err) (self : Container) (w : World)
  | undefined
  | ill_formed
  | out_of_fuel

/-- The outcome of a run that ends with the failure. -/
def Failure.raise {α : Type} : Failure → Outcome α
  | .throw e self w => .throw e self w
  | .undefined => .undefined
  | .ill_formed => .ill_formed
  | .out_of_fuel => .out_of_fuel

/-- The services of the parameter types `As` at the listed positions have been
resolved, one position after the other in the order of the list, each in the
state the previous one left: for every listed position `i`, the resolution of
`As[i]` returned `rs[i]`; `s1`, `w1` is the state after the last one. -/
inductive ResolvedAt (gs : Resolver) (As : List type_id_t) (rs : List Arg) :
    List Nat → Container → World → Container → World → Prop where
  | nil (s : Container) (w : World) : ResolvedAt gs As rs [] s w s w
  | cons (i : Nat) (rest : List Nat) (A : type_id_t) (a : Arg) (s : Container) (w : World)
      (s1 : Container) (w1 : World) (s2 : Container) (w2 : World) :
      As[i]? = some A → rs[i]? = some a → gs A s w = Outcome.ok a s1 w1 →
      ResolvedAt gs As rs rest s1 w1 s2 w2 → ResolvedAt gs As rs (i :: rest) s w s2 w2

/-- The services of the parameter types `As` at the listed positions are
resolved one position after the other in the order of the list, and the first
resolution that does not return ends with the failure `f`; the positions
after it are not resolved. -/
inductive StopsAt (gs : Resolver) (As : List type_id_t) :
    List Nat → Container → World → Failure → Prop where
  | here (i : Nat) (rest : List Nat) (A : type_id_t) (s : Container) (w : World) (f : Failure) :
      As[i]? = some A → gs A s w = f.raise → StopsAt gs As (i :: rest) s w f
  | later (i : Nat) (rest : List Nat) (A : type_id_t) (a : Arg) (s : Container) (w : World)
      (s1 : Container) (w1 : World) (f : Failure) :
      As[i]? = some A → gs A s w = Outcome.ok a s1 w1 → StopsAt gs As rest s1 w1 f →
      StopsAt gs As (i :: rest) s w f

/-- The autocall methods `chain`, numbered from `i` in the order of their
declaration, have been invoked on a service one after the other: for each
method in turn, the services of its parameter types are resolved, then the
method is called once, on the value the previous method left, with the
resolved services.  `hargs` are the argument lists of these calls in this
order, `v2` is the value the last method left and `s2`, `w2` the state after
it. -/
inductive HooksInOrder (gs : Resolver) (T : type_id_t) :
    Nat → List Method → Val → Container → World → List (List Arg) → Val → Container → World →
      Prop where
  | nil (i : Nat) (v : Val) (s : Container) (w : World) : HooksInOrder gs T i [] v s w [] v s w
  | cons (i : Nat) (m : Method) (Next : List Method) (v : Val) (s : Container) (w : World)
      (rs : List Arg) (s1 : Container) (w1 : World) (v1 : Val) (hargs : List (List Arg))
      (v2 : Val) (s2 : Container) (w2 : World) :
      rs.length = m.params.length →
      ResolvedAt gs m.params rs (m.order.seq s w m.params.length) s w s1 w1 →
      m.run v rs = Except.ok v1 →
      HooksInOrder gs T (i + 1) Next v1 s1
        { w1 with trace := w1.trace ++ [Event.call (FnId.autocall T i) rs] } hargs v2 s2 w2 →
      HooksInOrder gs T i (m :: Next) v s w (rs :: hargs) v2 s2 w2

/-- The calls of the callable `f` in a trace. -/
def calls_of (f : FnId) (tr : List Event) : List Event :=
  tr.filter fun e =>
    match e with
    | .call g _ => decide (g = f)
    | .alloc _ _ => false
    | .destroy _ _ => false

/-- A callable of the program that takes services `1` and `2` and one more argument. -/
def demo_callable : Callable :=
  { id := FnId.user 0, params := [1, 2, 9], body := fun a => Except.ok a.length,
    order := left_to_right }

/-- A callable of the program that takes services `2` and `3`; `order` is the
order in which its call expression evaluates the two resolutions. -/
def demo_callable2 (order : EvalOrder) : Callable :=
  { id := FnId.user 1, params := [2, 3], body := fun a => Except.ok a.length, order := order }

/-- The container after `invoke<Map>(demo_callable, 5)` on the empty container. -/
def demo_container4 : Container :=
  { demo_container2 with _services := [(1, 1), (2, 2), (3, 3)] }

/-- The world after `invoke<Map>(demo_callable, 5)` on the empty container. -/
def demo_world4 : World :=
  { demo_world3 with
    trace := demo_world3.trace ++ [Event.call (FnId.user 0) [Arg.ref 1, Arg.ref 2, Arg.val 5]] }

/-- The container changed only at the identities of the types that `T` reaches
and of their parents: other Registry entries are as before, and the Instance
Store grew by entries whose deleter type is such an identity. -/
def StoreWithin (D : Decls) (T : type_id_t) (s s1 : Container) : Prop :=
  (∀ k, (∀ t, Reaches D T t → k ≠ t ∧ k ∉ parents_of D t) →
    map_find s1._services k = map_find s._services k) ∧
  ∃ new, s1._instances = s._instances ++ new ∧
    ∀ x, x ∈ new → ∃ t, Reaches D T t ∧ (x.deleter = t ∨ x.deleter ∈ parents_of D t)

/-- The container after the failed `service<5>()` on the empty container. -/
def demo_container5 : Container :=
  { _instances := [{ get := 1, deleter := 1 }], _services := [(5, 0), (1, 1)], dynamic_type := [] }

/-- The world after the failed `service<5>()` on the empty container. -/
def demo_world5 : World :=
  { demo_world1 with
    trace := demo_world1.trace ++ [Event.call (FnId.construct 5) [Arg.ref 1]] }

/-! ## Destruction -/

/-- Remove the object at an address from the heap. -/
def heap_erase : List (Ptr × Obj) → Ptr → List (Ptr × Obj)
  | [], _ => []
  | (q, o) :: h, p => if q = p then heap_erase h p else (q, o) :: heap_erase h p

/-- Source `deleter<C>(void* i)` (l.38): `delete static_cast<C*>(i)`. -/
def deleter (C : type_id_t) (i : Ptr) (w : World) : World :=
  { w with heap := heap_erase w.heap i, trace := w.trace ++ [Event.destroy i C] }

/-- The destructor of an `instance_ptr` (a `std::unique_ptr`): the deleter is
called when the pointer is not null. -/
def instance_ptr.destruct (e : instance_ptr) (w : World) : World :=
  if e.get ≠ 0 then kgr.deleter e.deleter e.get w else w

/-- The elements of a vector in the order in which `std::vector::clear()`
destroys them.  `container.hpp` calls `_instances.clear()` and does not choose
that order, and the C++ standard does not specify it; it is a parameter of
`clear`. -/
abbrev DestructionOrder := instance_cont → instance_cont

/-- The order of a library that destroys the elements first to last (libstdc++,
the MSVC library). -/
def front_to_back : DestructionOrder := fun v => v

/-- The order of a library that destroys the elements last to first (libc++). -/
def back_to_front : DestructionOrder := fun v => v.reverse

/-- The call `_instances.clear()` : every element is destroyed. -/
def vector_clear (order : DestructionOrder) (v : instance_cont) (w : World) : World :=
  (order v).foldl (fun w1 e => e.destruct w1) w

/-- Source `clear()` (l.86): `_instances.clear(); _services.clear();`. -/
def clear (order : DestructionOrder) (self : Container) (w : World) : Container × World :=
  ({ self with _instances := [], _services := [] }, vector_clear order self._instances w)

/-- The destruction callbacks an Instance Store owes: one `deleter<C>(p)` per
entry that owns an object, in the order of the list. -/
def destroy_events (v : instance_cont) : List Event :=
  (v.filter fun e => decide (e.get ≠ 0)).map fun e => Event.destroy e.get e.deleter

/-- The statement `containers[i].merge(std::move(containers[j]))`, for two
different containers. -/
def Process.merge (s : Process) (i j : Nat) : Process :=
  match s.containers[i]?, s.containers[j]? with
  | some c, some d =>
      if i = j then s
      else { s with containers := (s.containers.set i (kgr.merge c d).1).set j (kgr.merge c d).2 }
  | _, _ => s

/-- The statement `containers[i].clear()`. -/
def Process.clear (order : DestructionOrder) (s : Process) (i : Nat) : Process :=
  match s.containers[i]? with
  | some c =>
      { containers := s.containers.set i (kgr.clear order c s.world).1,
        world := (kgr.clear order c s.world).2 }
  | none => s

/-- Service definitions with container services: `1` is a container service
(`ContainerService` itself), `2` a service derived from the container service
base whose `Type` is the container class `7`, `3` such a service whose `Type`
is `Container`. -/
def demo_accessors : Decls := fun T =>
  match T with
  | 1 => { no_service with is_container_service := true, is_base_of_container_service := true }
  | 2 => { no_service with is_base_of_container_service := true, Type_ := 7 }
  | 3 => { no_service with is_base_of_container_service := true, Type_ := container_class }
  | _ => no_service

/-- A container whose dynamic type derives from the container class `7`. -/
def demo_derived_container : Container :=
  { _instances := [], _services := [], dynamic_type := [7] }

/-! ## Singletons, and what a resolution needs -/

/-- The type `U` is resolved by the singleton overload of `get_service` : it is
`Single` and not one of the container services. -/
def is_singleton (D : Decls) (U : type_id_t) : Prop :=
  (D U).is_container_service = false ∧ (D U).is_base_of_container_service = false ∧
  (D U).is_single = true

/-- The Registry holds an instance under the identity `U`. -/
def Registered (s : Container) (U : type_id_t) : Prop :=
  ∃ p, p ≠ 0 ∧ map_find s._services U = some p

/-- The relation `Needs D T U` : making a `T` asks the container for a `U` that
is looked up or made on the spot: `U` is `T`, a dependency of `T`, or a
dependency of a dependency that is not a singleton (the dependencies of a
singleton are resolved only when the singleton is made). -/
inductive Needs (D : Decls) : type_id_t → type_id_t → Prop where
  | refl (T : type_id_t) : Needs D T T
  | step (T V U : type_id_t) : ¬ is_singleton D T → V ∈ deps D T → Needs D V U → Needs D T U

/-- Every singleton that making a `T` needs is registered. -/
def SingletonsResolved (D : Decls) (s : Container) (T : type_id_t) : Prop :=
  ∀ U, Needs D T U → is_singleton D U → Registered s U

/-- The relation "`V` is a dependency of `U`" (a parameter of the factory or of an
autocall method of `U` has service type `V`), on the types that `T` reaches. -/
def depends_on (D : Decls) (T : type_id_t) (V U : type_id_t) : Prop :=
  Reaches D T U ∧ V ∈ deps D U

/-- The world after `clear()` on `demo_container2` in `demo_world3`, with the
elements destroyed first to last. -/
def demo_world6 : World :=
  { heap := [], next := 3,
    trace := demo_world3.trace ++ [Event.destroy 1 1, Event.destroy 3 3, Event.destroy 2 2] }

/-- The container after `clear()` and a following `service<2>()`. -/
def demo_container7 : Container :=
  { _instances := [{ get := 4, deleter := 1 }, { get := 6, deleter := 3 }, { get := 5, deleter := 2 }],
    _services := [(2, 5), (1, 4), (3, 6)],
    dynamic_type := [] }

/-- The world after `clear()` and a following `service<2>()`. -/
def demo_world7 : World :=
  { heap := [(6, Obj.ServiceOverride 2 3 5), (5, Obj.service 2 42), (4, Obj.service 1 10)],
    next := 6,
    trace := demo_world6.trace
      ++ [Event.call (FnId.construct 1) [],
          Event.alloc 4 (Obj.service 1 10),
          Event.call (FnId.construct 2) [Arg.ref 4],
          Event.call (FnId.autocall 2 0) [Arg.ref 4],
          Event.call (FnId.autocall 2 1) [],
          Event.alloc 5 (Obj.service 2 42),
          Event.alloc 6 (Obj.ServiceOverride 2 3 5)] }

/-! ## Registry entries and the objects they refer to -/

/-- The pointer `p` is held by an entry of the Instance Store of one of the
containers: that container owns the object at `p`. -/
def Process.Owned (s : Process) (p : Ptr) : Prop :=
  ∃ (j : Nat) (c : Container) (e : instance_ptr),
    s.containers[j]? = some c ∧ e ∈ c._instances ∧ e.get = p

/-- Every instance pointer held in the Registry of a container refers to an
object that the Instance Store of some container owns. -/
def Process.RegistryValid (s : Process) : Prop :=
  ∀ (j : Nat) (c : Container) (k : type_id_t) (p : Ptr),
    s.containers[j]? = some c → map_find c._services k = some p → p ≠ 0 → s.Owned p

/-- Every instance pointer held in the Registry of a container is an allocated
address at which an object lives. -/
def Process.RegistryLive (s : Process) : Prop :=
  ∀ (j : Nat) (c : Container) (k : type_id_t) (p : Ptr),
    s.containers[j]? = some c → map_find c._services k = some p → p ≠ 0 →
    p ≤ s.world.next ∧ ∃ o, heap_find s.world.heap p = some o

/-- No Registry of another container holds a pointer to an object that
container `i` owns. -/
def Process.Unshared (s : Process) (i : Nat) : Prop :=
  ∀ (j : Nat) (c d : Container) (k : type_id_t) (p : Ptr),
    j ≠ i → s.containers[j]? = some c → s.containers[i]? = some d →
    map_find c._services k = some p → p ≠ 0 → ∀ e, e ∈ d._instances → e.get ≠ p

/-- The program states reached from default-constructed containers by
`instance`, `service`, `fork`, `merge`, and by `clear` on a container whose
objects no other Registry refers to. -/
inductive Process.Reachable (D : Decls) : Process → Prop where
  | init (n : Nat) :
      Process.Reachable D { containers := List.replicate n empty_container, world := empty_world }
  | service (s : Process) (fuel i : Nat) (T : type_id_t) (args : List Arg) :
      Process.Reachable D s → Process.Reachable D (s.service fuel D i T args)
  | instance_value (s : Process) (i : Nat) (T : type_id_t) (v : Val) :
      Process.Reachable D s → Process.Reachable D (s.instance_value D i T v)
  | instance_new (s : Process) (fuel i : Nat) (T : type_id_t) (args : List Arg) :
      Process.Reachable D s → Process.Reachable D (s.instance_new fuel D i T args)
  | fork (s : Process) (i : Nat) :
      Process.Reachable D s → Process.Reachable D (s.fork i)
  | merge (s : Process) (i j : Nat) :
      Process.Reachable D s → Process.Reachable D (s.merge i j)
  | clear (order : DestructionOrder) (s : Process) (i : Nat) :
      Process.Reachable D s → (∀ v, (order v).Perm v) → s.Unshared i →
      Process.Reachable D (s.clear order i)

/-- The container `s1` holds the Instance Store entries of `s` and more, and
every instance pointer in its Registry is one the Registry of `s` held or one
that its Instance Store holds. -/
def StoreGrows (s s1 : Container) : Prop :=
  (∃ new, s1._instances = s._instances ++ new) ∧
  ∀ k p, map_find s1._services k = some p → p ≠ 0 →
    (∃ k0, map_find s._services k0 = some p) ∨ ∃ e, e ∈ s1._instances ∧ e.get = p

/-- The allocation counter does not decrease, the objects at the addresses
allocated before stay, and every instance pointer in the Registry of `s1` is
one the Registry of `s` held or an address allocated since, at which an
object lives. -/
def HeapGrows (s : Container) (w : World) (s1 : Container) (w1 : World) : Prop :=
  w.next ≤ w1.next ∧
  (∀ p, p ≤ w.next → heap_find w1.heap p = heap_find w.heap p) ∧
  ∀ k p, map_find s1._services k = some p → p ≠ 0 →
    (∃ k0, map_find s._services k0 = some p) ∨
    (w.next < p ∧ p ≤ w1.next ∧ ∃ o, heap_find w1.heap p = some o)

/-- A fork of `demo_container1`. -/
def demo_fork1 : Container :=
  { _instances := [], _services := [(1, 1)], dynamic_type := [] }

/-! ## Counting constructions -/

/-- The number of calls of the factory of `U` in a trace. -/
def constructions (U : type_id_t) (tr : List Event) : Nat :=
  (calls_of (FnId.construct U) tr).length

/-- What holds of the state a call returns with, and of the state it throws with. -/
def Outcome.Sat2 {α : Type} (o : Outcome α) (Rok Rthrow : Container → World → Prop) : Prop :=
  match o with
  | .ok _ s w => Rok s w
  | .throw _ s w => Rthrow s w
  | .undefined => True
  | .ill_formed => True
  | .out_of_fuel => True

/-- A relation `Qok` between the states before and after steps that return, and a
relation `Qthrow` for a run of steps of which the last one throws. -/
structure TwoLevel (Qok Qthrow : Container → World → Container → World → Prop) : Prop where
  refl : ∀ s w, Qok s w s w
  refl_throw : ∀ s w, Qthrow s w s w
  trans : ∀ s w s1 w1 s2 w2, Qok s w s1 w1 → Qok s1 w1 s2 w2 → Qok s w s2 w2
  trans_throw : ∀ s w s1 w1 s2 w2, Qok s w s1 w1 → Qthrow s1 w1 s2 w2 → Qthrow s w s2 w2

/-- Between two states, over steps that returned: an instance registered under
`U` stays registered, and the factory of `U` has not been called, or has been
called once, with `U` not registered before and registered after. -/
def OnceOk (U : type_id_t) (s : Container) (w : World) (s1 : Container) (w1 : World) : Prop :=
  (Registered s U → Registered s1 U) ∧
  (constructions U w1.trace = constructions U w.trace ∨
    (constructions U w1.trace = constructions U w.trace + 1 ∧
      ¬ Registered s U ∧ Registered s1 U))

/-- Between two states, over steps of which the last one threw: the factory of
`U` has been called at most once, and not at all when `U` was registered. -/
def OnceThrow (U : type_id_t) (s : Container) (w : World) (_s1 : Container) (w1 : World) : Prop :=
  (Registered s U → constructions U w1.trace = constructions U w.trace) ∧
  constructions U w1.trace ≤ constructions U w.trace + 1

/-- Service definitions with a cycle: the singleton `1` is made from the
transient `2`, which is made from `1`. -/
def demo_cycle : Decls := fun T =>
  match T with
  | 1 => { no_service with is_single := true, construct_params := [2] }
  | 2 => { no_service with construct_params := [1] }
  | _ => no_service

/-! ## Live instances of a singleton -/

/-- Whether the object at the address `p` is a service object of type `U`. -/
def is_live (heap : List (Ptr × Obj)) (U : type_id_t) (p : Ptr) : Bool :=
  match heap_find heap p with
  | some (Obj.service V _) => decide (V = U)
  | _ => false

/-- The entries of the Instance Store that hold a live object of the service
type `U` (the override adapters are objects of their own class). -/
def live_instances (s : Container) (w : World) (U : type_id_t) : instance_cont :=
  s._instances.filter fun e => is_live w.heap U e.get

/-- The Instance Store holds addresses that have been allocated, among them at
most one live `U`, which is then registered. -/
def OneLive (U : type_id_t) (s : Container) (w : World) : Prop :=
  (∀ e, e ∈ s._instances → e.get ≤ w.next) ∧
  (live_instances s w U).length ≤ 1 ∧
  ((live_instances s w U).length = 1 → Registered s U)

/-- The states of one container reached from a default-constructed one by
`service` calls and by `instance` calls for a type under whose identity
no instance is registered at that moment. -/
inductive Container.Reachable (D : Decls) : Container → World → Prop where
  | init (dt : List type_id_t) (w : World) :
      Container.Reachable D { _instances := [], _services := [], dynamic_type := dt } w
  | service (s : Container) (w : World) (fuel : Nat) (T : type_id_t) (args : List Arg)
      (s1 : Container) (w1 : World) :
      Container.Reachable D s w → (kgr.service fuel D T args s w).final = some (s1, w1) →
      Container.Reachable D s1 w1
  | instance_value (s : Container) (w : World) (T : type_id_t) (v : Val)
      (s1 : Container) (w1 : World) :
      Container.Reachable D s w → ¬ Registered s T →
      (kgr.instance_value D T v s w).final = some (s1, w1) → Container.Reachable D s1 w1
  | instance_new (s : Container) (w : World) (fuel : Nat) (T : type_id_t) (args : List Arg)
      (s1 : Container) (w1 : World) :
      Container.Reachable D s w → ¬ Registered s T →
      (kgr.instance_new fuel D T args s w).final = some (s1, w1) → Container.Reachable D s1 w1

/-- The container after `service<1>()` and `instance(x)` with a second service `1`. -/
def demo_container8 : Container :=
  { _instances := [{ get := 1, deleter := 1 }, { get := 2, deleter := 1 }],
    _services := [(1, 2)], dynamic_type := [] }

/-- An identity that has an entry in the Registry of `s` has one in the
Registry of `s1`. -/
def KeysKept (s s1 : Container) : Prop :=
  ∀ k, map_find s._services k ≠ none → map_find s1._services k ≠ none

/-- The container after the failed `service<3>()` on the empty container. -/
def demo_polluted : Container :=
  { empty_container with _services := [(3, 0)] }

/-- A fork of `demo_polluted` after `instance(x)` with a service `6`, which
declares the parents `3` and `8`. -/
def demo_container9 : Container :=
  { _instances := [{ get := 2, deleter := 3 }, { get := 3, deleter := 8 }, { get := 1, deleter := 6 }],
    _services := [(3, 2), (8, 3), (6, 1)],
    dynamic_type := [] }

/-- The world after that `instance(x)`. -/
def demo_world9 : World :=
  { heap := [(3, Obj.ServiceOverride 6 8 1), (2, Obj.ServiceOverride 6 3 1), (1, Obj.service 6 60)],
    next := 3,
    trace := [Event.alloc 1 (Obj.service 6 60), Event.alloc 2 (Obj.ServiceOverride 6 3 1),
              Event.alloc 3 (Obj.ServiceOverride 6 8 1)] }

/-- Service definitions with a cycle that the order of evaluation decides: the
singleton `1` is made from the transient `2` and the abstract singleton `3`,
in the order `order`, and `2` is made from `1`. -/
def demo_cycle2 (order : EvalOrder) : Decls := fun T =>
  match T with
  | 1 =>
    { no_service with is_single := true, construct_params := [2, 3], construct_order := order }
  | 2 => { no_service with construct_params := [1] }
  | 3 => { no_service with is_single := true, is_abstract := true }
  | _ => no_service

/-! ## The Registry as a finite map -/

theorem map_find_assign_self (m : service_cont) (k : type_id_t) (v : Ptr) :
    map_find (map_assign m k v) k = some v := by
  induction m with
  | nil => simp [map_assign, map_find]
  | cons kv m ih =>
    obtain ⟨k', v'⟩ := kv
    by_cases h : k' = k
    · simp [map_assign, map_find, h]
    · simp [map_assign, map_find, h, ih]

theorem map_find_assign_ne (m : service_cont) (k k2 : type_id_t) (v : Ptr) (hne : k ≠ k2) :
    map_find (map_assign m k v) k2 = map_find m k2 := by
  induction m with
  | nil => simp [map_assign, map_find, hne]
  | cons kv m ih =>
    obtain ⟨k', v'⟩ := kv
    by_cases h : k' = k
    · subst h
      simp [map_assign, map_find, hne]
    · by_cases h2 : k' = k2
      · subst h2
        simp [map_assign, map_find, h]
      · simp [map_assign, map_find, h, h2, ih]

theorem map_find_append (m m2 : service_cont) (k : type_id_t) :
    map_find (m ++ m2) k = (map_find m k).or (map_find m2 k) := by
  induction m with
  | nil => simp [map_find]
  | cons kv m ih =>
    obtain ⟨k', v'⟩ := kv
    by_cases h : k' = k
    · simp [map_find, h]
    · simp [map_find, h, ih]

theorem map_find_insert (m : service_cont) (kv : type_id_t × Ptr) (k : type_id_t) :
    map_find (map_insert m kv) k = (map_find m k).or (if kv.1 = k then some kv.2 else none) := by
  unfold map_insert
  cases hk : map_find m kv.1 with
  | some v0 =>
    by_cases h : kv.1 = k
    · subst h
      simp [hk]
    · simp [h]
  | none =>
    obtain ⟨k', v'⟩ := kv
    simp only [map_find_append, map_find]

theorem map_find_insert_range (m other : service_cont) (k : type_id_t) :
    map_find (map_insert_range m other) k = (map_find m k).or (map_find other k) := by
  unfold map_insert_range
  induction other generalizing m with
  | nil => simp [map_find]
  | cons kv other ih =>
    obtain ⟨k', v'⟩ := kv
    rw [List.foldl_cons, ih, map_find_insert]
    by_cases h : k' = k
    · cases hm : map_find m k <;> simp [map_find, h]
    · cases hm : map_find m k <;> simp [map_find, h]

theorem map_index_fst (m : service_cont) (k : type_id_t) :
    (map_index m k).1 = (map_find m k).getD 0 := by
  unfold map_index
  cases map_find m k <;> rfl

theorem map_find_index (m : service_cont) (k k2 : type_id_t) :
    map_find (map_index m k).2 k2
      = (map_find m k2).or (if k = k2 then some 0 else none) := by
  unfold map_index
  cases hk : map_find m k with
  | some v =>
    by_cases h : k = k2
    · subst h
      simp [hk]
    · simp [h]
  | none => simp only [map_find_append, map_find]

theorem map_index_hit (m : service_cont) (k : type_id_t) (h : (map_index m k).1 ≠ 0) :
    (map_index m k).2 = m ∧ map_find m k = some (map_index m k).1 := by
  unfold map_index at h ⊢
  cases hk : map_find m k with
  | some v => simp
  | none => simp [hk] at h

/-! ## Sequencing of outcomes -/

@[simp] theorem Outcome.bind_ok {α β : Type} (a : α) (s : Container) (w : World)
    (k : α → Container → World → Outcome β) : (Outcome.ok a s w).bind k = k a s w := rfl

@[simp] theorem Outcome.bind_throw {α β : Type} (e : Err) (s : Container) (w : World)
    (k : α → Container → World → Outcome β) :
    (Outcome.throw e s w : Outcome α).bind k = Outcome.throw e s w := rfl

@[simp] theorem Outcome.bind_undefined {α β : Type} (k : α → Container → World → Outcome β) :
    (Outcome.undefined : Outcome α).bind k = Outcome.undefined := rfl

@[simp] theorem Outcome.bind_ill_formed {α β : Type} (k : α → Container → World → Outcome β) :
    (Outcome.ill_formed : Outcome α).bind k = Outcome.ill_formed := rfl

@[simp] theorem Outcome.bind_out_of_fuel {α β : Type} (k : α → Container → World → Outcome β) :
    (Outcome.out_of_fuel : Outcome α).bind k = Outcome.out_of_fuel := rfl

theorem Outcome.bind_eq_ok {α β : Type} {o : Outcome α} {k : α → Container → World → Outcome β}
    {b : β} {s : Container} {w : World} :
    o.bind k = Outcome.ok b s w ↔ ∃ a s1 w1, o = Outcome.ok a s1 w1 ∧ k a s1 w1 = Outcome.ok b s w := by
  cases o with
  | ok a0 s0 w0 =>
    constructor
    · intro h
      exact ⟨a0, s0, w0, rfl, h⟩
    · rintro ⟨a, s1, w1, h1, h2⟩
      injection h1 with ha hs hw
      subst ha hs hw
      exact h2
  | _ => simp

theorem Outcome.bind_eq_throw {α β : Type} {o : Outcome α} {k : α → Container → World → Outcome β}
    {e : Err} {s : Container} {w : World} :
    o.bind k = Outcome.throw e s w ↔
      o = Outcome.throw e s w ∨ ∃ a s1 w1, o = Outcome.ok a s1 w1 ∧ k a s1 w1 = Outcome.throw e s w := by
  cases o with
  | ok a0 s0 w0 =>
    constructor
    · intro h
      exact Or.inr ⟨a0, s0, w0, rfl, h⟩
    · rintro (h | ⟨a, s1, w1, h1, h2⟩)
      · cases h
      · injection h1 with ha hs hw
        subst ha hs hw
        exact h2
  | _ => simp

/-! ## Storing an instance -/

theorem save_instance_helper_fst (T : type_id_t) (parents : List type_id_t) (service : instance_ptr)
    (self : Container) (w : World) :
    (save_instance_helper T parents service self w).1 = service.get := by
  induction parents generalizing self w with
  | nil => rfl
  | cons P Ps ih => simp only [save_instance_helper, ih]

theorem save_instance_helper_find_self (T : type_id_t) (parents : List type_id_t)
    (service : instance_ptr) (self : Container) (w : World) :
    map_find (save_instance_helper T parents service self w).2.1._services T = some service.get := by
  induction parents generalizing self w with
  | nil => simp [save_instance_helper, map_find_assign_self]
  | cons P Ps ih => simp only [save_instance_helper, ih]

theorem save_instance_fst (D : Decls) (T : type_id_t) (v : Val) (self : Container) (w : World) :
    (save_instance D T v self w).1 = w.next + 1 := by
  unfold save_instance
  cases (D T).ParentTypes <;> simp [save_instance_helper_fst, makeInstancePtr]

theorem save_instance_find_self (D : Decls) (T : type_id_t) (v : Val) (self : Container) (w : World) :
    map_find (save_instance D T v self w).2.1._services T = some (w.next + 1) := by
  unfold save_instance
  cases (D T).ParentTypes <;> simp [save_instance_helper_find_self, makeInstancePtr]

/-- After a successful `get_service<T>()` of a singleton the Registry holds the
returned, non-null pointer under the identity of `T`. -/
theorem get_service_single_ok (D : Decls) (T : type_id_t) (fuel : Nat) (self self1 : Container)
    (w w1 : World) (a : Arg)
    (hC : (D T).is_container_service = false)
    (hB : (D T).is_base_of_container_service = false)
    (hS : (D T).is_single = true)
    (h : get_service fuel D T [] self w = Outcome.ok a self1 w1) :
    ∃ p, p ≠ 0 ∧ a = Arg.ref p ∧ map_find self1._services T = some p := by
  cases fuel with
  | zero => simp [get_service] at h
  | succ n =>
    simp only [get_service, hC, hB, hS, if_true, Bool.false_eq_true, if_false] at h
    by_cases hit : (map_index self._services T).1 ≠ 0
    · rw [if_pos hit] at h
      obtain ⟨hm, hf⟩ := map_index_hit _ _ hit
      injection h with ha hs hw
      subst ha hs hw
      exact ⟨_, hit, rfl, by simpa [hm] using hf⟩
    · rw [if_neg hit] at h
      obtain ⟨p, s2, w2, hsave, hk⟩ := Outcome.bind_eq_ok.mp h
      injection hk with ha hs hw
      subst ha hs hw
      unfold save_new_instance at hsave
      rw [if_pos hS] at hsave
      by_cases hA : (D T).is_abstract = true
      · simp [hA] at hsave
      · rw [if_neg hA] at hsave
        obtain ⟨v, s3, w3, _, hk2⟩ := Outcome.bind_eq_ok.mp hsave
        injection hk2 with hp hs hw
        subst hp hs hw
        exact ⟨_, by rw [save_instance_fst]; exact Nat.succ_ne_zero _, rfl,
          by rw [save_instance_find_self, save_instance_fst]⟩

theorem map_index_of_find (m : service_cont) (k : type_id_t) (p : Ptr)
    (h : map_find m k = some p) : map_index m k = (p, m) := by
  simp [map_index, h]

/-- A Registry hit: the stored pointer is returned and nothing changes. -/
theorem get_service_hit (D : Decls) (T : type_id_t) (fuel : Nat) (self : Container) (w : World)
    (p : Ptr)
    (hC : (D T).is_container_service = false)
    (hB : (D T).is_base_of_container_service = false)
    (hS : (D T).is_single = true)
    (hf : map_find self._services T = some p) (hp : p ≠ 0) :
    get_service (fuel + 1) D T [] self w = Outcome.ok (Arg.ref p) self w := by
  simp only [get_service, hC, hB, hS, if_true, Bool.false_eq_true, if_false]
  rw [map_index_of_find _ _ _ hf]
  simp [hp]

/-- C1 (singleton uniqueness).  If `service<T>()` of a singleton `T` returns,
then the Registry holds a non-null pointer under the identity of `T` and the
returned reference is what that pointer forwards to; a second `service<T>()`
(with any positive fuel) returns the same reference and leaves the container,
the heap and the trace exactly as they are: no factory, no autocall method
and no `new` runs, and no Instance Store entry is added. -/
theorem singleton_uniqueness (D : Decls) (T : type_id_t) (fuel fuel2 : Nat)
    (self self1 : Container) (w w1 : World) (r : Arg)
    (hC : (D T).is_container_service = false)
    (hB : (D T).is_base_of_container_service = false)
    (hS : (D T).is_single = true)
    (h : service fuel D T [] self w = Outcome.ok r self1 w1) :
    (∃ p, p ≠ 0 ∧ map_find self1._services T = some p ∧ r = forward w1.heap (Arg.ref p)) ∧
    service (fuel2 + 1) D T [] self1 w1 = Outcome.ok r self1 w1 := by
  unfold service at h
  obtain ⟨a, s, w2, hg, hk⟩ := Outcome.bind_eq_ok.mp h
  injection hk with hr hs hw
  subst hs hw
  obtain ⟨p, hp, ha, hf⟩ := get_service_single_ok D T fuel self s w w2 a hC hB hS hg
  subst ha
  refine ⟨⟨p, hp, hf, hr.symm⟩, ?_⟩
  unfold service
  rw [get_service_hit D T fuel2 s w2 p hC hB hS hf hp]
  simp [hr]

theorem singleton_uniqueness_witness :
    (∃ p, p ≠ 0 ∧ map_find demo_container1._services 1 = some p ∧
      Arg.ref 1 = forward demo_world1.heap (Arg.ref p)) ∧
    service (0 + 1) demo 1 [] demo_container1 demo_world1
      = Outcome.ok (Arg.ref 1) demo_container1 demo_world1 :=
  singleton_uniqueness demo 1 1 0 empty_container demo_container1 empty_world demo_world1
    (Arg.ref 1) (by decide) (by decide) (by decide) (by decide)

/-- What a lookup in the Registry sees under an identity: the stored pointer,
or null when there is no entry. -/
theorem map_index_fst_eq_zero (m : service_cont) (k : type_id_t) :
    (map_index m k).1 = 0 ↔ (map_find m k = none ∨ map_find m k = some 0) := by
  rw [map_index_fst]
  cases map_find m k <;> simp

/-- C2 as amended (merge transfer).  After `parent.merge(child)` the Registry
of `parent` maps an identity under which it had no entry to what the Registry
of `child` maps it to, and an identity that it mapped to an instance to that
same instance, whatever the Registry of `child` holds under it: `insert` keeps
the existing entry on a collision. -/
theorem merge_transfer (parent child : Container) (k : type_id_t) :
    (map_find parent._services k = none →
      map_find (merge parent child).1._services k = map_find child._services k) ∧
    (∀ q, q ≠ 0 → map_find parent._services k = some q →
      map_find (merge parent child).1._services k = some q) := by
  simp only [merge, map_find_insert_range]
  constructor
  · intro h
    rw [h]
    rfl
  · intro q _ h
    rw [h]
    rfl

/-- C2 refuted as stated: `parent` holds an instance of service `1` at address
`1`; `child`, forked from it, registers its own instance of service `1` (at
address `2`); after `parent.merge(child)` the Registry of `parent` still maps
`1` to address `1`, not to the instance `child` had. -/
theorem merge_transfer_counterexample :
    instance_value demo 1 11 (fork demo_container1) demo_world1
      = Outcome.ok () demo_child demo_world2 ∧
    map_find demo_child._services 1 = some 2 ∧
    map_find demo_container1._services 1 = some 1 ∧
    map_find (merge demo_container1 demo_child).1._services 1 = some 1 ∧
    map_find (merge demo_container1 demo_child).1._services 1
      ≠ map_find demo_child._services 1 := by
  decide

/-- C9 (abstract singleton failure).  For an abstract singleton `T`,
`service<T>()` returns the registered instance when the Registry holds a
non-null pointer under `T`, and throws `out_of_range` otherwise; it throws if
and only if the Registry holds no instance (no entry, or a null entry).  In
both cases the heap and the trace are unchanged: no factory is invoked. -/
theorem abstract_singleton_failure (D : Decls) (T : type_id_t) (fuel : Nat)
    (self : Container) (w : World)
    (hC : (D T).is_container_service = false)
    (hB : (D T).is_base_of_container_service = false)
    (hS : (D T).is_single = true)
    (hA : (D T).is_abstract = true) :
    (∀ p, map_find self._services T = some p → p ≠ 0 →
      service (fuel + 1) D T [] self w = Outcome.ok (forward w.heap (Arg.ref p)) self w) ∧
    ((map_find self._services T = none ∨ map_find self._services T = some 0) →
      service (fuel + 1) D T [] self w
        = Outcome.throw Err.out_of_range
            { self with _services := (map_index self._services T).2 } w) ∧
    ((∃ s1 w1, service (fuel + 1) D T [] self w = Outcome.throw Err.out_of_range s1 w1) ↔
      (map_find self._services T = none ∨ map_find self._services T = some 0)) := by
  have hit : ∀ p, map_find self._services T = some p → p ≠ 0 →
      service (fuel + 1) D T [] self w = Outcome.ok (forward w.heap (Arg.ref p)) self w := by
    intro p hf hp
    unfold service
    rw [get_service_hit D T fuel self w p hC hB hS hf hp]
    rfl
  have miss : (map_find self._services T = none ∨ map_find self._services T = some 0) →
      service (fuel + 1) D T [] self w
        = Outcome.throw Err.out_of_range
            { self with _services := (map_index self._services T).2 } w := by
    intro h0
    have hz := (map_index_fst_eq_zero self._services T).mpr h0
    unfold service
    simp [get_service, hC, hB, hS, hA, hz, save_new_instance]
  refine ⟨hit, miss, ?_, fun h0 => ⟨_, _, miss h0⟩⟩
  rintro ⟨s1, w1, hthrow⟩
  cases hf : map_find self._services T with
  | none => exact Or.inl rfl
  | some p =>
    by_cases hp : p = 0
    · subst hp
      exact Or.inr rfl
    · rw [hit p hf hp] at hthrow
      cases hthrow

theorem abstract_singleton_failure_witness :
    (∀ p, map_find demo_container1._services 3 = some p → p ≠ 0 →
      service (0 + 1) demo 3 [] demo_container1 demo_world1
        = Outcome.ok (forward demo_world1.heap (Arg.ref p)) demo_container1 demo_world1) ∧
    ((map_find demo_container1._services 3 = none ∨ map_find demo_container1._services 3 = some 0) →
      service (0 + 1) demo 3 [] demo_container1 demo_world1
        = Outcome.throw Err.out_of_range
            { demo_container1 with _services := (map_index demo_container1._services 3).2 }
            demo_world1) ∧
    ((∃ s1 w1, service (0 + 1) demo 3 [] demo_container1 demo_world1
        = Outcome.throw Err.out_of_range s1 w1) ↔
      (map_find demo_container1._services 3 = none ∨
        map_find demo_container1._services 3 = some 0)) :=
  abstract_singleton_failure demo 3 0 demo_container1 demo_world1
    (by decide) (by decide) (by decide) (by decide)

/-! ## Fork -/

theorem Process.commit_get_ne {α : Type} (s : Process) (i j : Nat) (o : Outcome α) (h : i ≠ j) :
    (s.commit i o).containers[j]? = s.containers[j]? := by
  cases o <;> simp [Process.commit, List.getElem?_set_ne h]

theorem Process.service_get_ne (fuel : Nat) (D : Decls) (s : Process) (i j : Nat) (T : type_id_t)
    (args : List Arg) (h : i ≠ j) :
    (s.service fuel D i T args).containers[j]? = s.containers[j]? := by
  unfold Process.service
  cases s.containers[i]? with
  | none => rfl
  | some c => exact Process.commit_get_ne s i j _ h

theorem Process.instance_value_get_ne (D : Decls) (s : Process) (i j : Nat) (T : type_id_t)
    (v : Val) (h : i ≠ j) :
    (s.instance_value D i T v).containers[j]? = s.containers[j]? := by
  unfold Process.instance_value
  cases s.containers[i]? with
  | none => rfl
  | some c => exact Process.commit_get_ne s i j _ h

theorem Process.instance_new_get_ne (fuel : Nat) (D : Decls) (s : Process) (i j : Nat)
    (T : type_id_t) (args : List Arg) (h : i ≠ j) :
    (s.instance_new fuel D i T args).containers[j]? = s.containers[j]? := by
  unfold Process.instance_new
  cases s.containers[i]? with
  | none => rfl
  | some c => exact Process.commit_get_ne s i j _ h

theorem Process.fork_get (s : Process) (i : Nat) (parent : Container)
    (hi : s.containers[i]? = some parent) :
    (s.fork i).containers[i]? = some parent ∧
    (s.fork i).containers[s.containers.length]? = some (kgr.fork parent) := by
  have hlt : i < s.containers.length := (List.getElem?_eq_some_iff.mp hi).1
  simp only [Process.fork, hi]
  constructor
  · rw [List.getElem?_append_left hlt]
    exact hi
  · simp

/-- C3 (fork isolation).  Let `parent` be a container in which the singleton
`T` has no instance registered, let `child = parent.fork()` and run
`child.service<T>()`.  Whatever that call does, `parent` is the same container
value afterwards as before the fork (same Registry, same Instance Store), and a
lookup of `T` in `parent` still finds no instance. -/
theorem fork_isolation (D : Decls) (T : type_id_t) (fuel : Nat) (s : Process) (i : Nat)
    (parent : Container)
    (hi : s.containers[i]? = some parent)
    (hT : (map_index parent._services T).1 = 0) :
    (s.fork i).containers[s.containers.length]? = some (kgr.fork parent) ∧
    (s.fork i).containers[i]? = some parent ∧
    ((s.fork i).service fuel D s.containers.length T []).containers[i]? = some parent ∧
    (∀ c, ((s.fork i).service fuel D s.containers.length T []).containers[i]? = some c →
      c._services = parent._services ∧ c._instances = parent._instances ∧
      (map_index c._services T).1 = 0) := by
  have hlt : i < s.containers.length := (List.getElem?_eq_some_iff.mp hi).1
  have hne : s.containers.length ≠ i := by omega
  obtain ⟨h1, h2⟩ := Process.fork_get s i parent hi
  have h3 : ((s.fork i).service fuel D s.containers.length T []).containers[i]? = some parent := by
    rw [Process.service_get_ne _ _ _ _ _ _ _ hne]
    exact h1
  refine ⟨h2, h1, h3, ?_⟩
  intro c hc
  rw [h3] at hc
  injection hc with hc
  subst hc
  exact ⟨rfl, rfl, hT⟩

theorem fork_isolation_witness :
    (demo_process.fork 0).containers[demo_process.containers.length]?
      = some (kgr.fork empty_container) ∧
    (demo_process.fork 0).containers[0]? = some empty_container ∧
    ((demo_process.fork 0).service 1 demo demo_process.containers.length 1 []).containers[0]?
      = some empty_container ∧
    (∀ c, ((demo_process.fork 0).service 1 demo demo_process.containers.length 1 []).containers[0]?
        = some c →
      c._services = empty_container._services ∧ c._instances = empty_container._instances ∧
      (map_index c._services 1).1 = 0) :=
  fork_isolation demo 1 1 demo_process 0 empty_container (by decide) (by decide)

/-- C4 refuted as stated: the parent is forked, then the child resolves the
singleton `1` (a fresh construction, stored in the child) and the parent
registers an instance of `6` under the identities `3`, `8` and `6`.  The
Registry of the parent has no entry for `1`, and the Registry of the child has
no entry for `3`, `8` or `6`: the two containers do not read and write one
map. -/
theorem fork_shares_registry_counterexample :
    ((demo_process.fork 0).service 1 demo 1 1 []).containers
      = [empty_container, demo_container1] ∧
    map_find demo_container1._services 1 = some 1 ∧
    map_find empty_container._services 1 = none ∧
    (((demo_process.fork 0).service 1 demo 1 1 []).instance_value demo 0 6 60).containers
      = [demo_container6, demo_container1] ∧
    map_find demo_container6._services 6 = some 2 ∧
    map_find demo_container1._services 6 = none ∧
    map_find demo_container6._services 3 = some 3 ∧
    map_find demo_container1._services 3 = none := by
  decide

/-- C4 as amended (fork copies the Registry).  Right after
`child = parent.fork()` the child has an empty Instance Store and a Registry
with exactly the entries of the parent, so what is registered in the parent
before the fork is found by lookups in the child.  From then on the two hold
separate maps: `service` and `instance` calls on the parent leave the child
unchanged, and `service` and `instance` calls on the child leave the parent
unchanged. -/
theorem fork_copies_registry (D : Decls) (s : Process) (i : Nat) (parent : Container)
    (hi : s.containers[i]? = some parent) :
    (s.fork i).containers[i]? = some parent ∧
    (s.fork i).containers[s.containers.length]? = some (kgr.fork parent) ∧
    (kgr.fork parent)._instances = [] ∧
    (∀ k, map_find (kgr.fork parent)._services k = map_find parent._services k) ∧
    (∀ fuel T args,
      ((s.fork i).service fuel D i T args).containers[s.containers.length]?
        = some (kgr.fork parent)) ∧
    (∀ T v,
      ((s.fork i).instance_value D i T v).containers[s.containers.length]?
        = some (kgr.fork parent)) ∧
    (∀ fuel T args,
      ((s.fork i).instance_new fuel D i T args).containers[s.containers.length]?
        = some (kgr.fork parent)) ∧
    (∀ fuel T args,
      ((s.fork i).service fuel D s.containers.length T args).containers[i]? = some parent) ∧
    (∀ T v,
      ((s.fork i).instance_value D s.containers.length T v).containers[i]? = some parent) ∧
    (∀ fuel T args,
      ((s.fork i).instance_new fuel D s.containers.length T args).containers[i]?
        = some parent) := by
  have hlt : i < s.containers.length := (List.getElem?_eq_some_iff.mp hi).1
  have hne : s.containers.length ≠ i := by omega
  have hne2 : i ≠ s.containers.length := by omega
  obtain ⟨h1, h2⟩ := Process.fork_get s i parent hi
  refine ⟨h1, h2, rfl, fun _ => rfl, ?_, ?_, ?_, ?_, ?_, ?_⟩
  · intro fuel T args
    rw [Process.service_get_ne _ _ _ _ _ _ _ hne2]
    exact h2
  · intro T v
    rw [Process.instance_value_get_ne _ _ _ _ _ _ hne2]
    exact h2
  · intro fuel T args
    rw [Process.instance_new_get_ne _ _ _ _ _ _ _ hne2]
    exact h2
  · intro fuel T args
    rw [Process.service_get_ne _ _ _ _ _ _ _ hne]
    exact h1
  · intro T v
    rw [Process.instance_value_get_ne _ _ _ _ _ _ hne]
    exact h1
  · intro fuel T args
    rw [Process.instance_new_get_ne _ _ _ _ _ _ _ hne]
    exact h1

theorem fork_copies_registry_witness :
    demo_process.containers[0]? = some empty_container ∧
    (demo_process.fork 0).containers[0]? = some empty_container ∧
    (demo_process.fork 0).containers[demo_process.containers.length]?
      = some (kgr.fork empty_container) ∧
    ((demo_process.fork 0).service 1 demo demo_process.containers.length 1 []).containers[0]?
      = some empty_container :=
  ⟨by decide,
   (fork_copies_registry demo demo_process 0 empty_container (by decide)).1,
   (fork_copies_registry demo demo_process 0 empty_container (by decide)).2.1,
   (fork_copies_registry demo demo_process 0 empty_container (by decide)).2.2.2.2.2.2.2.1 1 1 []⟩

/-! ## The shape of a registration -/

theorem save_instance_helper_instances (T : type_id_t) (parents : List type_id_t)
    (service : instance_ptr) (self : Container) (w : World) :
    (save_instance_helper T parents service self w).2.1._instances
      = self._instances
          ++ (List.enumFrom (w.next + 1) parents).map (fun x => instance_ptr.mk x.1 x.2)
          ++ [service] := by
  induction parents generalizing self w with
  | nil => simp [save_instance_helper]
  | cons P Ps ih =>
    simp only [save_instance_helper, ih, makeInstancePtr, List.enumFrom_cons, List.map_cons,
      List.append_assoc, List.singleton_append, List.cons_append, List.nil_append]

theorem save_instance_helper_trace (T : type_id_t) (parents : List type_id_t)
    (service : instance_ptr) (self : Container) (w : World) :
    (save_instance_helper T parents service self w).2.2.trace
      = w.trace ++ (List.enumFrom (w.next + 1) parents).map
          (fun x => Event.alloc x.1 (Obj.ServiceOverride T x.2 service.get)) := by
  induction parents generalizing self w with
  | nil => simp [save_instance_helper]
  | cons P Ps ih =>
    simp only [save_instance_helper, ih, makeInstancePtr, List.enumFrom_cons, List.map_cons,
      List.append_assoc, List.singleton_append, List.cons_append, List.nil_append]

theorem save_instance_helper_next (T : type_id_t) (parents : List type_id_t)
    (service : instance_ptr) (self : Container) (w : World) :
    (save_instance_helper T parents service self w).2.2.next = w.next + parents.length := by
  induction parents generalizing self w with
  | nil => simp [save_instance_helper]
  | cons P Ps ih =>
    simp only [save_instance_helper, ih, makeInstancePtr, List.length_cons]
    simp only [Ptr]
    omega

theorem save_instance_helper_dynamic_type (T : type_id_t) (parents : List type_id_t)
    (service : instance_ptr) (self : Container) (w : World) :
    (save_instance_helper T parents service self w).2.1.dynamic_type = self.dynamic_type := by
  induction parents generalizing self w with
  | nil => simp [save_instance_helper]
  | cons P Ps ih => simp only [save_instance_helper, ih]

/-- Identities other than `T` and its parents keep their Registry entry. -/
theorem save_instance_helper_find_other (T : type_id_t) (parents : List type_id_t)
    (service : instance_ptr) (self : Container) (w : World) (k : type_id_t)
    (hk : k ≠ T) (hkp : k ∉ parents) :
    map_find (save_instance_helper T parents service self w).2.1._services k
      = map_find self._services k := by
  induction parents generalizing self w with
  | nil => simp [save_instance_helper, map_find_assign_ne _ _ _ _ (Ne.symm hk)]
  | cons P Ps ih =>
    have h1 : P ≠ k := fun h => hkp (by simp [h])
    have h2 : k ∉ Ps := fun h => hkp (by simp [h])
    simp only [save_instance_helper, ih _ _ h2, map_find_assign_ne _ _ _ _ h1]

/-- Each parent identity is mapped to the adapter allocated for it. -/
theorem save_instance_helper_find_parent (T : type_id_t) (parents : List type_id_t)
    (service : instance_ptr) (self : Container) (w : World)
    (hnd : parents.Nodup) (hT : T ∉ parents) (i : Nat) (P : type_id_t)
    (hi : parents[i]? = some P) :
    map_find (save_instance_helper T parents service self w).2.1._services P
      = some (w.next + 1 + i) := by
  induction parents generalizing self w i with
  | nil => simp at hi
  | cons Q Qs ih =>
    have hQ : Q ∉ Qs := (List.nodup_cons.mp hnd).1
    have hQs : Qs.Nodup := (List.nodup_cons.mp hnd).2
    have hT2 : T ∉ Qs := fun h => hT (by simp [h])
    have hTQ : Q ≠ T := fun h => hT (by simp [h])
    cases i with
    | zero =>
      simp only [List.getElem?_cons_zero, Option.some.injEq] at hi
      subst hi
      simp only [save_instance_helper]
      rw [save_instance_helper_find_other T Qs service _ _ Q hTQ hQ]
      simp [map_find_assign_self, makeInstancePtr]
    | succ j =>
      simp only [List.getElem?_cons_succ] at hi
      simp only [save_instance_helper]
      rw [ih _ _ hQs hT2 j hi]
      simp only [makeInstancePtr, Ptr]
      congr 1
      omega

/-- Addresses allocated before the call keep their object. -/
theorem save_instance_helper_heap_old (T : type_id_t) (parents : List type_id_t)
    (service : instance_ptr) (self : Container) (w : World) (p : Ptr) (hp : p ≤ w.next) :
    heap_find (save_instance_helper T parents service self w).2.2.heap p = heap_find w.heap p := by
  induction parents generalizing self w with
  | nil => simp [save_instance_helper]
  | cons Q Qs ih =>
    simp only [save_instance_helper]
    rw [ih _ _ (by simp only [makeInstancePtr, Ptr] at *; omega)]
    have hne : w.next + 1 ≠ p := by simp only [Ptr] at *; omega
    simp [makeInstancePtr, heap_find, hne]

/-- The adapter for the `i`-th parent is a `ServiceOverride` that refers to the
service object. -/
theorem save_instance_helper_heap_parent (T : type_id_t) (parents : List type_id_t)
    (service : instance_ptr) (self : Container) (w : World) (i : Nat) (P : type_id_t)
    (hi : parents[i]? = some P) :
    heap_find (save_instance_helper T parents service self w).2.2.heap (w.next + 1 + i)
      = some (Obj.ServiceOverride T P service.get) := by
  induction parents generalizing self w i with
  | nil => simp at hi
  | cons Q Qs ih =>
    cases i with
    | zero =>
      simp only [List.getElem?_cons_zero, Option.some.injEq] at hi
      subst hi
      simp only [save_instance_helper]
      rw [save_instance_helper_heap_old _ _ _ _ _ _ (by simp only [makeInstancePtr, Ptr]; omega)]
      simp [makeInstancePtr, heap_find]
    | succ j =>
      simp only [List.getElem?_cons_succ] at hi
      simp only [save_instance_helper]
      have h := ih
        { self with _services := map_assign self._services Q
                      (makeInstancePtr Q (Obj.ServiceOverride T Q service.get) w).1.get,
                    _instances := self._instances
                      ++ [(makeInstancePtr Q (Obj.ServiceOverride T Q service.get) w).1] }
        (makeInstancePtr Q (Obj.ServiceOverride T Q service.get) w).2 j hi
      have e : (makeInstancePtr Q (Obj.ServiceOverride T Q service.get) w).2.next + 1 + j
          = w.next + 1 + (j + 1) := by
        simp only [makeInstancePtr, Ptr]
        omega
      rw [e] at h
      exact h

/-- C6 (override registration shape).  For a service `T` that declares the
parent identities `parents` (pairwise distinct, none of them `T`), saving
one instance allocates the `T` object at the next address, appends one adapter
entry per parent, in order, and then the `T` entry to the Instance Store
(`parents.length + 1` entries), maps every parent to its adapter and `T` to the
`T` object in the Registry, every adapter refers to that `T` object, and the
only `T` object allocated is that one. -/
theorem override_registration_shape (D : Decls) (T : type_id_t) (parents : List type_id_t)
    (v : Val) (self : Container) (w : World)
    (hP : (D T).ParentTypes = some parents) (hnd : parents.Nodup) (hT : T ∉ parents) :
    (save_instance D T v self w).1 = w.next + 1 ∧
    (save_instance D T v self w).2.1._instances
      = self._instances
          ++ (List.enumFrom (w.next + 2) parents).map (fun x => instance_ptr.mk x.1 x.2)
          ++ [instance_ptr.mk (w.next + 1) T] ∧
    (save_instance D T v self w).2.1._instances.length
      = self._instances.length + (parents.length + 1) ∧
    (∀ i P, parents[i]? = some P →
      map_find (save_instance D T v self w).2.1._services P = some (w.next + 2 + i) ∧
      heap_find (save_instance D T v self w).2.2.heap (w.next + 2 + i)
        = some (Obj.ServiceOverride T P (w.next + 1))) ∧
    map_find (save_instance D T v self w).2.1._services T = some (w.next + 1) ∧
    heap_find (save_instance D T v self w).2.2.heap (w.next + 1) = some (Obj.service T v) ∧
    (∀ k, k ≠ T → k ∉ parents →
      map_find (save_instance D T v self w).2.1._services k = map_find self._services k) ∧
    (save_instance D T v self w).2.2.trace
      = w.trace ++ Event.alloc (w.next + 1) (Obj.service T v)
          :: (List.enumFrom (w.next + 2) parents).map
              (fun x => Event.alloc x.1 (Obj.ServiceOverride T x.2 (w.next + 1))) := by
  have hinst : (save_instance D T v self w).2.1._instances
      = self._instances
          ++ (List.enumFrom (w.next + 2) parents).map (fun x => instance_ptr.mk x.1 x.2)
          ++ [instance_ptr.mk (w.next + 1) T] := by
    simp only [save_instance, hP, save_instance_helper_instances, makeInstancePtr]
  refine ⟨save_instance_fst D T v self w, hinst, ?_, ?_, save_instance_find_self D T v self w,
    ?_, ?_, ?_⟩
  · rw [hinst]
    simp
  · intro i P hi
    simp only [save_instance, hP]
    constructor
    · rw [save_instance_helper_find_parent T parents _ _ _ hnd hT i P hi]
      simp only [makeInstancePtr, Ptr]
    · have h := save_instance_helper_heap_parent T parents
        (makeInstancePtr T (Obj.service T v) w).1 self
        (makeInstancePtr T (Obj.service T v) w).2 i P hi
      simpa only [makeInstancePtr] using h
  · simp only [save_instance, hP]
    rw [save_instance_helper_heap_old _ _ _ _ _ _ (by simp [makeInstancePtr])]
    simp [makeInstancePtr, heap_find]
  · intro k hk hkp
    simp only [save_instance, hP]
    exact save_instance_helper_find_other T parents _ self _ k hk hkp
  · simp only [save_instance, hP, save_instance_helper_trace, makeInstancePtr,
      List.append_assoc, List.singleton_append]

theorem override_registration_shape_witness :
    (demo 6).ParentTypes = some [3, 8] ∧
    (save_instance demo 6 60 empty_container empty_world).2.1._instances
      = [⟨2, 3⟩, ⟨3, 8⟩, ⟨1, 6⟩] ∧
    map_find (save_instance demo 6 60 empty_container empty_world).2.1._services 6 = some 1 ∧
    heap_find (save_instance demo 6 60 empty_container empty_world).2.2.heap 1
      = some (Obj.service 6 60) :=
  ⟨by decide,
   (override_registration_shape demo 6 [3, 8] 60 empty_container empty_world
      (by decide) (by decide) (by decide)).2.1,
   (override_registration_shape demo 6 [3, 8] 60 empty_container empty_world
      (by decide) (by decide) (by decide)).2.2.2.2.1,
   (override_registration_shape demo 6 [3, 8] 60 empty_container empty_world
      (by decide) (by decide) (by decide)).2.2.2.2.2.1⟩

/-! ## Override aliases -/

theorem save_instance_heap_self (D : Decls) (T : type_id_t) (v : Val) (self : Container)
    (w : World) :
    heap_find (save_instance D T v self w).2.2.heap (w.next + 1) = some (Obj.service T v) := by
  unfold save_instance
  cases (D T).ParentTypes <;>
  · simp only []
    rw [save_instance_helper_heap_old _ _ _ _ _ _ (by simp [makeInstancePtr])]
    simp [makeInstancePtr, heap_find]

/-- Every parent identity ends up mapped either to the service object itself
(when the parent is `T`) or to an adapter that refers to it. -/
theorem save_instance_helper_alias (T : type_id_t) (parents : List type_id_t)
    (service : instance_ptr) (self : Container) (w : World) (Base : type_id_t)
    (hB : Base ∈ parents) :
    ∃ q, map_find (save_instance_helper T parents service self w).2.1._services Base = some q ∧
      (q = service.get ∨
        (w.next < q ∧
          heap_find (save_instance_helper T parents service self w).2.2.heap q
            = some (Obj.ServiceOverride T Base service.get))) := by
  induction parents generalizing self w with
  | nil => simp at hB
  | cons Q Qs ih =>
    simp only [save_instance_helper]
    by_cases hQs : Base ∈ Qs
    · obtain ⟨q, hq, hq2⟩ := ih
        { self with _services := map_assign self._services Q
                      (makeInstancePtr Q (Obj.ServiceOverride T Q service.get) w).1.get,
                    _instances := self._instances
                      ++ [(makeInstancePtr Q (Obj.ServiceOverride T Q service.get) w).1] }
        (makeInstancePtr Q (Obj.ServiceOverride T Q service.get) w).2 hQs
      refine ⟨q, hq, ?_⟩
      rcases hq2 with h | ⟨h1, h2⟩
      · exact Or.inl h
      · refine Or.inr ⟨?_, h2⟩
        simp only [makeInstancePtr, Ptr] at h1 ⊢
        omega
    · have hBQ : Base = Q := by
        rcases List.mem_cons.mp hB with h | h
        · exact h
        · exact absurd h hQs
      subst hBQ
      by_cases hBT : Base = T
      · subst hBT
        exact ⟨service.get, save_instance_helper_find_self _ _ _ _ _, Or.inl rfl⟩
      · refine ⟨w.next + 1, ?_, Or.inr ⟨?_, ?_⟩⟩
        · rw [save_instance_helper_find_other _ _ _ _ _ _ hBT hQs]
          simp [map_find_assign_self, makeInstancePtr]
        · simp only [Ptr]
          omega
        · rw [save_instance_helper_heap_old _ _ _ _ _ _ (by simp [makeInstancePtr])]
          simp [makeInstancePtr, heap_find]

theorem save_instance_aliased (D : Decls) (Impl Base : type_id_t) (parents : List type_id_t)
    (v : Val) (self : Container) (w : World)
    (hP : (D Impl).ParentTypes = some parents) (hB : Base ∈ parents) :
    Aliased (save_instance D Impl v self w).2.1 (save_instance D Impl v self w).2.2 Impl Base
      (save_instance D Impl v self w).1 := by
  have hheap := save_instance_heap_self D Impl v self w
  rw [save_instance_fst]
  refine ⟨Nat.succ_ne_zero _, save_instance_find_self D Impl v self w, ⟨v, hheap⟩, ?_⟩
  have halias := save_instance_helper_alias Impl parents
    (makeInstancePtr Impl (Obj.service Impl v) w).1 self
    (makeInstancePtr Impl (Obj.service Impl v) w).2 Base hB
  have e : save_instance D Impl v self w
      = save_instance_helper Impl parents (makeInstancePtr Impl (Obj.service Impl v) w).1 self
          (makeInstancePtr Impl (Obj.service Impl v) w).2 := by
    simp only [save_instance, hP]
  rw [← e] at halias
  obtain ⟨q, hq, hq2⟩ := halias
  refine ⟨q, ?_, hq, ?_⟩
  · rcases hq2 with h | ⟨h1, _⟩
    · rw [h]
      exact Nat.succ_ne_zero _
    · intro h0
      rw [h0] at h1
      exact Nat.not_lt_zero _ h1
  · rcases hq2 with h | ⟨_, h2⟩
    · rw [h]
      simp only [makeInstancePtr, forward, hheap]
    · simp only [forward, h2, makeInstancePtr]

/-- A `get_service<T>()` that missed the Registry and returned ended with
`save_instance`. -/
theorem get_service_miss_ok (D : Decls) (T : type_id_t) (fuel : Nat) (self self1 : Container)
    (w w1 : World) (a : Arg)
    (hC : (D T).is_container_service = false)
    (hB : (D T).is_base_of_container_service = false)
    (hS : (D T).is_single = true)
    (hmiss : (map_index self._services T).1 = 0)
    (h : get_service fuel D T [] self w = Outcome.ok a self1 w1) :
    ∃ v s2 w2, a = Arg.ref (save_instance D T v s2 w2).1 ∧
      self1 = (save_instance D T v s2 w2).2.1 ∧ w1 = (save_instance D T v s2 w2).2.2 := by
  cases fuel with
  | zero => simp [get_service] at h
  | succ n =>
    simp only [get_service, hC, hB, hS, if_true, Bool.false_eq_true, if_false] at h
    rw [if_neg (by simp [hmiss])] at h
    obtain ⟨p, s2, w2, hsave, hk⟩ := Outcome.bind_eq_ok.mp h
    injection hk with ha hs hw
    subst ha hs hw
    unfold save_new_instance at hsave
    rw [if_pos hS] at hsave
    by_cases hA : (D T).is_abstract = true
    · simp [hA] at hsave
    · rw [if_neg hA] at hsave
      obtain ⟨v, s3, w3, _, hk2⟩ := Outcome.bind_eq_ok.mp hsave
      injection hk2 with hp hs hw
      exact ⟨v, s3, w3, by rw [hp], hs.symm, hw.symm⟩

theorem heap_find_write (heap : List (Ptr × Obj)) (p : Ptr) (T : type_id_t) (v x : Val)
    (h : heap_find heap p = some (Obj.service T v)) :
    heap_find (write heap (Arg.ref p) x) p = some (Obj.service T x) := by
  simp only [write]
  induction heap with
  | nil => simp [heap_find] at h
  | cons e heap ih =>
    obtain ⟨q, o⟩ := e
    by_cases hq : q = p
    · subst hq
      simp only [heap_find, if_true, Option.some.injEq] at h
      subst h
      simp [heap_store, heap_find]
    · simp only [heap_find, hq, if_false] at h
      simp [heap_store, heap_find, hq, ih h]

theorem read_write (heap : List (Ptr × Obj)) (p : Ptr) (T : type_id_t) (v x : Val)
    (h : heap_find heap p = some (Obj.service T v)) :
    read (write heap (Arg.ref p) x) (Arg.ref p) = some x := by
  simp only [read, heap_find_write heap p T v x h]

/-- An `instance<T>(args...)` that returned ended with `save_instance`. -/
theorem instance_new_ok (D : Decls) (T : type_id_t) (fuel : Nat) (args : List Arg)
    (self self1 : Container) (w w1 : World)
    (h : instance_new fuel D T args self w = Outcome.ok () self1 w1) :
    ∃ v s2 w2, self1 = (save_instance D T v s2 w2).2.1 ∧
      w1 = (save_instance D T v s2 w2).2.2 := by
  unfold instance_new at h
  by_cases hS : (D T).is_single = true
  · rw [if_pos hS] at h
    obtain ⟨p, s2, w2, hsave, hk⟩ := Outcome.bind_eq_ok.mp h
    injection hk with _ hs hw
    subst hs hw
    unfold save_new_instance at hsave
    rw [if_pos hS] at hsave
    by_cases hA : (D T).is_abstract = true
    · rw [if_pos hA] at hsave
      cases hsave
    · rw [if_neg hA] at hsave
      obtain ⟨v, s3, w3, _, hk2⟩ := Outcome.bind_eq_ok.mp hsave
      injection hk2 with _ hs hw
      exact ⟨v, s3, w3, hs.symm, hw.symm⟩
  · rw [if_neg hS] at h
    cases h

/-- C5 (override aliasing on lookup).  Let `Impl` be a singleton that declares
the parent identity `Base`.  Registering an `Impl` instance, by `instance(x)`,
by a `service<Impl>()` that misses the Registry and returns, or by an
`instance<Impl>(args...)` that returns, leaves the container in a state where
the Registry maps `Impl` to the stored `Impl` object and `Base` to a pointer
that forwards to that same object.  In every such state `service<Impl>()` and
`service<Base>()` are Registry hits: they return the same reference and leave
the container, the heap and the trace unchanged (no factory runs, no entry is
added); a write through the handle of one is read through the handle of the
other. -/
theorem override_aliasing (D : Decls) (Impl Base : type_id_t) (parents : List type_id_t)
    (hC : (D Impl).is_container_service = false)
    (hB : (D Impl).is_base_of_container_service = false)
    (hS : (D Impl).is_single = true)
    (hC2 : (D Base).is_container_service = false)
    (hB2 : (D Base).is_base_of_container_service = false)
    (hS2 : (D Base).is_single = true)
    (hP : (D Impl).ParentTypes = some parents) (hmem : Base ∈ parents) :
    (∀ v self w, ∃ self1 w1 p,
      instance_value D Impl v self w = Outcome.ok () self1 w1 ∧ Aliased self1 w1 Impl Base p) ∧
    (∀ fuel self w r self1 w1, (map_index self._services Impl).1 = 0 →
      service fuel D Impl [] self w = Outcome.ok r self1 w1 →
      ∃ p, r = Arg.ref p ∧ Aliased self1 w1 Impl Base p) ∧
    (∀ fuel args self w self1 w1,
      instance_new fuel D Impl args self w = Outcome.ok () self1 w1 →
      ∃ p, Aliased self1 w1 Impl Base p) ∧
    (∀ self1 w1 p fuel, Aliased self1 w1 Impl Base p →
      service (fuel + 1) D Impl [] self1 w1 = Outcome.ok (Arg.ref p) self1 w1 ∧
      service (fuel + 1) D Base [] self1 w1 = Outcome.ok (Arg.ref p) self1 w1 ∧
      ∀ hI hB s2 w2 s3 w3,
        service (fuel + 1) D Impl [] self1 w1 = Outcome.ok hI s2 w2 →
        service (fuel + 1) D Base [] self1 w1 = Outcome.ok hB s3 w3 →
        hI = hB ∧ ∀ x, read (write w1.heap hB x) hI = some x ∧
          read (write w1.heap hI x) hB = some x) := by
  refine ⟨?_, ?_, ?_, ?_⟩
  · intro v self w
    refine ⟨_, _, _, ?_, save_instance_aliased D Impl Base parents v self w hP hmem⟩
    simp [instance_value, hS]
  · intro fuel self w r self1 w1 hmiss h
    unfold service at h
    obtain ⟨a, s, w2, hg, hk⟩ := Outcome.bind_eq_ok.mp h
    injection hk with hr hs hw
    subst hs hw
    obtain ⟨v, s3, w3, ha, hs1, hw1⟩ := get_service_miss_ok D Impl fuel self s w w2 a hC hB hS hmiss hg
    have hal := save_instance_aliased D Impl Base parents v s3 w3 hP hmem
    rw [← hs1, ← hw1] at hal
    refine ⟨_, ?_, hal⟩
    obtain ⟨_, _, ⟨v0, hv0⟩, _⟩ := hal
    rw [← hr, ha]
    simp only [forward, hv0]
  · intro fuel args self w self1 w1 h
    obtain ⟨v, s2, w2, hs1, hw1⟩ := instance_new_ok D Impl fuel args self self1 w w1 h
    have hal := save_instance_aliased D Impl Base parents v s2 w2 hP hmem
    rw [← hs1, ← hw1] at hal
    exact ⟨_, hal⟩
  · intro self1 w1 p fuel hal
    obtain ⟨hp, hfI, ⟨v0, hv0⟩, q, hq, hfB, hfw⟩ := hal
    have hsI : service (fuel + 1) D Impl [] self1 w1 = Outcome.ok (Arg.ref p) self1 w1 := by
      unfold service
      rw [get_service_hit D Impl fuel self1 w1 p hC hB hS hfI hp]
      simp only [Outcome.bind_ok, forward, hv0]
    have hsB : service (fuel + 1) D Base [] self1 w1 = Outcome.ok (Arg.ref p) self1 w1 := by
      unfold service
      rw [get_service_hit D Base fuel self1 w1 q hC2 hB2 hS2 hfB hq]
      simp only [Outcome.bind_ok, hfw]
    refine ⟨hsI, hsB, ?_⟩
    intro hI hB s2 w2 s3 w3 h1 h2
    rw [hsI] at h1
    rw [hsB] at h2
    injection h1 with h1 _ _
    injection h2 with h2 _ _
    subst h1 h2
    exact ⟨rfl, fun x => ⟨read_write _ _ _ _ _ hv0, read_write _ _ _ _ _ hv0⟩⟩

theorem override_aliasing_witness :
    service 3 demo 2 [] empty_container empty_world
      = Outcome.ok (Arg.ref 2) demo_container2 demo_world3 ∧
    service (0 + 1) demo 2 [] demo_container2 demo_world3
      = Outcome.ok (Arg.ref 2) demo_container2 demo_world3 ∧
    service (0 + 1) demo 3 [] demo_container2 demo_world3
      = Outcome.ok (Arg.ref 2) demo_container2 demo_world3 := by
  have h := override_aliasing demo 2 3 [3] (by decide) (by decide) (by decide) (by decide)
    (by decide) (by decide) (by decide) (by decide)
  have h1 : service 3 demo 2 [] empty_container empty_world
      = Outcome.ok (Arg.ref 2) demo_container2 demo_world3 := by decide
  obtain ⟨p, hr, hal⟩ := h.2.1 3 empty_container empty_world (Arg.ref 2) demo_container2
    demo_world3 (by decide) h1
  injection hr with hr
  subst hr
  exact ⟨h1, (h.2.2.2 _ _ _ 0 hal).1, (h.2.2.2 _ _ _ 0 hal).2.1⟩

/-! ## An induction principle for resolutions -/

theorem Outcome.sat_bind {α β : Type} (o : Outcome α) (k : α → Container → World → Outcome β)
    (R : Container → World → Prop)
    (hthrow : ∀ e s w, o = Outcome.throw e s w → R s w)
    (hok : ∀ a s w, o = Outcome.ok a s w → (k a s w).Sat R) :
    (o.bind k).Sat R := by
  cases o with
  | ok a s w => exact hok a s w rfl
  | throw e s w =>
    intro s1 w1 h
    simp only [Outcome.bind_throw, Outcome.final, Option.some.injEq, Prod.mk.injEq] at h
    obtain ⟨h1, h2⟩ := h
    subst h1 h2
    exact hthrow e s w rfl
  | undefined => intro s1 w1 h; simp [Outcome.final] at h
  | ill_formed => intro s1 w1 h; simp [Outcome.final] at h
  | out_of_fuel => intro s1 w1 h; simp [Outcome.final] at h

theorem Outcome.sat_of_ok {α : Type} {o : Outcome α} {R : Container → World → Prop}
    (h : o.Sat R) {a : α} {s : Container} {w : World} (ho : o = Outcome.ok a s w) : R s w :=
  h s w (by rw [ho]; rfl)

theorem Outcome.sat_of_throw {α : Type} {o : Outcome α} {R : Container → World → Prop}
    (h : o.Sat R) {e : Err} {s : Container} {w : World} (ho : o = Outcome.throw e s w) : R s w :=
  h s w (by rw [ho]; rfl)

/-- Sequencing two steps that each satisfy a reflexive, transitive relation. -/
theorem Outcome.sat_bind_trans {α β : Type} (Q : Container → World → Container → World → Prop)
    (htrans : ∀ s w s1 w1 s2 w2, Q s w s1 w1 → Q s1 w1 s2 w2 → Q s w s2 w2)
    (o : Outcome α) (k : α → Container → World → Outcome β) (s w)
    (ho : o.Sat (Q s w))
    (hk : ∀ a s1 w1, (k a s1 w1).Sat (Q s1 w1)) :
    (o.bind k).Sat (Q s w) := by
  apply Outcome.sat_bind
  · intro e s1 w1 h
    exact Outcome.sat_of_throw ho h
  · intro a s1 w1 h s2 w2 hf
    exact htrans _ _ _ _ _ _ (Outcome.sat_of_ok ho h) (hk a s1 w1 s2 w2 hf)

theorem resolve_at_sat (Q : Container → World → Container → World → Prop)
    (hrefl : ∀ s w, Q s w s w)
    (htrans : ∀ s w s1 w1 s2 w2, Q s w s1 w1 → Q s1 w1 s2 w2 → Q s w s2 w2)
    (gs : Resolver) (As : List type_id_t)
    (hgs : ∀ A, A ∈ As → ∀ s w, (gs A s w).Sat (Q s w)) (σ : List Nat)
    (s : Container) (w : World) :
    (resolve_at gs As σ s w).Sat (Q s w) := by
  induction σ generalizing s w with
  | nil =>
    intro s1 w1 h
    simp only [resolve_at, Outcome.final, Option.some.injEq, Prod.mk.injEq] at h
    obtain ⟨h1, h2⟩ := h
    subst h1 h2
    exact hrefl _ _
  | cons i σ ih =>
    simp only [resolve_at]
    cases hA : As[i]? with
    | none => exact ih s w
    | some A =>
      apply Outcome.sat_bind_trans Q htrans _ _ _ _ (hgs A (List.getElem?_mem hA) s w)
      intro a s1 w1
      apply Outcome.sat_bind_trans Q htrans _ _ _ _ (ih s1 w1)
      intro rs s2 w2 s3 w3 h
      simp only [Outcome.final, Option.some.injEq, Prod.mk.injEq] at h
      obtain ⟨h1, h2⟩ := h
      subst h1 h2
      exact hrefl _ _

theorem resolve_sat (Q : Container → World → Container → World → Prop)
    (hrefl : ∀ s w, Q s w s w)
    (htrans : ∀ s w s1 w1 s2 w2, Q s w s1 w1 → Q s1 w1 s2 w2 → Q s w s2 w2)
    {order : EvalOrder} (gs : Resolver) (As : List type_id_t)
    (hgs : ∀ A, A ∈ As → ∀ s w, (gs A s w).Sat (Q s w)) (s : Container) (w : World) :
    (resolve order gs As s w).Sat (Q s w) := by
  unfold resolve
  apply Outcome.sat_bind_trans Q htrans _ _ _ _ (resolve_at_sat Q hrefl htrans gs As hgs _ s w)
  intro rs s2 w2 s3 w3 h
  simp only [Outcome.final, Option.some.injEq, Prod.mk.injEq] at h
  obtain ⟨h1, h2⟩ := h
  subst h1 h2
  exact hrefl _ _

theorem call_sat (Q : Container → World → Container → World → Prop)
    (function : Callable) (all : List Arg) (s : Container) (w : World)
    (hcall : Q s w s { w with trace := w.trace ++ [Event.call function.id all] }) :
    (call function all s w).Sat (Q s w) := by
  intro s1 w1 h
  unfold call at h
  cases hb : function.body all with
  | ok r =>
    simp only [hb, Outcome.final, Option.some.injEq, Prod.mk.injEq] at h
    obtain ⟨h1, h2⟩ := h
    subst h1 h2
    exact hcall
  | error e =>
    simp only [hb, Outcome.final, Option.some.injEq, Prod.mk.injEq] at h
    obtain ⟨h1, h2⟩ := h
    subst h1 h2
    exact hcall

theorem invoke_raw_sat (Q : Container → World → Container → World → Prop)
    (hrefl : ∀ s w, Q s w s w)
    (htrans : ∀ s w s1 w1 s2 w2, Q s w s1 w1 → Q s1 w1 s2 w2 → Q s w s2 w2)
    (gs : Resolver) (function : Callable) (args : List Arg)
    (hgs : ∀ A, A ∈ function.params → ∀ s w, (gs A s w).Sat (Q s w))
    (hcall : ∀ all s w, Q s w s { w with trace := w.trace ++ [Event.call function.id all] })
    (s : Container) (w : World) :
    (invoke_raw gs function args s w).Sat (Q s w) := by
  unfold invoke_raw
  split
  · unfold invoke_seq
    apply Outcome.sat_bind_trans Q htrans _ _ _ _
      (resolve_sat Q hrefl htrans gs _ (fun A hA => hgs A (List.mem_of_mem_take hA)) s w)
    intro rs s1 w1
    exact call_sat Q function _ s1 w1 (hcall _ _ _)
  · intro s1 w1 h
    simp [Outcome.final] at h

theorem invoke_service_helper_sat (Q : Container → World → Container → World → Prop)
    (hrefl : ∀ s w, Q s w s w)
    (htrans : ∀ s w s1 w1 s2 w2, Q s w s1 w1 → Q s1 w1 s2 w2 → Q s w s2 w2)
    (gs : Resolver) (T : type_id_t) (chain : List Method)
    (hgs : ∀ m, m ∈ chain → ∀ A, A ∈ m.params → ∀ s w, (gs A s w).Sat (Q s w))
    (hcall : ∀ f all s w, (Event.call f all).owner = some T →
      Q s w s { w with trace := w.trace ++ [Event.call f all] })
    (i : Nat) (service : Val) (s : Container) (w : World) :
    (invoke_service_helper gs T i chain service s w).Sat (Q s w) := by
  induction chain generalizing i service s w with
  | nil =>
    intro s1 w1 h
    simp only [invoke_service_helper, Outcome.final, Option.some.injEq, Prod.mk.injEq] at h
    obtain ⟨h1, h2⟩ := h
    subst h1 h2
    exact hrefl _ _
  | cons m Next ih =>
    simp only [invoke_service_helper]
    apply Outcome.sat_bind_trans Q htrans
    · unfold do_invoke_service
      exact invoke_raw_sat Q hrefl htrans gs
        { id := FnId.autocall T i, params := m.params, body := m.run service, order := m.order } []
        (fun A hA => hgs m (by simp) A hA)
        (fun all s w => hcall (FnId.autocall T i) all s w rfl) s w
    · intro service1 s1 w1
      exact ih (fun m2 hm2 => hgs m2 (by simp [hm2])) (i + 1) service1 s1 w1

theorem make_service_instance_sat (Q : Container → World → Container → World → Prop)
    (hrefl : ∀ s w, Q s w s w)
    (htrans : ∀ s w s1 w1 s2 w2, Q s w s1 w1 → Q s1 w1 s2 w2 → Q s w s2 w2)
    (gs : Resolver) (D : Decls) (T : type_id_t) (args : List Arg)
    (hgs : ∀ A, A ∈ deps D T → ∀ s w, (gs A s w).Sat (Q s w))
    (hcall : ∀ f all s w, (Event.call f all).owner = some T →
      Q s w s { w with trace := w.trace ++ [Event.call f all] })
    (s : Container) (w : World) :
    (make_service_instance gs D T args s w).Sat (Q s w) := by
  unfold make_service_instance
  apply Outcome.sat_bind_trans Q htrans
  · exact invoke_raw_sat Q hrefl htrans gs
      { id := FnId.construct T, params := (D T).construct_params,
        body := (D T).construct, order := (D T).construct_order } args
      (fun A hA => hgs A (by simp only [deps, List.mem_append]; exact Or.inl hA))
      (fun all s w => hcall (FnId.construct T) all s w rfl) s w
  · intro service s1 w1
    unfold invoke_service
    cases hinv : (D T).invoke with
    | none =>
      intro s2 w2 h
      simp only [Outcome.final, Option.some.injEq, Prod.mk.injEq] at h
      obtain ⟨h1, h2⟩ := h
      subst h1 h2
      exact hrefl _ _
    | some chain =>
      refine invoke_service_helper_sat Q hrefl htrans gs T chain ?_ hcall 0 service s1 w1
      intro m hm A hA
      apply hgs
      simp only [deps, chain_of, hinv, List.mem_append, List.mem_flatMap]
      exact Or.inr ⟨m, hm, hA⟩

theorem save_new_instance_sat (Q : Container → World → Container → World → Prop)
    (hrefl : ∀ s w, Q s w s w)
    (htrans : ∀ s w s1 w1 s2 w2, Q s w s1 w1 → Q s1 w1 s2 w2 → Q s w s2 w2)
    (gs : Resolver) (D : Decls) (T : type_id_t) (args : List Arg)
    (hgs : ∀ A, A ∈ deps D T → ∀ s w, (gs A s w).Sat (Q s w))
    (hcall : ∀ f all s w, (Event.call f all).owner = some T →
      Q s w s { w with trace := w.trace ++ [Event.call f all] })
    (hsave : ∀ v s w, Q s w (save_instance D T v s w).2.1 (save_instance D T v s w).2.2)
    (s : Container) (w : World) :
    (save_new_instance gs D T args s w).Sat (Q s w) := by
  unfold save_new_instance
  split
  · split
    · intro s1 w1 h
      simp only [Outcome.final, Option.some.injEq, Prod.mk.injEq] at h
      obtain ⟨h1, h2⟩ := h
      subst h1 h2
      exact hrefl _ _
    · apply Outcome.sat_bind_trans Q htrans _ _ _ _
        (make_service_instance_sat Q hrefl htrans gs D T args hgs hcall s w)
      intro service s1 w1 s2 w2 h
      simp only [Outcome.final, Option.some.injEq, Prod.mk.injEq] at h
      obtain ⟨h1, h2⟩ := h
      subst h1 h2
      exact hsave _ _ _
  · intro s1 w1 h
    simp [Outcome.final] at h

/-- Whatever holds for every step of a resolution holds for `get_service`. -/
theorem get_service_footprint (D : Decls)
    (P : type_id_t → Container → World → Container → World → Prop) (hP : Footprint D P)
    (fuel : Nat) (T : type_id_t) (args : List Arg) (s : Container) (w : World) :
    (get_service fuel D T args s w).Sat (P T s w) := by
  induction fuel generalizing T args s w with
  | zero =>
    intro s1 w1 h
    simp [get_service, Outcome.final] at h
  | succ n ih =>
    have hgs : ∀ A, A ∈ deps D T → ∀ s w,
        ((fun A => get_service n D A []) A s w).Sat (P T s w) := by
      intro A hA s w s1 w1 h
      exact hP.dep T A hA _ _ _ _ (ih A [] s w s1 w1 h)
    have hdone : ∀ {α : Type} (a : α) (s0 : Container) (w0 : World),
        (Outcome.ok a s0 w0).Sat (P T s0 w0) := by
      intro α a s0 w0 s1 w1 h
      simp only [Outcome.final, Option.some.injEq, Prod.mk.injEq] at h
      obtain ⟨h1, h2⟩ := h
      subst h1 h2
      exact hP.refl _ _ _
    have hnone : ∀ {α : Type} (o : Outcome α), o.final = none → o.Sat (P T s w) := by
      intro α o ho s1 w1 h
      rw [ho] at h
      cases h
    simp only [get_service]
    split
    · split
      · exact hdone _ _ _
      · exact hnone _ rfl
    · split
      · split
        · split
          · exact hdone _ _ _
          · exact hnone _ rfl
        · exact hnone _ rfl
      · split
        · split
          · split
            · intro s1 w1 h
              simp only [Outcome.final, Option.some.injEq, Prod.mk.injEq] at h
              obtain ⟨h1, h2⟩ := h
              subst h1 h2
              exact hP.lookup _ _ _
            · intro s1 w1 h
              refine hP.trans T _ _ _ _ _ _ (hP.lookup T s w) ?_
              revert s1 w1
              apply Outcome.sat_bind_trans (P T) (hP.trans T) _ _ _ _
                (save_new_instance_sat (P T) (hP.refl T) (hP.trans T) _ D T [] hgs
                  (hP.call T) (hP.save T) _ w)
              intro p s1 w1
              exact hdone _ _ _
          · exact hnone _ rfl
        · apply Outcome.sat_bind_trans (P T) (hP.trans T) _ _ _ _
            (make_service_instance_sat (P T) (hP.refl T) (hP.trans T) _ D T args hgs
              (hP.call T) s w)
          intro v s1 w1
          exact hdone _ _ _

/-! ## The trace of a resolution -/

theorem save_instance_trace (D : Decls) (T : type_id_t) (v : Val) (s : Container) (w : World) :
    (save_instance D T v s w).2.2.trace = w.trace ++ save_events D T (w.next + 1) v := by
  unfold save_instance save_events parents_of
  cases (D T).ParentTypes <;>
    simp [save_instance_helper_trace, makeInstancePtr, save_instance_helper]

theorem save_events_owner (D : Decls) (T : type_id_t) (p : Ptr) (v : Val) (e : Event)
    (he : e ∈ save_events D T p v) : e.owner = some T := by
  simp only [save_events, List.mem_cons, List.mem_map] at he
  rcases he with h | ⟨x, _, h⟩
  · subst h
    rfl
  · subst h
    rfl

theorem events_of_append (T : type_id_t) (a b : List Event) :
    events_of T (a ++ b) = events_of T a ++ events_of T b := by
  simp [events_of]

theorem events_of_all (T : type_id_t) (evs : List Event)
    (h : ∀ e, e ∈ evs → e.owner = some T) : events_of T evs = evs := by
  simp only [events_of, List.filter_eq_self]
  intro e he
  simp [h e he]

theorem events_of_none (T : type_id_t) (evs : List Event)
    (h : ∀ e, e ∈ evs → e.owner ≠ some T) : events_of T evs = [] := by
  simp only [events_of, List.filter_eq_nil_iff]
  intro e he
  simp [h e he]

theorem TraceWithin.events_of_eq (D : Decls) (A T : type_id_t) (w w1 : World)
    (hno : ¬ Reaches D A T) (h : TraceWithin D A w w1) :
    events_of T w1.trace = events_of T w.trace := by
  obtain ⟨evs, he, hall⟩ := h
  rw [he, events_of_append, events_of_none T evs, List.append_nil]
  intro e hmem hown
  obtain ⟨t, ht, hreach⟩ := hall e hmem
  rw [hown] at ht
  injection ht with ht
  subst ht
  exact hno hreach

/-- The trace relation is a footprint. -/
theorem trace_footprint (D : Decls) :
    Footprint D (fun T _ w _ w1 => TraceWithin D T w w1) where
  refl := fun T s w => ⟨[], by simp, by simp⟩
  trans := by
    rintro T s w s1 w1 s2 w2 ⟨e1, h1, a1⟩ ⟨e2, h2, a2⟩
    refine ⟨e1 ++ e2, by rw [h2, h1, List.append_assoc], ?_⟩
    intro e he
    rcases List.mem_append.mp he with h | h
    · exact a1 e h
    · exact a2 e h
  dep := by
    rintro T V hV s w s1 w1 ⟨e1, h1, a1⟩
    refine ⟨e1, h1, ?_⟩
    intro e he
    obtain ⟨t, ht, hreach⟩ := a1 e he
    exact ⟨t, ht, Reaches.step T V t hV hreach⟩
  lookup := fun T s w => ⟨[], by simp, by simp⟩
  call := by
    intro T f args s w hown
    refine ⟨[Event.call f args], rfl, ?_⟩
    intro e he
    simp only [List.mem_singleton] at he
    subst he
    exact ⟨T, hown, Reaches.refl T⟩
  save := by
    intro T v s w
    refine ⟨_, save_instance_trace D T v s w, ?_⟩
    intro e he
    exact ⟨T, save_events_owner D T _ v e he, Reaches.refl T⟩

/-- Resolving a service that does not reach `T` leaves the events of `T` as they are. -/
theorem get_service_silent (D : Decls) (fuel : Nat) (T A : type_id_t)
    (hA : ¬ Reaches D A T) (s : Container) (w : World) :
    (get_service fuel D A [] s w).Sat
      (fun _ w1 => events_of T w1.trace = events_of T w.trace) := by
  intro s1 w1 h
  exact TraceWithin.events_of_eq D A T w w1 hA
    (get_service_footprint D _ (trace_footprint D) fuel A [] s w s1 w1 h)

/-- A ranking that decreases along dependencies bounds what a type reaches. -/
theorem Reaches.rank_le (D : Decls) (rank : type_id_t → Nat)
    (hrank : ∀ U V, V ∈ deps D U → rank V < rank U) (U t : type_id_t) (h : Reaches D U t) :
    rank t ≤ rank U := by
  induction h with
  | refl T => exact le_refl _
  | step T V U hV _ ih => exact le_trans ih (le_of_lt (hrank T V hV))

/-! ## The events of one construction -/

theorem resolve_silent (T : type_id_t) (gs : Resolver) (As : List type_id_t)
    (hgs : ∀ A, A ∈ As → ∀ s w,
      (gs A s w).Sat (fun _ w1 => events_of T w1.trace = events_of T w.trace))
    {order : EvalOrder} (s : Container) (w : World) :
    (resolve order gs As s w).Sat (fun _ w1 => events_of T w1.trace = events_of T w.trace) :=
  resolve_sat (fun _ w _ w1 => events_of T w1.trace = events_of T w.trace)
    (fun _ _ => rfl) (fun _ _ _ _ _ _ h1 h2 => h2.trans h1) gs As hgs s w

/-- A returning `invoke_raw` of a callable of `T` adds exactly one event of `T`:
the call, with the argument list the body was applied to. -/
theorem invoke_raw_ok_events (T : type_id_t) (gs : Resolver) (function : Callable)
    (args : List Arg)
    (hown : ∀ all, (Event.call function.id all).owner = some T)
    (hgs : ∀ A, A ∈ function.params → ∀ s w,
      (gs A s w).Sat (fun _ w1 => events_of T w1.trace = events_of T w.trace))
    (s s1 : Container) (w w1 : World) (r : Val)
    (h : invoke_raw gs function args s w = Outcome.ok r s1 w1) :
    ∃ all, function.body all = Except.ok r ∧
      events_of T w1.trace = events_of T w.trace ++ [Event.call function.id all] := by
  unfold invoke_raw at h
  split at h
  · unfold invoke_seq at h
    obtain ⟨rs, s2, w2, hres, hcall⟩ := Outcome.bind_eq_ok.mp h
    have hsil := Outcome.sat_of_ok
      (resolve_silent T gs _ (fun A hA => hgs A (List.mem_of_mem_take hA)) s w) hres
    unfold call at hcall
    cases hb : function.body (rs ++ args) with
    | error e => simp [hb] at hcall
    | ok r2 =>
      simp only [hb] at hcall
      injection hcall with hr hs hw
      subst hr hs hw
      refine ⟨rs ++ args, hb, ?_⟩
      simp only [events_of_append, hsil]
      congr 1
      exact events_of_all T _ (by
        intro e he
        simp only [List.mem_singleton] at he
        subst he
        exact hown _)
  · cases h

theorem invoke_service_helper_ok_events (T : type_id_t) (gs : Resolver) (chain : List Method)
    (hgs : ∀ m, m ∈ chain → ∀ A, A ∈ m.params → ∀ s w,
      (gs A s w).Sat (fun _ w1 => events_of T w1.trace = events_of T w.trace))
    (i : Nat) (service v : Val) (s s1 : Container) (w w1 : World)
    (h : invoke_service_helper gs T i chain service s w = Outcome.ok v s1 w1) :
    ∃ hargs : List (List Arg), hargs.length = chain.length ∧
      events_of T w1.trace = events_of T w.trace
        ++ (List.enumFrom i hargs).map (fun x => Event.call (FnId.autocall T x.1) x.2) := by
  induction chain generalizing i service s w with
  | nil =>
    simp only [invoke_service_helper] at h
    injection h with hv hs hw
    subst hv hs hw
    exact ⟨[], rfl, by simp⟩
  | cons m Next ih =>
    simp only [invoke_service_helper] at h
    obtain ⟨service1, s2, w2, hdo, hrest⟩ := Outcome.bind_eq_ok.mp h
    unfold do_invoke_service at hdo
    obtain ⟨all, _, hev⟩ := invoke_raw_ok_events T gs
      { id := FnId.autocall T i, params := m.params, body := m.run service, order := m.order } []
      (fun _ => rfl) (fun A hA => hgs m (by simp) A hA) s s2 w w2 service1 hdo
    obtain ⟨hargs, hlen, hev2⟩ := ih (fun m2 hm2 => hgs m2 (by simp [hm2])) (i + 1) service1
      s2 w2 hrest
    refine ⟨all :: hargs, by simp [hlen], ?_⟩
    rw [hev2, hev]
    simp [List.enumFrom_cons]

theorem make_service_instance_ok_events (D : Decls) (T : type_id_t) (gs : Resolver)
    (args : List Arg)
    (hgs : ∀ A, A ∈ deps D T → ∀ s w,
      (gs A s w).Sat (fun _ w1 => events_of T w1.trace = events_of T w.trace))
    (s s1 : Container) (w w1 : World) (v : Val)
    (h : make_service_instance gs D T args s w = Outcome.ok v s1 w1) :
    ∃ cargs hargs, hargs.length = (chain_of D T).length ∧
      events_of T w1.trace = events_of T w.trace ++ construction_events T cargs hargs := by
  unfold make_service_instance at h
  obtain ⟨service, s2, w2, hcons, hhooks⟩ := Outcome.bind_eq_ok.mp h
  obtain ⟨cargs, _, hev⟩ := invoke_raw_ok_events T gs
    { id := FnId.construct T, params := (D T).construct_params,
      body := (D T).construct, order := (D T).construct_order } args
    (fun _ => rfl)
    (fun A hA => hgs A (by simp only [deps, List.mem_append]; exact Or.inl hA))
    s s2 w w2 service hcons
  unfold invoke_service at hhooks
  cases hinv : (D T).invoke with
  | none =>
    simp only [hinv] at hhooks
    injection hhooks with hv hs hw
    subst hv hs hw
    exact ⟨cargs, [], by simp [chain_of, hinv], by simp [hev, construction_events]⟩
  | some chain =>
    simp only [hinv] at hhooks
    obtain ⟨hargs, hlen, hev2⟩ := invoke_service_helper_ok_events T gs chain
      (fun m hm A hA => hgs A (by
        simp only [deps, chain_of, hinv, List.mem_append, List.mem_flatMap]
        exact Or.inr ⟨m, hm, hA⟩)) 0 service v s2 s1 w2 w1 hhooks
    refine ⟨cargs, hargs, by simp [chain_of, hinv, hlen], ?_⟩
    rw [hev2, hev]
    simp [construction_events]

theorem save_new_instance_ok_events (D : Decls) (T : type_id_t) (gs : Resolver)
    (args : List Arg)
    (hgs : ∀ A, A ∈ deps D T → ∀ s w,
      (gs A s w).Sat (fun _ w1 => events_of T w1.trace = events_of T w.trace))
    (s s1 : Container) (w w1 : World) (p : Ptr)
    (h : save_new_instance gs D T args s w = Outcome.ok p s1 w1) :
    ∃ cargs hargs v, hargs.length = (chain_of D T).length ∧
      heap_find w1.heap p = some (Obj.service T v) ∧
      (∃ old, s1._instances = old ++ [instance_ptr.mk p T]) ∧
      events_of T w1.trace = events_of T w.trace ++ construction_events T cargs hargs
        ++ save_events D T p v := by
  unfold save_new_instance at h
  split at h
  · split at h
    · cases h
    · obtain ⟨v, s2, w2, hmake, hsave⟩ := Outcome.bind_eq_ok.mp h
      obtain ⟨cargs, hargs, hlen, hev⟩ :=
        make_service_instance_ok_events D T gs args hgs s s2 w w2 v hmake
      injection hsave with hp hs hw
      subst hp hs hw
      refine ⟨cargs, hargs, v, hlen, ?_, ?_, ?_⟩
      · rw [save_instance_fst]
        exact save_instance_heap_self D T v s2 w2
      · rw [save_instance_fst]
        unfold save_instance
        cases (D T).ParentTypes with
        | none => exact ⟨s2._instances, by simp [save_instance_helper, makeInstancePtr]⟩
        | some parents =>
          exact ⟨s2._instances ++ (List.enumFrom (w2.next + 1 + 1) parents).map
              (fun x => instance_ptr.mk x.1 x.2),
            by simp only [save_instance_helper_instances, makeInstancePtr]⟩
      · rw [save_instance_trace, events_of_append, hev, save_instance_fst,
          events_of_all T (save_events D T (w2.next + 1) v)
            (fun e he => save_events_owner D T _ v e he)]
  · cases h

/-- In the small program every dependency has a smaller identity than its dependent. -/
theorem demo_ranked (U V : type_id_t) (h : V ∈ deps demo U) : V < U := by
  rcases U with _ | _ | _ | _ | _ | _ | _ | _ | _ | U
  all_goals
    simp [deps, demo, chain_of, no_service, demo_method0, demo_method1, type_id_t] at h ⊢
  all_goals omega

/-- Service `2` of the small program is not reached by its dependencies. -/
theorem demo_two_acyclic (A : type_id_t) (hA : A ∈ deps demo 2) : ¬ Reaches demo A 2 := by
  intro h
  have h1 := Reaches.rank_le demo (fun t => t) demo_ranked A 2 h
  have h2 := demo_ranked 2 A hA
  exact absurd (lt_of_lt_of_le h2 h1) (lt_irrefl _)

/-! ## The invocation engine -/

theorem raise_bind {α β : Type} (f : Failure) (k : α → Container → World → Outcome β) :
    (f.raise : Outcome α).bind k = f.raise := by
  cases f <;> rfl

theorem raise_ne_ok {α : Type} (f : Failure) (a : α) (s : Container) (w : World) :
    (f.raise : Outcome α) ≠ Outcome.ok a s w := by
  cases f <;> simp [Failure.raise]

theorem raise_inj {α : Type} (f g : Failure) (h : (f.raise : Outcome α) = g.raise) : f = g := by
  cases f <;> cases g <;> simp [Failure.raise] at h ⊢
  exact h

theorem Outcome.ok_or_raise {α : Type} (o : Outcome α) :
    (∃ a s w, o = Outcome.ok a s w) ∨ ∃ f : Failure, o = f.raise := by
  cases o with
  | ok a s w => exact Or.inl ⟨a, s, w, rfl⟩
  | throw e s w => exact Or.inr ⟨Failure.throw e s w, rfl⟩
  | undefined => exact Or.inr ⟨Failure.undefined, rfl⟩
  | ill_formed => exact Or.inr ⟨Failure.ill_formed, rfl⟩
  | out_of_fuel => exact Or.inr ⟨Failure.out_of_fuel, rfl⟩

theorem resolve_at_ok (gs : Resolver) (As : List type_id_t) (σ : List Nat)
    (hσ : ∀ i, i ∈ σ → i < As.length) (s s1 : Container) (w w1 : World)
    (ps : List (Nat × Arg)) (h : resolve_at gs As σ s w = Outcome.ok ps s1 w1) :
    ps.map Prod.fst = σ ∧
    ∀ rs : List Arg, (∀ p, p ∈ ps → rs[p.1]? = some p.2) → ResolvedAt gs As rs σ s w s1 w1 := by
  induction σ generalizing s w ps with
  | nil =>
    simp only [resolve_at] at h
    injection h with h1 h2 h3
    subst h1 h2 h3
    exact ⟨rfl, fun rs _ => ResolvedAt.nil s w⟩
  | cons i σ ih =>
    have hi : i < As.length := hσ i (List.mem_cons_self _ _)
    have hA : As[i]? = some As[i] := List.getElem?_eq_getElem hi
    simp only [resolve_at, hA] at h
    obtain ⟨a, s2, w2, hg, hk⟩ := Outcome.bind_eq_ok.mp h
    obtain ⟨rest, s3, w3, hrest, hk2⟩ := Outcome.bind_eq_ok.mp hk
    injection hk2 with h1 h2 h3
    subst h1 h2 h3
    obtain ⟨hkeys, hres⟩ := ih (fun j hj => hσ j (List.mem_cons_of_mem _ hj)) _ _ _ hrest
    refine ⟨by simp [hkeys], ?_⟩
    intro rs hrs
    exact ResolvedAt.cons i σ As[i] a s w s2 w2 _ _ hA (hrs (i, a) (List.mem_cons_self _ _)) hg
      (hres rs (fun p hp => hrs p (List.mem_cons_of_mem _ hp)))

theorem resolve_at_of_resolved (gs : Resolver) (As : List type_id_t) (rs : List Arg)
    (σ : List Nat) (s s1 : Container) (w w1 : World)
    (h : ResolvedAt gs As rs σ s w s1 w1) :
    resolve_at gs As σ s w
      = Outcome.ok (σ.filterMap fun i => rs[i]?.map fun a => (i, a)) s1 w1 ∧
    ∀ i, i ∈ σ → ∃ a, rs[i]? = some a := by
  induction h with
  | nil s w => exact ⟨rfl, by simp⟩
  | cons i rest A a s w s1 w1 s2 w2 hA hr hg _ ih =>
    obtain ⟨ih1, ih2⟩ := ih
    constructor
    · simp only [resolve_at, hA, hg, Outcome.bind_ok, ih1, List.filterMap_cons, hr,
        Option.map_some']
    · intro j hj
      rcases List.mem_cons.mp hj with rfl | hj
      · exact ⟨a, hr⟩
      · exact ih2 j hj

theorem lookup_filterMap_getElem (rs : List Arg) (σ : List Nat)
    (hσ : ∀ j, j ∈ σ → ∃ a, rs[j]? = some a) (i : Nat) (hi : i ∈ σ) :
    (σ.filterMap fun j => rs[j]?.map fun a => (j, a)).lookup i = rs[i]? := by
  induction σ with
  | nil => simp at hi
  | cons j σ ih =>
    obtain ⟨a, ha⟩ := hσ j (List.mem_cons_self _ _)
    simp only [List.filterMap_cons, ha, Option.map_some', List.lookup_cons]
    by_cases hij : i = j
    · subst hij
      simp [ha]
    · have hb : (i == j) = false := by simpa using hij
      rw [hb]
      rcases List.mem_cons.mp hi with h | h
      · exact absurd h hij
      · exact ih (fun k hk => hσ k (List.mem_cons_of_mem _ hk)) h

theorem filterMap_range_of_some {α : Type} (f : Nat → Option α) (n : Nat)
    (h : ∀ i, i < n → ∃ a, f i = some a) :
    ((List.range n).filterMap f).length = n ∧
    ∀ i, i < n → ((List.range n).filterMap f)[i]? = f i := by
  induction n with
  | zero => simp
  | succ n ih =>
    obtain ⟨a, ha⟩ := h n (Nat.lt_succ_self n)
    obtain ⟨ih1, ih2⟩ := ih (fun i hi => h i (Nat.lt_succ_of_lt hi))
    rw [List.range_succ, List.filterMap_append]
    simp only [List.filterMap_cons, ha, List.filterMap_nil]
    constructor
    · simp [ih1]
    · intro i hi
      by_cases hin : i < n
      · rw [List.getElem?_append_left (by rw [ih1]; exact hin)]
        exact ih2 i hin
      · have hn : i = n := by omega
        subst hn
        rw [List.getElem?_append_right (by rw [ih1])]
        simp [ih1, ha]

theorem lookup_of_mem_nodup (ps : List (Nat × Arg)) (hnd : (ps.map Prod.fst).Nodup)
    (p : Nat × Arg) (hp : p ∈ ps) : ps.lookup p.1 = some p.2 := by
  induction ps with
  | nil => simp at hp
  | cons q ps ih =>
    simp only [List.map_cons, List.nodup_cons] at hnd
    obtain ⟨a, b⟩ := q
    rcases List.mem_cons.mp hp with rfl | hp
    · simp [List.lookup_cons]
    · have hne : p.1 ≠ a := by
        intro he
        exact hnd.1 (List.mem_map.mpr ⟨p, hp, he⟩)
      have hb : (p.1 == a) = false := by simpa using hne
      rw [List.lookup_cons, hb]
      exact ih hnd.2 hp

/-- `resolve` returns `rs` exactly when `rs` has one entry per parameter type and
the parameter types have been resolved one after the other in the order of
evaluation, `rs[i]` being the result for `As[i]`. -/
theorem resolve_eq_ok_iff (order : EvalOrder) (gs : Resolver) (As : List type_id_t)
    (s s1 : Container) (w w1 : World) (rs : List Arg) :
    resolve order gs As s w = Outcome.ok rs s1 w1 ↔
      rs.length = As.length ∧ ResolvedAt gs As rs (order.seq s w As.length) s w s1 w1 := by
  have hperm := order.perm s w As.length
  have hσ : ∀ i, i ∈ order.seq s w As.length → i < As.length :=
    fun i hi => List.mem_range.mp (hperm.mem_iff.mp hi)
  constructor
  · intro h
    unfold resolve at h
    obtain ⟨ps, s2, w2, hat, hk⟩ := Outcome.bind_eq_ok.mp h
    injection hk with h1 h2 h3
    subst h2 h3
    obtain ⟨hkeys, hres⟩ := resolve_at_ok gs As _ hσ s s2 w w2 ps hat
    have hnd : (ps.map Prod.fst).Nodup := by
      rw [hkeys]
      exact hperm.nodup_iff.mpr (List.nodup_range _)
    have hsome : ∀ i, i < As.length → ∃ a, ps.lookup i = some a := by
      intro i hi
      have hmem : i ∈ ps.map Prod.fst := by
        rw [hkeys]
        exact hperm.mem_iff.mpr (List.mem_range.mpr hi)
      obtain ⟨p, hp, rfl⟩ := List.mem_map.mp hmem
      exact ⟨p.2, lookup_of_mem_nodup ps hnd p hp⟩
    obtain ⟨hlen, hget⟩ := filterMap_range_of_some (fun i => ps.lookup i) As.length hsome
    subst h1
    refine ⟨hlen, hres _ ?_⟩
    intro p hp
    have hp1 : p.1 < As.length := hσ p.1 (by rw [← hkeys]; exact List.mem_map.mpr ⟨p, hp, rfl⟩)
    rw [hget p.1 hp1]
    exact lookup_of_mem_nodup ps hnd p hp
  · rintro ⟨hlen, hres⟩
    obtain ⟨hat, hsome⟩ := resolve_at_of_resolved gs As rs _ s s1 w w1 hres
    unfold resolve
    rw [hat]
    simp only [Outcome.bind_ok]
    have hmem : ∀ i, i < As.length → i ∈ order.seq s w As.length :=
      fun i hi => hperm.mem_iff.mpr (List.mem_range.mpr hi)
    have hlook : ∀ i, i < As.length →
        ((order.seq s w As.length).filterMap fun j => rs[j]?.map fun a => (j, a)).lookup i
          = rs[i]? :=
      fun i hi => lookup_filterMap_getElem rs _ hsome i (hmem i hi)
    obtain ⟨hl, hg⟩ := filterMap_range_of_some
      (fun i => ((order.seq s w As.length).filterMap fun j => rs[j]?.map fun a => (j, a)).lookup i)
      As.length (fun i hi => by
        have h := hsome i (hmem i hi)
        rw [← hlook i hi] at h
        exact h)
    congr 1
    apply List.ext_getElem?
    intro i
    by_cases hi : i < As.length
    · rw [hg i hi, hlook i hi]
    · rw [List.getElem?_eq_none (by omega), List.getElem?_eq_none (by omega)]

theorem resolve_at_eq_raise_iff (gs : Resolver) (As : List type_id_t) (σ : List Nat)
    (hσ : ∀ i, i ∈ σ → i < As.length) (s : Container) (w : World) (f : Failure) :
    resolve_at gs As σ s w = f.raise ↔ StopsAt gs As σ s w f := by
  induction σ generalizing s w with
  | nil =>
    constructor
    · intro h
      exact absurd h.symm (raise_ne_ok f _ _ _)
    · intro h
      cases h
  | cons i σ ih =>
    have hi : i < As.length := hσ i (List.mem_cons_self _ _)
    have hA : As[i]? = some As[i] := List.getElem?_eq_getElem hi
    have ih2 := ih (fun j hj => hσ j (List.mem_cons_of_mem _ hj))
    simp only [resolve_at, hA]
    rcases Outcome.ok_or_raise (gs As[i] s w) with ⟨a, s1, w1, hg⟩ | ⟨g, hg⟩
    · rw [hg, Outcome.bind_ok]
      constructor
      · intro h
        rcases Outcome.ok_or_raise (resolve_at gs As σ s1 w1) with ⟨ps, s2, w2, hr⟩ | ⟨g, hr⟩
        · rw [hr, Outcome.bind_ok] at h
          exact absurd h.symm (raise_ne_ok f _ _ _)
        · rw [hr, raise_bind] at h
          have hgf := raise_inj g f h
          subst hgf
          exact StopsAt.later i σ _ a s w s1 w1 g hA hg ((ih2 s1 w1).mp hr)
      · intro h
        cases h with
        | here _ _ A _ _ _ hA2 hg2 =>
          rw [hA] at hA2
          injection hA2 with e
          subst e
          rw [hg] at hg2
          exact absurd hg2.symm (raise_ne_ok f _ _ _)
        | later _ _ A a2 _ _ s2 w2 _ hA2 hg2 hrest =>
          rw [hA] at hA2
          injection hA2 with e
          subst e
          rw [hg] at hg2
          injection hg2 with e1 e2 e3
          subst e1 e2 e3
          rw [(ih2 _ _).mpr hrest, raise_bind]
    · rw [hg, raise_bind]
      constructor
      · intro h
        have hgf := raise_inj g f h
        subst hgf
        exact StopsAt.here i σ _ s w g hA hg
      · intro h
        cases h with
        | here _ _ A _ _ _ hA2 hg2 =>
          rw [hA] at hA2
          injection hA2 with e
          subst e
          rw [hg] at hg2
          rw [raise_inj g f hg2]
        | later _ _ A a2 _ _ s2 w2 _ hA2 hg2 hrest =>
          rw [hA] at hA2
          injection hA2 with e
          subst e
          rw [hg] at hg2
          exact absurd hg2 (raise_ne_ok g _ _ _)

/-- `resolve` fails exactly when, going through the parameter types in the
order of evaluation, the first resolution that does not return fails in that
way. -/
theorem resolve_eq_raise_iff (order : EvalOrder) (gs : Resolver) (As : List type_id_t)
    (s : Container) (w : World) (f : Failure) :
    resolve order gs As s w = f.raise ↔ StopsAt gs As (order.seq s w As.length) s w f := by
  have hperm := order.perm s w As.length
  have hσ : ∀ i, i ∈ order.seq s w As.length → i < As.length :=
    fun i hi => List.mem_range.mp (hperm.mem_iff.mp hi)
  rw [← resolve_at_eq_raise_iff gs As _ hσ s w f]
  unfold resolve
  rcases Outcome.ok_or_raise (resolve_at gs As (order.seq s w As.length) s w)
    with ⟨ps, s2, w2, hr⟩ | ⟨g, hr⟩
  · rw [hr, Outcome.bind_ok]
    constructor
    · intro h
      exact absurd h.symm (raise_ne_ok f _ _ _)
    · intro h
      exact absurd h.symm (raise_ne_ok f _ _ _)
  · rw [hr, raise_bind]
    constructor
    · intro h
      rw [raise_inj g f h]
    · intro h
      rw [raise_inj g f h]

theorem call_eq_ok_iff (function : Callable) (all : List Arg) (s s2 : Container) (w w2 : World)
    (r : Val) :
    call function all s w = Outcome.ok r s2 w2 ↔
      function.body all = Except.ok r ∧ s2 = s ∧
      w2 = { w with trace := w.trace ++ [Event.call function.id all] } := by
  unfold call
  cases hb : function.body all with
  | error e => simp
  | ok r2 =>
    simp only [Outcome.ok.injEq, Except.ok.injEq]
    constructor
    · rintro ⟨h1, h2, h3⟩
      exact ⟨h1, h2.symm, h3.symm⟩
    · rintro ⟨h1, h2, h3⟩
      exact ⟨h1, h2.symm, h3.symm⟩

theorem call_eq_raise_iff (function : Callable) (all : List Arg) (s : Container) (w : World)
    (f : Failure) :
    call function all s w = f.raise ↔
      ∃ e, function.body all = Except.error e ∧
        f = Failure.throw e s { w with trace := w.trace ++ [Event.call function.id all] } := by
  unfold call
  cases hb : function.body all with
  | error e =>
    constructor
    · intro h
      refine ⟨e, rfl, ?_⟩
      exact (raise_inj (Failure.throw e s _) f h).symm
    · rintro ⟨e2, he, hf⟩
      injection he with he
      subst he hf
      rfl
  | ok r2 =>
    constructor
    · intro h
      exact absurd h.symm (raise_ne_ok f _ _ _)
    · rintro ⟨e2, he, _⟩
      cases he

/-- The engine returns `r` exactly when the services of the sequence `S` have
been resolved in the order of evaluation and the callable, applied to the
results in the order of the parameters followed by the explicit arguments,
returns `r`. -/
theorem invoke_seq_eq_ok_iff (gs : Resolver) (S : List type_id_t) (function : Callable)
    (args : List Arg) (s s2 : Container) (w w2 : World) (r : Val) :
    invoke_seq gs S function args s w = Outcome.ok r s2 w2 ↔
      ∃ rs w1, rs.length = S.length ∧
        ResolvedAt gs S rs (function.order.seq s w S.length) s w s2 w1 ∧
        function.body (rs ++ args) = Except.ok r ∧
        w2 = { w1 with trace := w1.trace ++ [Event.call function.id (rs ++ args)] } := by
  unfold invoke_seq
  constructor
  · intro h
    obtain ⟨rs, s1, w1, hres, hcall⟩ := Outcome.bind_eq_ok.mp h
    obtain ⟨hb, hs, hw⟩ := (call_eq_ok_iff _ _ _ _ _ _ _).mp hcall
    subst hs
    obtain ⟨hl, hr⟩ := (resolve_eq_ok_iff _ _ _ _ _ _ _ _).mp hres
    exact ⟨rs, w1, hl, hr, hb, hw⟩
  · rintro ⟨rs, w1, hl, hr, hb, hw⟩
    rw [(resolve_eq_ok_iff _ _ _ _ _ _ _ _).mpr ⟨hl, hr⟩, Outcome.bind_ok]
    exact (call_eq_ok_iff _ _ _ _ _ _ _).mpr ⟨hb, rfl, hw⟩

/-- The engine fails exactly when a resolution fails, in that way, or when all
services have been resolved and the callable throws. -/
theorem invoke_seq_eq_raise_iff (gs : Resolver) (S : List type_id_t) (function : Callable)
    (args : List Arg) (s : Container) (w : World) (f : Failure) :
    invoke_seq gs S function args s w = f.raise ↔
      StopsAt gs S (function.order.seq s w S.length) s w f ∨
      ∃ rs s1 w1 e, rs.length = S.length ∧
        ResolvedAt gs S rs (function.order.seq s w S.length) s w s1 w1 ∧
        function.body (rs ++ args) = Except.error e ∧
        f = Failure.throw e s1
          { w1 with trace := w1.trace ++ [Event.call function.id (rs ++ args)] } := by
  unfold invoke_seq
  rcases Outcome.ok_or_raise (resolve function.order gs S s w) with ⟨rs, s1, w1, hr⟩ | ⟨g, hr⟩
  · rw [hr, Outcome.bind_ok, call_eq_raise_iff]
    obtain ⟨hl, hres⟩ := (resolve_eq_ok_iff _ _ _ _ _ _ _ _).mp hr
    constructor
    · rintro ⟨e, hb, hf⟩
      exact Or.inr ⟨rs, s1, w1, e, hl, hres, hb, hf⟩
    · rintro (hstop | ⟨rs2, s3, w3, e, hl2, hres2, hb, hf⟩)
      · have h2 := (resolve_eq_raise_iff _ _ _ _ _ _).mpr hstop
        rw [hr] at h2
        exact absurd h2.symm (raise_ne_ok f _ _ _)
      · have h2 := (resolve_eq_ok_iff _ _ _ _ _ _ _ _).mpr ⟨hl2, hres2⟩
        rw [hr] at h2
        injection h2 with e1 e2 e3
        subst e1 e2 e3
        exact ⟨e, hb, hf⟩
  · rw [hr, raise_bind]
    constructor
    · intro h
      have hgf := raise_inj g f h
      subst hgf
      exact Or.inl ((resolve_eq_raise_iff _ _ _ _ _ _).mp hr)
    · rintro (hstop | ⟨rs2, s3, w3, e, hl2, hres2, hb, hf⟩)
      · have h2 := (resolve_eq_raise_iff _ _ _ _ _ _).mpr hstop
        rw [hr] at h2
        rw [raise_inj g f h2]
      · have h2 := (resolve_eq_ok_iff _ _ _ _ _ _ _ _).mpr ⟨hl2, hres2⟩
        rw [hr] at h2
        exact absurd h2 (raise_ne_ok g _ _ _)

/-- Every event a resolution adds to the trace belongs to a service type. -/
theorem owned_footprint (D : Decls) :
    Footprint D (fun _ _ w _ w1 =>
      ∃ evs, w1.trace = w.trace ++ evs ∧ ∀ e, e ∈ evs → ∃ t, e.owner = some t) where
  refl := fun T s w => ⟨[], by simp, by simp⟩
  trans := by
    rintro T s w s1 w1 s2 w2 ⟨e1, h1, a1⟩ ⟨e2, h2, a2⟩
    refine ⟨e1 ++ e2, by rw [h2, h1, List.append_assoc], ?_⟩
    intro e he
    rcases List.mem_append.mp he with h | h
    · exact a1 e h
    · exact a2 e h
  dep := fun _ _ _ _ _ _ _ h => h
  lookup := fun T s w => ⟨[], by simp, by simp⟩
  call := by
    intro T f args s w hown
    refine ⟨[Event.call f args], rfl, ?_⟩
    intro e he
    simp only [List.mem_singleton] at he
    subst he
    exact ⟨T, hown⟩
  save := by
    intro T v s w
    refine ⟨_, save_instance_trace D T v s w, ?_⟩
    intro e he
    exact ⟨T, save_events_owner D T _ v e he⟩

theorem calls_of_append (f : FnId) (a b : List Event) :
    calls_of f (a ++ b) = calls_of f a ++ calls_of f b := by
  simp [calls_of]

/-- Resolving a service never calls a callable handed to `invoke`. -/
theorem service_no_user_call (D : Decls) (fuel : Nat) (T : type_id_t) (args : List Arg)
    (n : Nat) (s : Container) (w : World) :
    (service fuel D T args s w).Sat
      (fun _ w1 => calls_of (FnId.user n) w1.trace = calls_of (FnId.user n) w.trace) := by
  intro s1 w1 h
  have hfin : (get_service fuel D T args s w).final = some (s1, w1) := by
    unfold service at h
    cases hg : get_service fuel D T args s w <;> simp [hg, Outcome.final] at h ⊢
    · exact h
    · exact h
  obtain ⟨evs, he, hall⟩ := get_service_footprint D _ (owned_footprint D) fuel T args s w s1 w1 hfin
  rw [he, calls_of_append]
  have : calls_of (FnId.user n) evs = [] := by
    simp only [calls_of, List.filter_eq_nil_iff]
    intro e hmem
    obtain ⟨t, ht⟩ := hall e hmem
    cases e with
    | call g a =>
      cases g with
      | user k => simp [Event.owner] at ht
      | construct U => simp
      | autocall U i => simp
    | alloc p o => simp
    | destroy p C => simp
  rw [this, List.append_nil]

theorem resolved_at_sat (Q : Container → World → Container → World → Prop)
    (hrefl : ∀ s w, Q s w s w)
    (htrans : ∀ s w s1 w1 s2 w2, Q s w s1 w1 → Q s1 w1 s2 w2 → Q s w s2 w2)
    (gs : Resolver) (As : List type_id_t) (rs : List Arg)
    (hgs : ∀ A, A ∈ As → ∀ s w, (gs A s w).Sat (Q s w))
    (σ : List Nat) (s s1 : Container) (w w1 : World) (h : ResolvedAt gs As rs σ s w s1 w1) :
    Q s w s1 w1 := by
  induction h with
  | nil => exact hrefl _ _
  | cons i rest A a s w s1 w1 s2 w2 hA _ hg _ ih =>
    exact htrans _ _ _ _ _ _ (Outcome.sat_of_ok (hgs A (List.getElem?_mem hA) s w) hg) ih

theorem stops_at_sat (Q : Container → World → Container → World → Prop)
    (htrans : ∀ s w s1 w1 s2 w2, Q s w s1 w1 → Q s1 w1 s2 w2 → Q s w s2 w2)
    (gs : Resolver) (As : List type_id_t)
    (hgs : ∀ A, A ∈ As → ∀ s w, (gs A s w).Sat (Q s w))
    (σ : List Nat) (s s1 : Container) (w w1 : World) (e : Err)
    (h : StopsAt gs As σ s w (Failure.throw e s1 w1)) :
    Q s w s1 w1 := by
  generalize hf : Failure.throw e s1 w1 = f at h
  induction h with
  | here i rest A s w f hA hg =>
    subst hf
    exact Outcome.sat_of_throw (hgs A (List.getElem?_mem hA) s w) hg
  | later i rest A a s w s2 w2 f hA hg _ ih =>
    exact htrans _ _ _ _ _ _ (Outcome.sat_of_ok (hgs A (List.getElem?_mem hA) s w) hg) (ih hf)

/-- C7 (injection correctness).  Let `function` declare `k` parameters and let
`m` explicit arguments be given.  The engine `invoke(seq<S...>, function,
args...)` resolves the services of the sequence `S`, one after the other in
the order in which the call expression evaluates its arguments (which the
language leaves open), and calls `function` once, on the resolved services in
the order of the parameters followed by the explicit arguments in the given
order: it returns `r` exactly when all services of `S` have been resolved and
that call returns `r`, the trace gaining that one call; it fails exactly when
a resolution fails, the later ones not being made and `function` not being
called, or when that call throws.  `invoke_raw` is the engine on the first
`k - m` declared parameter types when `m <= k`, so that the last `m`
positions receive the explicit arguments, and is rejected by the compiler
when `m > k`; the public `invoke<Map>` is `invoke_raw` with every parameter
type `A` resolved as `service<Map<A>::Service>()`, and the public
`invoke<Services...>` is the engine on `Services`, resolved with `service`.
When a public `invoke` returns, the trace has gained exactly one call of
`function`, with that argument list; resolving services, whether all are
resolved or one of them throws, adds no call of a callable handed to
`invoke`. -/
theorem injection_correctness (gs : Resolver) (function : Callable) (args : List Arg)
    (s : Container) (w : World) :
    (∀ S r s2 w2, invoke_seq gs S function args s w = Outcome.ok r s2 w2 ↔
      ∃ rs w1, rs.length = S.length ∧
        ResolvedAt gs S rs (function.order.seq s w S.length) s w s2 w1 ∧
        function.body (rs ++ args) = Except.ok r ∧
        w2 = { w1 with trace := w1.trace ++ [Event.call function.id (rs ++ args)] }) ∧
    (∀ S f, invoke_seq gs S function args s w = f.raise ↔
      StopsAt gs S (function.order.seq s w S.length) s w f ∨
      ∃ rs s1 w1 e, rs.length = S.length ∧
        ResolvedAt gs S rs (function.order.seq s w S.length) s w s1 w1 ∧
        function.body (rs ++ args) = Except.error e ∧
        f = Failure.throw e s1
          { w1 with trace := w1.trace ++ [Event.call function.id (rs ++ args)] }) ∧
    (args.length ≤ function.params.length →
      invoke_raw gs function args s w
        = invoke_seq gs (function.params.take (function.params.length - args.length))
            function args s w ∧
      (function.params.take (function.params.length - args.length)).length
        = function.params.length - args.length ∧
      (∀ j, j < function.params.length - args.length →
        (function.params.take (function.params.length - args.length))[j]?
          = function.params[j]?) ∧
      ∀ rs : List Arg, rs.length = function.params.length - args.length →
        (rs ++ args).length = function.params.length ∧
        (∀ j, j < function.params.length - args.length → (rs ++ args)[j]? = rs[j]?) ∧
        ∀ j, (rs ++ args)[function.params.length - args.length + j]? = args[j]?) ∧
    (function.params.length < args.length →
      invoke_raw gs function args s w = Outcome.ill_formed) ∧
    (∀ fuel D Map, invoke_map fuel D Map function args s w
      = invoke_raw (fun A => service fuel D (Map A) []) function args s w) ∧
    (∀ fuel D Services, invoke_services fuel D Services function args s w
      = invoke_seq (fun A => service fuel D A []) Services function args s w) ∧
    (∀ fuel D Map n r s2 w2, function.id = FnId.user n →
      invoke_map fuel D Map function args s w = Outcome.ok r s2 w2 →
      ∃ rs, rs.length = function.params.length - args.length ∧
        function.body (rs ++ args) = Except.ok r ∧
        calls_of (FnId.user n) w2.trace
          = calls_of (FnId.user n) w.trace ++ [Event.call (FnId.user n) (rs ++ args)]) ∧
    (∀ fuel D Services n r s2 w2, function.id = FnId.user n →
      invoke_services fuel D Services function args s w = Outcome.ok r s2 w2 →
      ∃ rs, rs.length = Services.length ∧
        function.body (rs ++ args) = Except.ok r ∧
        calls_of (FnId.user n) w2.trace
          = calls_of (FnId.user n) w.trace ++ [Event.call (FnId.user n) (rs ++ args)]) ∧
    (∀ (fuel : Nat) (D : Decls) (Map : type_id_t → type_id_t) (n : Nat)
        (S : List type_id_t) (σ : List Nat),
      (∀ rs s1 w1, ResolvedAt (fun A => service fuel D (Map A) []) S rs σ s w s1 w1 →
        calls_of (FnId.user n) w1.trace = calls_of (FnId.user n) w.trace) ∧
      (∀ e s1 w1,
        StopsAt (fun A => service fuel D (Map A) []) S σ s w (Failure.throw e s1 w1) →
        calls_of (FnId.user n) w1.trace = calls_of (FnId.user n) w.trace)) := by
  have honce : ∀ (fuel : Nat) (D : Decls) (Map : type_id_t → type_id_t) (S : List type_id_t)
      (n : Nat) (r : Val) (s2 : Container) (w2 : World), function.id = FnId.user n →
      invoke_seq (fun A => service fuel D (Map A) []) S function args s w = Outcome.ok r s2 w2 →
      ∃ rs, rs.length = S.length ∧ function.body (rs ++ args) = Except.ok r ∧
        calls_of (FnId.user n) w2.trace
          = calls_of (FnId.user n) w.trace ++ [Event.call (FnId.user n) (rs ++ args)] := by
    intro fuel D Map S n r s2 w2 hid h
    obtain ⟨rs, w1, hl, hres, hb, hw⟩ := (invoke_seq_eq_ok_iff _ _ _ _ _ _ _ _ _).mp h
    refine ⟨rs, hl, hb, ?_⟩
    have hsil : (resolve function.order (fun A => service fuel D (Map A) []) S s w).Sat
        (fun _ w1 => calls_of (FnId.user n) w1.trace = calls_of (FnId.user n) w.trace) :=
      resolve_sat
        (fun _ w _ w1 => calls_of (FnId.user n) w1.trace = calls_of (FnId.user n) w.trace)
        (fun _ _ => rfl) (fun _ _ _ _ _ _ h1 h2 => h2.trans h1)
        (fun A => service fuel D (Map A) []) S
        (fun A _ s w => service_no_user_call D fuel (Map A) [] n s w) s w
    have h1 := Outcome.sat_of_ok hsil ((resolve_eq_ok_iff _ _ _ _ _ _ _ _).mpr ⟨hl, hres⟩)
    rw [hw, hid]
    simp only [calls_of_append, h1]
    simp [calls_of]
  have hmap : ∀ fuel D Map, invoke_map fuel D Map function args s w
      = invoke_raw (fun A => service fuel D (Map A) []) function args s w := by
    intro fuel D Map
    unfold invoke_map invoke_raw
    rfl
  refine ⟨fun S r s2 w2 => invoke_seq_eq_ok_iff gs S function args s s2 w w2 r,
    fun S f => invoke_seq_eq_raise_iff gs S function args s w f, ?_, ?_, hmap,
    fun _ _ _ => rfl, ?_, ?_, ?_⟩
  · intro hm
    refine ⟨?_, ?_, ?_, ?_⟩
    · unfold invoke_raw
      rw [if_pos hm]
    · rw [List.length_take]
      omega
    · intro j hj
      rw [List.getElem?_take_of_lt hj]
    · intro rs hl
      refine ⟨?_, ?_, ?_⟩
      · rw [List.length_append, hl]
        omega
      · intro j hj
        rw [List.getElem?_append_left (by rw [hl]; exact hj)]
      · intro j
        rw [← hl, List.getElem?_append_right (by omega)]
        simp
  · intro hm
    unfold invoke_raw
    rw [if_neg (by omega)]
  · intro fuel D Map n r s2 w2 hid h
    rw [hmap] at h
    unfold invoke_raw at h
    by_cases hm : args.length ≤ function.params.length
    · rw [if_pos hm] at h
      obtain ⟨rs, hl, hb, hc⟩ := honce fuel D Map _ n r s2 w2 hid h
      refine ⟨rs, ?_, hb, hc⟩
      rw [hl, List.length_take]
      omega
    · rw [if_neg hm] at h
      cases h
  · intro fuel D Services n r s2 w2 hid h
    exact honce fuel D (fun A => A) Services n r s2 w2 hid h
  · intro fuel D Map n S σ
    constructor
    · intro rs s1 w1 h
      exact resolved_at_sat
        (fun _ w _ w1 => calls_of (FnId.user n) w1.trace = calls_of (FnId.user n) w.trace)
        (fun _ _ => rfl) (fun _ _ _ _ _ _ h1 h2 => h2.trans h1)
        (fun A => service fuel D (Map A) []) S rs
        (fun A _ s w => service_no_user_call D fuel (Map A) [] n s w) σ s s1 w w1 h
    · intro e s1 w1 h
      exact stops_at_sat
        (fun _ w _ w1 => calls_of (FnId.user n) w1.trace = calls_of (FnId.user n) w.trace)
        (fun _ _ _ _ _ _ h1 h2 => h2.trans h1)
        (fun A => service fuel D (Map A) []) S
        (fun A _ s w => service_no_user_call D fuel (Map A) [] n s w) σ s s1 w w1 e h

theorem injection_correctness_witness :
    (∃ rs w1, rs.length = 2 ∧
      ResolvedAt (fun A => service 3 demo A []) [1, 2] rs [0, 1] empty_container empty_world
        demo_container4 w1 ∧
      demo_callable.body (rs ++ [Arg.val 5]) = Except.ok 3 ∧
      demo_world4
        = { w1 with trace := w1.trace ++ [Event.call (FnId.user 0) (rs ++ [Arg.val 5])] }) ∧
    invoke_map 3 demo (fun A => A) demo_callable [Arg.val 5] empty_container empty_world
      = Outcome.ok 3 demo_container4 demo_world4 ∧
    invoke_services 3 demo [2, 3] (demo_callable2 left_to_right) [] empty_container empty_world
      = Outcome.ok 2 demo_container2
          { demo_world3 with
            trace := demo_world3.trace ++ [Event.call (FnId.user 1) [Arg.ref 2, Arg.ref 2]] } ∧
    invoke_services 3 demo [2, 3] (demo_callable2 right_to_left) [] empty_container empty_world
      = Outcome.throw Err.out_of_range { empty_container with _services := [(3, 0)] }
          empty_world ∧
    StopsAt (fun A => service 3 demo A []) [2, 3] [1, 0] empty_container empty_world
      (Failure.throw Err.out_of_range { empty_container with _services := [(3, 0)] }
        empty_world) :=
  ⟨((injection_correctness (fun A => service 3 demo A []) demo_callable [Arg.val 5]
      empty_container empty_world).1 [1, 2] 3 demo_container4 demo_world4).mp (by decide),
   by decide, by decide, by decide,
   (((injection_correctness (fun A => service 3 demo A []) (demo_callable2 right_to_left) []
      empty_container empty_world).2.1 [2, 3]
      (Failure.throw Err.out_of_range { empty_container with _services := [(3, 0)] }
        empty_world)).mp (by decide)).resolve_right
     (fun h => by
       obtain ⟨rs, s1, w1, e, _, _, hb, _⟩ := h
       cases hb)⟩

/-! ## The autocall chain -/

theorem forward_service (heap : List (Ptr × Obj)) (p : Ptr) (T : type_id_t) (v : Val)
    (h : heap_find heap p = some (Obj.service T v)) : forward heap (Arg.ref p) = Arg.ref p := by
  simp only [forward, h]

theorem invoke_service_helper_eq_ok_iff (gs : Resolver) (T : type_id_t) (chain : List Method)
    (i : Nat) (v : Val) (s : Container) (w : World) (v2 : Val) (s2 : Container) (w2 : World) :
    invoke_service_helper gs T i chain v s w = Outcome.ok v2 s2 w2 ↔
      ∃ hargs, HooksInOrder gs T i chain v s w hargs v2 s2 w2 := by
  induction chain generalizing i v s w with
  | nil =>
    simp only [invoke_service_helper]
    constructor
    · intro h
      injection h with h1 h2 h3
      subst h1 h2 h3
      exact ⟨[], HooksInOrder.nil i v s w⟩
    · rintro ⟨hargs, h⟩
      cases h
      rfl
  | cons m Next ih =>
    simp only [invoke_service_helper]
    have hdo : ∀ v1 s1 w1, do_invoke_service gs T i m v s w = Outcome.ok v1 s1 w1 ↔
        ∃ rs w0, rs.length = m.params.length ∧
          ResolvedAt gs m.params rs (m.order.seq s w m.params.length) s w s1 w0 ∧
          m.run v rs = Except.ok v1 ∧
          w1 = { w0 with trace := w0.trace ++ [Event.call (FnId.autocall T i) rs] } := by
      intro v1 s1 w1
      unfold do_invoke_service invoke_raw
      simp only [List.length_nil, Nat.zero_le, if_true, Nat.sub_zero, List.take_length]
      rw [invoke_seq_eq_ok_iff]
      simp only [List.append_nil]
    constructor
    · intro h
      obtain ⟨v1, s1, w1, h1, hrest⟩ := Outcome.bind_eq_ok.mp h
      obtain ⟨rs, w0, hl, hres, hb, hw⟩ := (hdo v1 s1 w1).mp h1
      obtain ⟨hargs, hh⟩ := (ih _ _ _ _).mp hrest
      subst hw
      exact ⟨rs :: hargs, HooksInOrder.cons i m Next v s w rs s1 w0 v1 hargs v2 s2 w2 hl hres hb hh⟩
    · rintro ⟨hargs, h⟩
      cases h with
      | cons _ _ _ _ _ _ rs s1 w1 v1 hargs _ _ _ hl hres hb hh =>
        rw [(hdo v1 s1 _).mpr ⟨rs, w1, hl, hres, hb, rfl⟩, Outcome.bind_ok]
        exact (ih _ _ _ _).mpr ⟨hargs, hh⟩

theorem invoke_service_eq_ok_iff (gs : Resolver) (D : Decls) (T : type_id_t)
    (v : Val) (s : Container) (w : World) (v2 : Val) (s2 : Container) (w2 : World) :
    invoke_service gs D T v s w = Outcome.ok v2 s2 w2 ↔
      ∃ hargs, HooksInOrder gs T 0 (chain_of D T) v s w hargs v2 s2 w2 := by
  unfold invoke_service chain_of
  cases (D T).invoke with
  | none =>
    simp only []
    constructor
    · intro h
      injection h with h1 h2 h3
      subst h1 h2 h3
      exact ⟨[], HooksInOrder.nil 0 v s w⟩
    · rintro ⟨hargs, h⟩
      cases h
      rfl
  | some chain => exact invoke_service_helper_eq_ok_iff gs T chain 0 v s w v2 s2 w2

theorem HooksInOrder.length_eq (gs : Resolver) (T : type_id_t) (i : Nat) (chain : List Method)
    (v : Val) (s : Container) (w : World) (hargs : List (List Arg)) (v2 : Val)
    (s2 : Container) (w2 : World) (h : HooksInOrder gs T i chain v s w hargs v2 s2 w2) :
    hargs.length = chain.length := by
  induction h with
  | nil => rfl
  | cons _ _ _ _ _ _ _ _ _ _ _ _ _ _ _ _ _ _ ih => simp [ih]

theorem ResolvedAt.silent (gs : Resolver) (T : type_id_t) (As : List type_id_t) (rs : List Arg)
    (hgs : ∀ A, A ∈ As → ∀ s w,
      (gs A s w).Sat (fun _ w1 => events_of T w1.trace = events_of T w.trace))
    (σ : List Nat) (s s1 : Container) (w w1 : World) (h : ResolvedAt gs As rs σ s w s1 w1) :
    events_of T w1.trace = events_of T w.trace := by
  induction h with
  | nil => rfl
  | cons i rest A a s w s1 w1 s2 w2 hA _ hg _ ih =>
    rw [ih]
    exact Outcome.sat_of_ok (hgs A (List.getElem?_mem hA) s w) hg

theorem HooksInOrder.events (gs : Resolver) (T : type_id_t)
    (i : Nat) (chain : List Method)
    (hgs : ∀ A, A ∈ chain.flatMap Method.params → ∀ s w,
      (gs A s w).Sat (fun _ w1 => events_of T w1.trace = events_of T w.trace))
    (v : Val) (s : Container) (w : World) (hargs : List (List Arg)) (v2 : Val)
    (s2 : Container) (w2 : World) (h : HooksInOrder gs T i chain v s w hargs v2 s2 w2) :
    events_of T w2.trace = events_of T w.trace
      ++ (List.enumFrom i hargs).map (fun x => Event.call (FnId.autocall T x.1) x.2) := by
  induction h with
  | nil => simp
  | cons i m Next v s w rs s1 w1 v1 hargs v2 s2 w2 _ hres _ _ ih =>
    have h1 := ResolvedAt.silent gs T m.params rs
      (fun A hA => hgs A (by
        simp only [List.flatMap_cons, List.mem_append]
        exact Or.inl hA)) _ s s1 w w1 hres
    rw [ih (fun A hA => hgs A (by
      simp only [List.flatMap_cons, List.mem_append]
      exact Or.inr hA))]
    simp only [events_of, List.filter_append] at h1 ⊢
    rw [h1]
    simp [List.enumFrom_cons, Event.owner]

theorem Outcome.bind_ok_right {α : Type} (o : Outcome α) :
    (o.bind fun a s w => Outcome.ok a s w) = o := by
  cases o <;> rfl

/-- C8 (autocall ordering).  A construction of a `T` returns exactly when the
factory of `T` has returned and then the methods of the autocall chain of `T`
have been invoked in the order of their declaration, each called once, on the
value the previous one left (the first on what the factory returned), with
the services of its parameter types resolved just before the call; what the
construction returns is the value the last method left.  The instance is
stored or returned only then: a `service<T>()` of a singleton that misses the
Registry and an `instance<T>(args...)` store the value the construction
returned, the `new` of the stored object being the next event of the trace,
and the `service<T>()` returns the object allocated there; a transient
`service<T>(args...)` returns the value the construction returned.  When no
`T` is made while a `T` is made, the events of `T` that a construction adds
to the trace are the call of the factory followed by one call per method of
the chain, in the order of the chain.  With no autocall chain the
construction is the call of the factory.  A `service<T>()` that hits the
Registry returns the registered instance and leaves container and trace as
they are. -/
theorem autocall_ordering (D : Decls) (T : type_id_t) (gs : Resolver) (args : List Arg)
    (s : Container) (w : World) :
    (∀ v s2 w2, make_service_instance gs D T args s w = Outcome.ok v s2 w2 ↔
      ∃ v0 s1 w1 hargs,
        invoke_raw gs
          { id := FnId.construct T, params := (D T).construct_params,
            body := (D T).construct, order := (D T).construct_order } args s w
          = Outcome.ok v0 s1 w1 ∧
        HooksInOrder gs T 0 (chain_of D T) v0 s1 w1 hargs v s2 w2) ∧
    (∀ i chain v0 s1 w1 hargs v s2 w2,
      HooksInOrder gs T i chain v0 s1 w1 hargs v s2 w2 → hargs.length = chain.length) ∧
    (∀ fuel r s2 w2,
      (D T).is_container_service = false → (D T).is_base_of_container_service = false →
      (D T).is_single = true → (map_index s._services T).1 = 0 →
      (service (fuel + 1) D T [] s w = Outcome.ok r s2 w2 ↔
        (D T).is_abstract = false ∧ ∃ v s1 w1,
          make_service_instance (fun A => get_service fuel D A []) D T []
            { s with _services := (map_index s._services T).2 } w = Outcome.ok v s1 w1 ∧
          s2 = (save_instance D T v s1 w1).2.1 ∧ w2 = (save_instance D T v s1 w1).2.2 ∧
          r = Arg.ref (w1.next + 1))) ∧
    (∀ fuel s2 w2,
      instance_new fuel D T args s w = Outcome.ok () s2 w2 ↔
        (D T).is_single = true ∧ (D T).is_abstract = false ∧ ∃ v s1 w1,
          make_service_instance (fun A => get_service fuel D A []) D T args s w
            = Outcome.ok v s1 w1 ∧
          s2 = (save_instance D T v s1 w1).2.1 ∧ w2 = (save_instance D T v s1 w1).2.2) ∧
    (∀ v s1 w1,
      heap_find (save_instance D T v s1 w1).2.2.heap (w1.next + 1) = some (Obj.service T v) ∧
      (save_instance D T v s1 w1).2.2.trace = w1.trace ++ save_events D T (w1.next + 1) v) ∧
    (∀ fuel r s2 w2,
      (D T).is_container_service = false → (D T).is_base_of_container_service = false →
      (D T).is_single = false →
      (service (fuel + 1) D T args s w = Outcome.ok r s2 w2 ↔
        ∃ v, make_service_instance (fun A => get_service fuel D A []) D T args s w
            = Outcome.ok v s2 w2 ∧ r = Arg.val v)) ∧
    ((∀ A, A ∈ deps D T → ¬ Reaches D A T) →
      ∀ fuel v0 s1 w1 hargs v s2 w2,
        invoke_raw (fun A => get_service fuel D A [])
          { id := FnId.construct T, params := (D T).construct_params,
            body := (D T).construct, order := (D T).construct_order } args s w
          = Outcome.ok v0 s1 w1 →
        HooksInOrder (fun A => get_service fuel D A []) T 0 (chain_of D T) v0 s1 w1 hargs
          v s2 w2 →
        ∃ cargs, (D T).construct cargs = Except.ok v0 ∧
          events_of T w2.trace = events_of T w.trace ++ construction_events T cargs hargs) ∧
    (chain_of D T = [] →
      make_service_instance gs D T args s w
        = invoke_raw gs
            { id := FnId.construct T, params := (D T).construct_params,
              body := (D T).construct, order := (D T).construct_order } args s w) ∧
    (∀ fuel p,
      (D T).is_container_service = false → (D T).is_base_of_container_service = false →
      (D T).is_single = true → map_find s._services T = some p → p ≠ 0 →
      service (fuel + 1) D T [] s w = Outcome.ok (forward w.heap (Arg.ref p)) s w) := by
  refine ⟨?_, ?_, ?_, ?_, ?_, ?_, ?_, ?_, ?_⟩
  · intro v s2 w2
    unfold make_service_instance
    constructor
    · intro h
      obtain ⟨v0, s1, w1, h1, h2⟩ := Outcome.bind_eq_ok.mp h
      obtain ⟨hargs, hh⟩ := (invoke_service_eq_ok_iff gs D T v0 s1 w1 v s2 w2).mp h2
      exact ⟨v0, s1, w1, hargs, h1, hh⟩
    · rintro ⟨v0, s1, w1, hargs, h1, hh⟩
      rw [h1, Outcome.bind_ok]
      exact (invoke_service_eq_ok_iff gs D T v0 s1 w1 v s2 w2).mpr ⟨hargs, hh⟩
  · intro i chain v0 s1 w1 hargs v s2 w2 h
    exact HooksInOrder.length_eq gs T i chain v0 s1 w1 hargs v s2 w2 h
  · intro fuel r s2 w2 hC hB hS hmiss
    have hg : get_service (fuel + 1) D T [] s w
        = (save_new_instance (fun A => get_service fuel D A []) D T []
            { s with _services := (map_index s._services T).2 } w).bind
              fun p self1 w1 => Outcome.ok (Arg.ref p) self1 w1 := by
      simp only [get_service, hC, hB, hS, if_true, Bool.false_eq_true, if_false]
      rw [if_neg (by simp [hmiss])]
    unfold service
    rw [hg]
    unfold save_new_instance
    rw [if_pos hS]
    by_cases hA : (D T).is_abstract = true
    · rw [if_pos hA]
      simp [hA]
    · rw [if_neg hA]
      have hA2 : (D T).is_abstract = false := by simpa using hA
      constructor
      · intro h
        obtain ⟨a, s3, w3, h1, h2⟩ := Outcome.bind_eq_ok.mp h
        obtain ⟨p, s4, w4, h3, h4⟩ := Outcome.bind_eq_ok.mp h1
        obtain ⟨v, s5, w5, h5, h6⟩ := Outcome.bind_eq_ok.mp h3
        injection h6 with e1 e2 e3
        injection h4 with e4 e5 e6
        injection h2 with e7 e8 e9
        subst e1 e2 e3 e4 e5 e6 e8 e9
        refine ⟨hA2, v, s5, w5, h5, rfl, rfl, ?_⟩
        rw [← e7, save_instance_fst]
        exact forward_service _ _ T v (save_instance_heap_self D T v s5 w5)
      · rintro ⟨_, v, s1, w1, h1, e1, e2, e3⟩
        subst e1 e2 e3
        rw [h1]
        simp only [Outcome.bind_ok, save_instance_fst]
        rw [forward_service _ _ T v (save_instance_heap_self D T v s1 w1)]
  · intro fuel s2 w2
    unfold instance_new
    by_cases hS : (D T).is_single = true
    · rw [if_pos hS]
      unfold save_new_instance
      rw [if_pos hS]
      by_cases hA : (D T).is_abstract = true
      · rw [if_pos hA]
        simp [hA]
      · rw [if_neg hA]
        have hA2 : (D T).is_abstract = false := by simpa using hA
        constructor
        · intro h
          obtain ⟨p, s4, w4, h3, h4⟩ := Outcome.bind_eq_ok.mp h
          obtain ⟨v, s5, w5, h5, h6⟩ := Outcome.bind_eq_ok.mp h3
          injection h6 with e1 e2 e3
          injection h4 with e4 e5 e6
          subst e1 e2 e3 e5 e6
          exact ⟨hS, hA2, v, s5, w5, h5, rfl, rfl⟩
        · rintro ⟨_, _, v, s1, w1, h1, e1, e2⟩
          subst e1 e2
          rw [h1]
          simp only [Outcome.bind_ok]
    · rw [if_neg hS]
      simp [hS]
  · intro v s1 w1
    exact ⟨save_instance_heap_self D T v s1 w1, save_instance_trace D T v s1 w1⟩
  · intro fuel r s2 w2 hC hB hS
    have hg : get_service (fuel + 1) D T args s w
        = (make_service_instance (fun A => get_service fuel D A []) D T args s w).bind
            fun v self1 w1 => Outcome.ok (Arg.val v) self1 w1 := by
      simp only [get_service, hC, hB, hS, Bool.false_eq_true, if_false]
    unfold service
    rw [hg]
    constructor
    · intro h
      obtain ⟨a, s3, w3, h1, h2⟩ := Outcome.bind_eq_ok.mp h
      obtain ⟨v, s4, w4, h3, h4⟩ := Outcome.bind_eq_ok.mp h1
      injection h4 with e1 e2 e3
      injection h2 with e4 e5 e6
      subst e1 e2 e3 e5 e6
      exact ⟨v, h3, by rw [← e4]; rfl⟩
    · rintro ⟨v, h1, e1⟩
      subst e1
      rw [h1]
      rfl
  · intro hself fuel v0 s1 w1 hargs v s2 w2 h1 hh
    have hsil : ∀ A, A ∈ deps D T → ∀ s w,
        ((fun A => get_service fuel D A []) A s w).Sat
          (fun _ w1 => events_of T w1.trace = events_of T w.trace) :=
      fun A hA s w => get_service_silent D fuel T A (hself A hA) s w
    obtain ⟨cargs, hb, hev⟩ := invoke_raw_ok_events T (fun A => get_service fuel D A [])
      { id := FnId.construct T, params := (D T).construct_params,
        body := (D T).construct, order := (D T).construct_order } args
      (fun _ => rfl)
      (fun A hA => hsil A (by simp only [deps, List.mem_append]; exact Or.inl hA))
      s s1 w w1 v0 h1
    refine ⟨cargs, hb, ?_⟩
    rw [HooksInOrder.events (fun A => get_service fuel D A []) T 0 (chain_of D T)
      (fun A hA => hsil A (by simp only [deps, List.mem_append]; exact Or.inr hA))
      v0 s1 w1 hargs v s2 w2 hh, hev]
    simp [construction_events]
  · intro hchain
    unfold make_service_instance
    have hinv : ∀ v s1 w1, invoke_service gs D T v s1 w1 = Outcome.ok v s1 w1 := by
      intro v s1 w1
      unfold invoke_service
      unfold chain_of at hchain
      cases hi : (D T).invoke with
      | none => rfl
      | some chain =>
        rw [hi] at hchain
        simp only at hchain
        subst hchain
        rfl
    simp only [hinv]
    exact Outcome.bind_ok_right _
  · intro fuel p hC hB hS hf hp
    unfold service
    rw [get_service_hit D T fuel s w p hC hB hS hf hp]
    rfl

theorem autocall_ordering_witness :
    (∃ v0 s1 w1 hargs,
      invoke_raw (fun A => get_service 2 demo A [])
        { id := FnId.construct 2, params := (demo 2).construct_params,
          body := (demo 2).construct, order := (demo 2).construct_order } []
        { empty_container with _services := [(2, 0)] } empty_world = Outcome.ok v0 s1 w1 ∧
      HooksInOrder (fun A => get_service 2 demo A []) 2 0 [demo_method0, demo_method1]
        v0 s1 w1 hargs 42 { demo_container1 with _services := [(2, 0), (1, 1)] }
        { demo_world1 with
          trace := demo_world1.trace
            ++ [Event.call (FnId.construct 2) [Arg.ref 1],
                Event.call (FnId.autocall 2 0) [Arg.ref 1],
                Event.call (FnId.autocall 2 1) []] }) ∧
    service 3 demo 2 [] empty_container empty_world
      = Outcome.ok (Arg.ref 2) demo_container2 demo_world3 ∧
    heap_find demo_world3.heap 2 = some (Obj.service 2 42) ∧
    events_of 2 demo_world3.trace
      = [Event.call (FnId.construct 2) [Arg.ref 1], Event.call (FnId.autocall 2 0) [Arg.ref 1],
         Event.call (FnId.autocall 2 1) [], Event.alloc 2 (Obj.service 2 42),
         Event.alloc 3 (Obj.ServiceOverride 2 3 2)] :=
  ⟨((autocall_ordering demo 2 (fun A => get_service 2 demo A []) []
      { empty_container with _services := [(2, 0)] } empty_world).1 42
      { demo_container1 with _services := [(2, 0), (1, 1)] }
      { demo_world1 with
        trace := demo_world1.trace
          ++ [Event.call (FnId.construct 2) [Arg.ref 1],
              Event.call (FnId.autocall 2 0) [Arg.ref 1],
              Event.call (FnId.autocall 2 1) []] }).mp (by decide),
   by decide, by decide, by decide⟩

/-! ## Failed resolutions -/

theorem save_instance_instances (D : Decls) (T : type_id_t) (v : Val) (s : Container)
    (w : World) :
    (save_instance D T v s w).2.1._instances
      = s._instances
          ++ ((List.enumFrom (w.next + 2) (parents_of D T)).map
                (fun x => instance_ptr.mk x.1 x.2)
              ++ [instance_ptr.mk (w.next + 1) T]) := by
  unfold save_instance parents_of
  cases (D T).ParentTypes <;>
    simp [save_instance_helper_instances, makeInstancePtr, save_instance_helper]

theorem save_instance_find_other (D : Decls) (T : type_id_t) (v : Val) (s : Container)
    (w : World) (k : type_id_t) (hk : k ≠ T) (hkp : k ∉ parents_of D T) :
    map_find (save_instance D T v s w).2.1._services k = map_find s._services k := by
  unfold save_instance
  unfold parents_of at hkp
  cases hP : (D T).ParentTypes with
  | none => exact save_instance_helper_find_other T [] _ s _ k hk (by simp)
  | some parents =>
    rw [hP] at hkp
    exact save_instance_helper_find_other T parents _ s _ k hk hkp

/-- The container relation is a footprint. -/
theorem store_footprint (D : Decls) :
    Footprint D (fun T s _ s1 _ => StoreWithin D T s s1) where
  refl := fun T s w => ⟨fun _ _ => rfl, [], by simp, by simp⟩
  trans := by
    rintro T s w s1 w1 s2 w2 ⟨f1, n1, h1, a1⟩ ⟨f2, n2, h2, a2⟩
    refine ⟨fun k hk => (f2 k hk).trans (f1 k hk), n1 ++ n2,
      by rw [h2, h1, List.append_assoc], ?_⟩
    intro x hx
    rcases List.mem_append.mp hx with h | h
    · exact a1 x h
    · exact a2 x h
  dep := by
    rintro T V hV s w s1 w1 ⟨f1, n1, h1, a1⟩
    refine ⟨fun k hk => f1 k (fun t ht => hk t (Reaches.step T V t hV ht)), n1, h1, ?_⟩
    intro x hx
    obtain ⟨t, ht, hd⟩ := a1 x hx
    exact ⟨t, Reaches.step T V t hV ht, hd⟩
  lookup := by
    intro T s w
    refine ⟨?_, [], by simp, by simp⟩
    intro k hk
    have hne : T ≠ k := fun h => (hk T (Reaches.refl T)).1 h.symm
    simp only [map_find_index, hne, if_false]
    cases map_find s._services k <;> rfl
  call := fun T f args s w _ => ⟨fun _ _ => rfl, [], by simp, by simp⟩
  save := by
    intro T v s w
    refine ⟨?_, _, save_instance_instances D T v s w, ?_⟩
    · intro k hk
      exact save_instance_find_other D T v s w k (hk T (Reaches.refl T)).1
        (hk T (Reaches.refl T)).2
    · intro x hx
      simp only [List.mem_append, List.mem_map, List.mem_singleton] at hx
      rcases hx with ⟨y, hy, h⟩ | h
      · subst h
        exact ⟨T, Reaches.refl T, Or.inr (List.snd_mem_of_mem_enumFrom hy)⟩
      · subst h
        exact ⟨T, Reaches.refl T, Or.inl rfl⟩

theorem map_find_index_miss (m : service_cont) (k : type_id_t) (h : (map_index m k).1 = 0) :
    map_find (map_index m k).2 k = some 0 := by
  rw [map_find_index]
  rcases (map_index_fst_eq_zero m k).mp h with h0 | h0 <;> simp [h0]

theorem map_assign_keeps (m : service_cont) (k2 : type_id_t) (p : Ptr) (k : type_id_t)
    (h : map_find m k ≠ none) : map_find (map_assign m k2 p) k ≠ none := by
  by_cases hk : k2 = k
  · subst hk
    rw [map_find_assign_self]
    simp
  · rw [map_find_assign_ne _ _ _ _ hk]
    exact h

theorem save_instance_helper_keeps (T : type_id_t) (parents : List type_id_t)
    (service : instance_ptr) (self : Container) (w : World) (k : type_id_t)
    (h : map_find self._services k ≠ none) :
    map_find (save_instance_helper T parents service self w).2.1._services k ≠ none := by
  induction parents generalizing self w with
  | nil =>
    simp only [save_instance_helper]
    exact map_assign_keeps _ _ _ _ h
  | cons P Ps ih =>
    simp only [save_instance_helper]
    exact ih _ _ (map_assign_keeps _ _ _ _ h)

theorem save_instance_keeps (D : Decls) (T : type_id_t) (v : Val) (s : Container) (w : World) :
    KeysKept s (save_instance D T v s w).2.1 := by
  intro k h
  unfold save_instance
  cases (D T).ParentTypes with
  | none => exact save_instance_helper_keeps T [] _ s _ k h
  | some parents => exact save_instance_helper_keeps T parents _ s _ k h

/-- No step of a resolution removes a key from the Registry. -/
theorem keys_footprint (D : Decls) :
    Footprint D (fun _ s _ s1 _ => KeysKept s s1) where
  refl := fun _ _ _ _ h => h
  trans := fun _ _ _ _ _ _ _ h1 h2 k h => h2 k (h1 k h)
  dep := fun _ _ _ _ _ _ _ h => h
  lookup := by
    intro T s w k h
    simp only [map_find_index]
    cases hm : map_find s._services k with
    | none => exact absurd hm h
    | some q => simp
  call := fun _ _ _ _ _ _ _ h => h
  save := fun T v s w => save_instance_keeps D T v s w

/-- C10 (no partial registration on failure), as the code behaves.  A
`service<T>()` of a singleton `T` throws only after a Registry miss, and after
the failed call the Registry has an entry under the identity of `T`, also when
it had none before: the lookup `_services[type_id<T>]` inserts the key, mapped
to the null pointer, and nothing removes it when the construction fails.  When
`T` is abstract the exception is `out_of_range`, that key is the only change,
and it is mapped to the null pointer.  When no type reached by the
dependencies of `T` is `T` or declares `T` as a parent, the key is mapped to
the null pointer and the Instance Store has gained entries of other identities
only: no instance of `T` is stored or registered.  The null entry is not
without effect: a later `merge` keeps it in place of the entry of the merged
container, whatever that is, and an abstract `T` then still throws
`out_of_range` in the container that has taken over the instances. -/
theorem failed_resolution_leaves_key (D : Decls) (T : type_id_t) (fuel : Nat)
    (s s1 : Container) (w w1 : World) (e : Err)
    (hC : (D T).is_container_service = false)
    (hB : (D T).is_base_of_container_service = false)
    (hS : (D T).is_single = true)
    (h : service fuel D T [] s w = Outcome.throw e s1 w1) :
    (map_index s._services T).1 = 0 ∧
    map_find s1._services T ≠ none ∧
    ((D T).is_abstract = true →
      e = Err.out_of_range ∧ s1 = { s with _services := (map_index s._services T).2 } ∧
      w1 = w ∧ map_find s1._services T = some 0) ∧
    ((∀ A, A ∈ deps D T → ∀ t, Reaches D A t → T ≠ t ∧ T ∉ parents_of D t) →
      map_find s1._services T = some 0 ∧
      ∃ new, s1._instances = s._instances ++ new ∧ ∀ x, x ∈ new → x.deleter ≠ T) ∧
    (map_find s1._services T = some 0 → ∀ child : Container,
      map_find (merge s1 child).1._services T = some 0 ∧
      ((D T).is_abstract = true → ∀ fuel2 w2,
        service (fuel2 + 1) D T [] (merge s1 child).1 w2
          = Outcome.throw Err.out_of_range (merge s1 child).1 w2)) := by
  have hmerge : map_find s1._services T = some 0 → ∀ child : Container,
      map_find (merge s1 child).1._services T = some 0 ∧
      ((D T).is_abstract = true → ∀ fuel2 w2,
        service (fuel2 + 1) D T [] (merge s1 child).1 w2
          = Outcome.throw Err.out_of_range (merge s1 child).1 w2) := by
    intro h0 child
    have hm : map_find (merge s1 child).1._services T = some 0 := by
      simp only [merge, map_find_insert_range, h0]
      rfl
    refine ⟨hm, ?_⟩
    intro hA fuel2 w2
    simp only [service, get_service, hC, hB, hS, hA, if_true, Bool.false_eq_true, if_false,
      map_index_of_find _ _ _ hm, ne_eq, not_true_eq_false, save_new_instance, Outcome.bind]
  unfold service at h
  rcases Outcome.bind_eq_throw.mp h with hg | ⟨a, s2, w2, _, hk⟩
  swap
  · cases hk
  cases fuel with
  | zero => simp [get_service] at hg
  | succ n =>
    simp only [get_service, hC, hB, hS, if_true, Bool.false_eq_true, if_false] at hg
    by_cases hit : (map_index s._services T).1 ≠ 0
    · rw [if_pos hit] at hg
      cases hg
    · rw [if_neg hit] at hg
      have hmiss : (map_index s._services T).1 = 0 := by
        by_contra hne
        exact hit hne
      have hnull := map_find_index_miss s._services T hmiss
      rcases Outcome.bind_eq_throw.mp hg with hsave | ⟨p, s2, w2, _, hk⟩
      swap
      · cases hk
      unfold save_new_instance at hsave
      rw [if_pos hS] at hsave
      by_cases hA : (D T).is_abstract = true
      · rw [if_pos hA] at hsave
        injection hsave with he hs hw
        subst he hs hw
        exact ⟨hmiss, by rw [hnull]; simp, fun _ => ⟨rfl, rfl, rfl, hnull⟩,
          fun _ => ⟨hnull, [], by simp, by simp⟩, hmerge⟩
      · rw [if_neg hA] at hsave
        rcases Outcome.bind_eq_throw.mp hsave with hmake | ⟨v, s2, w2, _, hk⟩
        swap
        · cases hk
        have hkeys := make_service_instance_sat
          (fun s _ s1 _ => KeysKept s s1)
          (fun _ _ _ h => h) (fun _ _ _ _ _ _ h1 h2 k h => h2 k (h1 k h))
          (fun A => get_service n D A []) D T []
          (fun A _ s0 w0 => get_service_footprint D _ (keys_footprint D) n A [] s0 w0)
          (fun _ _ _ _ _ _ h => h)
          { s with _services := (map_index s._services T).2 } w
        have hkept := Outcome.sat_of_throw hkeys hmake T (by rw [hnull]; simp)
        refine ⟨hmiss, hkept, fun hA2 => absurd hA2 hA, ?_, hmerge⟩
        intro hfree
        have hsat := make_service_instance_sat
          (fun s _ s1 _ =>
            map_find s1._services T = map_find s._services T ∧
            ∃ new, s1._instances = s._instances ++ new ∧ ∀ x, x ∈ new → x.deleter ≠ T)
          (fun _ _ => ⟨rfl, [], by simp, by simp⟩)
          (by
            rintro a _ b _ c _ ⟨f1, n1, h1, a1⟩ ⟨f2, n2, h2, a2⟩
            refine ⟨f2.trans f1, n1 ++ n2, by rw [h2, h1, List.append_assoc], ?_⟩
            intro x hx
            rcases List.mem_append.mp hx with h | h
            · exact a1 x h
            · exact a2 x h)
          (fun A => get_service n D A []) D T []
          (by
            intro A hA s0 w0 s3 w3 hfin
            obtain ⟨f1, n1, h1, a1⟩ := get_service_footprint D _
              (store_footprint D) n A [] s0 w0 s3 w3 hfin
            refine ⟨f1 T (hfree A hA), n1, h1, ?_⟩
            intro x hx hd
            obtain ⟨t, ht, hor⟩ := a1 x hx
            rw [hd] at hor
            rcases hor with h | h
            · exact (hfree A hA t ht).1 h
            · exact (hfree A hA t ht).2 h)
          (fun _ _ _ _ _ => ⟨rfl, [], by simp, by simp⟩)
          { s with _services := (map_index s._services T).2 } w
        obtain ⟨f1, n1, h1, a1⟩ := Outcome.sat_of_throw hsat hmake
        exact ⟨f1.trans hnull, n1, h1, a1⟩

/-- In the small program nothing that service `5` depends on reaches `5` or
declares `5` as a parent. -/
theorem demo_five_free (A : type_id_t) (hA : A ∈ deps demo 5) (t : type_id_t)
    (ht : Reaches demo A t) : 5 ≠ t ∧ 5 ∉ parents_of demo t := by
  have hA1 : A = 1 := by
    simpa [deps, demo, chain_of, no_service] using hA
  subst hA1
  have ht1 : t = 1 := by
    cases ht with
    | refl => rfl
    | step _ V _ hV _ => simp [deps, demo, chain_of, no_service] at hV
  subst ht1
  simp [parents_of, demo, no_service]

theorem failed_resolution_leaves_key_witness :
    service 1 demo 3 [] empty_container empty_world
      = Outcome.throw Err.out_of_range demo_polluted empty_world ∧
    map_find empty_container._services 3 = none ∧
    map_find demo_polluted._services 3 = some 0 ∧
    instance_value demo 6 60 (fork demo_polluted) empty_world
      = Outcome.ok () demo_container9 demo_world9 ∧
    map_find demo_container9._services 3 = some 2 ∧
    map_find (merge demo_polluted demo_container9).1._services 3 = some 0 ∧
    (merge demo_polluted demo_container9).1._instances = demo_container9._instances ∧
    service 2 demo 3 [] (merge demo_polluted demo_container9).1 demo_world9
      = Outcome.throw Err.out_of_range (merge demo_polluted demo_container9).1 demo_world9 ∧
    service 2 demo 8 [] (merge demo_polluted demo_container9).1 demo_world9
      = Outcome.ok (Arg.ref 1) (merge demo_polluted demo_container9).1 demo_world9 ∧
    service 2 demo 3 [] (merge empty_container demo_container9).1 demo_world9
      = Outcome.ok (Arg.ref 1) (merge empty_container demo_container9).1 demo_world9 ∧
    service 2 demo 5 [] empty_container empty_world
      = Outcome.throw (Err.user 7) demo_container5 demo_world5 ∧
    map_find empty_container._services 5 = none ∧
    map_find demo_container5._services 5 = some 0 ∧
    (∃ new, demo_container5._instances = empty_container._instances ++ new ∧
      ∀ x, x ∈ new → x.deleter ≠ 5) :=
  ⟨by decide, by decide,
   ((failed_resolution_leaves_key demo 3 1 empty_container demo_polluted empty_world
      empty_world Err.out_of_range (by decide) (by decide) (by decide) (by decide)).2.2.1
      (by decide)).2.2.2,
   by decide, by decide,
   ((failed_resolution_leaves_key demo 3 1 empty_container demo_polluted empty_world
      empty_world Err.out_of_range (by decide) (by decide) (by decide) (by decide)).2.2.2.2
      (by decide) demo_container9).1,
   by decide,
   ((failed_resolution_leaves_key demo 3 1 empty_container demo_polluted empty_world
      empty_world Err.out_of_range (by decide) (by decide) (by decide) (by decide)).2.2.2.2
      (by decide) demo_container9).2 (by decide) 1 demo_world9,
   by decide, by decide, by decide, by decide,
   ((failed_resolution_leaves_key demo 5 2 empty_container demo_container5 empty_world
      demo_world5 (Err.user 7) (by decide) (by decide) (by decide) (by decide)).2.2.2.1
      demo_five_free).1,
   ((failed_resolution_leaves_key demo 5 2 empty_container demo_container5 empty_world
      demo_world5 (Err.user 7) (by decide) (by decide) (by decide) (by decide)).2.2.2.1
      demo_five_free).2⟩

/-! ## Registering a value -/

/-- C13 (register-then-resolve round trip).  For a singleton `T` without
overrides and any value `x`, in every container state `instance(x)` allocates
one object holding `x`, appends one entry for it at the end of the Instance
Store and assigns its address to the Registry entry of `T` (replacing what was
there); the next `service<T>()` returns a reference to that object and leaves
container, heap and trace unchanged (no factory runs). -/
theorem register_then_resolve (D : Decls) (T : type_id_t) (x : Val) (s : Container) (w : World)
    (fuel : Nat)
    (hC : (D T).is_container_service = false)
    (hB : (D T).is_base_of_container_service = false)
    (hS : (D T).is_single = true)
    (hno : parents_of D T = []) :
    instance_value D T x s w
      = Outcome.ok ()
          { s with _services := map_assign s._services T (w.next + 1),
                   _instances := s._instances ++ [instance_ptr.mk (w.next + 1) T] }
          { heap := (w.next + 1, Obj.service T x) :: w.heap, next := w.next + 1,
            trace := w.trace ++ [Event.alloc (w.next + 1) (Obj.service T x)] } ∧
    (∀ s1 w1, instance_value D T x s w = Outcome.ok () s1 w1 →
      s1._instances = s._instances ++ [instance_ptr.mk (w.next + 1) T] ∧
      map_find s1._services T = some (w.next + 1) ∧
      heap_find w1.heap (w.next + 1) = some (Obj.service T x) ∧
      service (fuel + 1) D T [] s1 w1 = Outcome.ok (Arg.ref (w.next + 1)) s1 w1) := by
  have hval : instance_value D T x s w
      = Outcome.ok ()
          { s with _services := map_assign s._services T (w.next + 1),
                   _instances := s._instances ++ [instance_ptr.mk (w.next + 1) T] }
          { heap := (w.next + 1, Obj.service T x) :: w.heap, next := w.next + 1,
            trace := w.trace ++ [Event.alloc (w.next + 1) (Obj.service T x)] } := by
    unfold parents_of at hno
    unfold instance_value save_instance
    rw [if_pos hS]
    cases hP : (D T).ParentTypes with
    | none => rfl
    | some parents =>
      rw [hP] at hno
      simp only at hno
      subst hno
      rfl
  refine ⟨hval, ?_⟩
  intro s1 w1 h
  rw [hval] at h
  injection h with _ hs hw
  subst hs hw
  have hfind : map_find (map_assign s._services T (w.next + 1)) T = some (w.next + 1) :=
    map_find_assign_self _ _ _
  have hheap : heap_find ((w.next + 1, Obj.service T x) :: w.heap) (w.next + 1)
      = some (Obj.service T x) := by
    simp [heap_find]
  refine ⟨rfl, hfind, hheap, ?_⟩
  unfold service
  rw [get_service_hit D T fuel _ _ (w.next + 1) hC hB hS hfind (Nat.succ_ne_zero _)]
  simp only [Outcome.bind_ok, forward, hheap]

theorem register_then_resolve_witness :
    instance_value demo 1 11 demo_container1 demo_world1
      = Outcome.ok ()
          { _instances := [{ get := 1, deleter := 1 }, { get := 2, deleter := 1 }],
            _services := [(1, 2)], dynamic_type := [] }
          demo_world2 ∧
    service (0 + 1) demo 1 []
        { _instances := [{ get := 1, deleter := 1 }, { get := 2, deleter := 1 }],
          _services := [(1, 2)], dynamic_type := [] }
        demo_world2
      = Outcome.ok (Arg.ref 2)
          { _instances := [{ get := 1, deleter := 1 }, { get := 2, deleter := 1 }],
            _services := [(1, 2)], dynamic_type := [] }
          demo_world2 :=
  ⟨(register_then_resolve demo 1 11 demo_container1 demo_world1 0 (by decide) (by decide)
      (by decide) (by decide)).1,
   ((register_then_resolve demo 1 11 demo_container1 demo_world1 0 (by decide) (by decide)
      (by decide) (by decide)).2 _ _ (by decide)).2.2.2⟩

/-- C14 (fork sees pre-fork singletons).  Let the Registry of `parent` hold a
non-null pointer under the singleton `T`.  Then `parent.fork()` has an empty
Instance Store, and `service<T>()` on the fork is a Registry hit that returns
the same reference as `service<T>()` on `parent`, leaves the heap and the
trace unchanged (nothing is constructed) and leaves the fork as it is (its
Instance Store stays empty). -/
theorem fork_sees_pre_fork (D : Decls) (T : type_id_t) (fuel : Nat) (parent : Container)
    (w : World) (p : Ptr)
    (hC : (D T).is_container_service = false)
    (hB : (D T).is_base_of_container_service = false)
    (hS : (D T).is_single = true)
    (hf : map_find parent._services T = some p) (hp : p ≠ 0) :
    (fork parent)._instances = [] ∧
    service (fuel + 1) D T [] parent w = Outcome.ok (forward w.heap (Arg.ref p)) parent w ∧
    service (fuel + 1) D T [] (fork parent) w
      = Outcome.ok (forward w.heap (Arg.ref p)) (fork parent) w := by
  refine ⟨rfl, ?_, ?_⟩
  · unfold service
    rw [get_service_hit D T fuel parent w p hC hB hS hf hp]
    rfl
  · unfold service
    rw [get_service_hit D T fuel (fork parent) w p hC hB hS hf hp]
    rfl

theorem fork_sees_pre_fork_witness :
    map_find demo_container2._services 3 = some 3 ∧
    (fork demo_container2)._instances = [] ∧
    service (0 + 1) demo 3 [] demo_container2 demo_world3
      = Outcome.ok (Arg.ref 2) demo_container2 demo_world3 ∧
    service (0 + 1) demo 3 [] (fork demo_container2) demo_world3
      = Outcome.ok (Arg.ref 2) (fork demo_container2) demo_world3 :=
  ⟨by decide,
   fork_sees_pre_fork demo 3 0 demo_container2 demo_world3 3 (by decide) (by decide)
     (by decide) (by decide) (by decide)⟩

/-! ## Merge, clear and container services -/

theorem destroy_events_moved (v : instance_cont) :
    destroy_events (v.map fun e => { e with get := 0 }) = [] := by
  induction v with
  | nil => rfl
  | cons e v ih =>
    simp only [destroy_events, List.map_cons, List.filter_cons] at ih ⊢
    simp

/-- C19 (merge moves ownership in order).  After `self.merge(other)` the
Instance Store of `self` is its previous entries followed by the entries of
`other`, both in their order; every owning pointer of `other` is null, so
`other` owes no destruction callback; an address is owned by `self` as often
as it was owned by `self` and `other` together, so an object owned once before
is owned once by `self`; and the merge of two containers of a program leaves
the world (heap and trace) unchanged: no destruction callback runs. -/
theorem merge_moves_ownership (self other : Container) :
    (merge self other).1._instances = self._instances ++ other._instances ∧
    (merge self other).2._instances.length = other._instances.length ∧
    (∀ e, e ∈ (merge self other).2._instances → e.get = 0) ∧
    destroy_events (merge self other).2._instances = [] ∧
    (∀ p, ((merge self other).1._instances.map instance_ptr.get).count p
      = (self._instances.map instance_ptr.get).count p
        + (other._instances.map instance_ptr.get).count p) ∧
    (∀ p, p ≠ 0 →
      (self._instances.map instance_ptr.get).count p
        + (other._instances.map instance_ptr.get).count p = 1 →
      ((merge self other).1._instances.map instance_ptr.get).count p = 1 ∧
      ((merge self other).2._instances.map instance_ptr.get).count p = 0) ∧
    (∀ (s : Process) (i j : Nat), (s.merge i j).world = s.world) := by
  have hnull : ∀ e, e ∈ (merge self other).2._instances → e.get = 0 := by
    intro e he
    simp only [merge, List.mem_map] at he
    obtain ⟨a, _, ha⟩ := he
    rw [← ha]
  have hcount : ∀ p, ((merge self other).1._instances.map instance_ptr.get).count p
      = (self._instances.map instance_ptr.get).count p
        + (other._instances.map instance_ptr.get).count p := by
    intro p
    simp [merge, List.count_append]
  refine ⟨rfl, by simp [merge], hnull, destroy_events_moved _, hcount, ?_, ?_⟩
  · intro p hp h1
    refine ⟨by rw [hcount, h1], ?_⟩
    rw [List.count_eq_zero]
    intro hmem
    obtain ⟨e, he, hget⟩ := List.mem_map.mp hmem
    exact hp (hget ▸ hnull e he)
  · intro s i j
    unfold Process.merge
    split
    · split <;> rfl
    · rfl

/-- What `vector_clear` adds to the trace: the destruction callbacks of the
elements in the order of the library. -/
theorem vector_clear_trace (order : DestructionOrder) (v : instance_cont) (w : World) :
    (vector_clear order v w).trace = w.trace ++ destroy_events (order v) := by
  unfold vector_clear
  generalize order v = l
  induction l generalizing w with
  | nil => simp [destroy_events]
  | cons e l ih =>
    rw [List.foldl_cons, ih]
    by_cases h : e.get = 0
    · simp [instance_ptr.destruct, destroy_events, h]
    · simp [instance_ptr.destruct, destroy_events, h, deleter]

theorem destroy_events_append (a b : instance_cont) :
    destroy_events (a ++ b) = destroy_events a ++ destroy_events b := by
  simp [destroy_events]

theorem destroy_events_reverse (v : instance_cont) :
    destroy_events v.reverse = (destroy_events v).reverse := by
  simp [destroy_events, List.filter_reverse]

theorem destroy_events_perm (a b : instance_cont) (h : a.Perm b) :
    (destroy_events a).Perm (destroy_events b) := by
  unfold destroy_events
  exact (h.filter _).map _

/-- C11 as amended (destruction order).  `clear()` empties the Instance Store
and the Registry and runs the destruction callback of every entry that owns an
object, in the order in which `std::vector::clear()` destroys the elements:
with any order that is a rearrangement of the elements each callback runs
exactly once; the order is the reverse of the insertion order with a library
that destroys last to first, and the insertion order with a library that
destroys first to last. -/
theorem destruction_order (order : DestructionOrder) (self : Container) (w : World) :
    (clear order self w).1._instances = [] ∧
    (clear order self w).1._services = [] ∧
    (clear order self w).2.trace = w.trace ++ destroy_events (order self._instances) ∧
    ((order self._instances).Perm self._instances →
      (destroy_events (order self._instances)).Perm (destroy_events self._instances)) ∧
    (clear back_to_front self w).2.trace
      = w.trace ++ (destroy_events self._instances).reverse ∧
    (clear front_to_back self w).2.trace = w.trace ++ destroy_events self._instances := by
  refine ⟨rfl, rfl, vector_clear_trace order _ w, destroy_events_perm _ _, ?_, ?_⟩
  · simp only [clear, vector_clear_trace, back_to_front, destroy_events_reverse]
  · simp only [clear, vector_clear_trace, front_to_back]

/-- C11 refuted as stated: the Instance Store holds the entries for the
objects at `1`, `3`, `2`, inserted in this order; with a library whose
`std::vector::clear()` destroys first to last, `clear()` runs the destruction
callbacks in the order `1`, `3`, `2` (the insertion order), not in the reverse
order `2`, `3`, `1`. -/
theorem destruction_order_counterexample :
    demo_container2._instances
      = [{ get := 1, deleter := 1 }, { get := 3, deleter := 3 }, { get := 2, deleter := 2 }] ∧
    (clear front_to_back demo_container2 demo_world3).2.trace
      = demo_world3.trace ++ [Event.destroy 1 1, Event.destroy 3 3, Event.destroy 2 2] ∧
    (clear front_to_back demo_container2 demo_world3).2.trace
      ≠ demo_world3.trace ++ [Event.destroy 2 2, Event.destroy 3 3, Event.destroy 1 1] := by
  decide

/-- C18 (container-scoped accessor resolution).  For a container service `T`
(`ContainerService`, `ForkService`) `service<T>()` returns a handle bound to
the container and changes nothing.  For a service derived from the container
service base, `service<T>()` does the same when `T::Type` is `Container` or
a class the dynamic type of the container derives from; when it is not, the
pointer `dynamic_cast` yields null and is dereferenced: the behaviour is
undefined, and no exception is thrown. -/
theorem accessor_resolution (D : Decls) (T : type_id_t) (fuel : Nat) (s : Container) (w : World) :
    ((D T).is_container_service = true →
      service (fuel + 1) D T [] s w = Outcome.ok Arg.container s w) ∧
    ((D T).is_container_service = false → (D T).is_base_of_container_service = true →
      ((D T).Type_ = container_class ∨ (D T).Type_ ∈ s.dynamic_type) →
      service (fuel + 1) D T [] s w = Outcome.ok Arg.container s w) ∧
    ((D T).is_container_service = false → (D T).is_base_of_container_service = true →
      (D T).Type_ ≠ container_class → (D T).Type_ ∉ s.dynamic_type →
      service (fuel + 1) D T [] s w = Outcome.undefined ∧
      ∀ e s1 w1, service (fuel + 1) D T [] s w ≠ Outcome.throw e s1 w1) := by
  refine ⟨?_, ?_, ?_⟩
  · intro hC
    simp [service, get_service, hC, forward]
  · intro hC hB hcap
    have hcast : s.is_a (D T).Type_ = true := by
      simpa [Container.is_a] using hcap
    simp [service, get_service, hC, hB, hcast, forward]
  · intro hC hB hne hcap
    have hcast : s.is_a (D T).Type_ = false := by
      simp [Container.is_a, hne, hcap]
    have h : service (fuel + 1) D T [] s w = Outcome.undefined := by
      simp [service, get_service, hC, hB, hcast]
    refine ⟨h, ?_⟩
    intro e s1 w1 h2
    rw [h] at h2
    cases h2

/-- The code at the failing input of C18: a plain container (here a fork of a
derived container) is asked for the service `2`, which needs the
container class `7`; the outcome is undefined behaviour, not an exception.  On
the derived container itself the handle is returned, and so is, on a plain
container, the handle of the service `3`, which needs `Container` only. -/
theorem accessor_resolution_failing_input :
    service 1 demo_accessors 2 [] demo_derived_container empty_world
      = Outcome.ok Arg.container demo_derived_container empty_world ∧
    service 1 demo_accessors 2 [] (fork demo_derived_container) empty_world
      = Outcome.undefined ∧
    service 1 demo_accessors 2 [] empty_container empty_world = Outcome.undefined ∧
    service 1 demo_accessors 3 [] empty_container empty_world
      = Outcome.ok Arg.container empty_container empty_world := by
  decide

/-! ## Termination and independence of the fuel -/

theorem Outcome.bind_ne_out_of_fuel {α β : Type} (o : Outcome α)
    (k : α → Container → World → Outcome β)
    (ho : o ≠ Outcome.out_of_fuel) (hk : ∀ a s w, k a s w ≠ Outcome.out_of_fuel) :
    o.bind k ≠ Outcome.out_of_fuel := by
  cases o with
  | ok a s w => exact hk a s w
  | throw e s w => simp
  | undefined => simp
  | ill_formed => simp
  | out_of_fuel => exact absurd rfl ho

theorem Outcome.ne_out_of_fuel_of_bind {α β : Type} (o : Outcome α)
    (k : α → Container → World → Outcome β) (h : o.bind k ≠ Outcome.out_of_fuel) :
    o ≠ Outcome.out_of_fuel := by
  intro ho
  rw [ho] at h
  exact h rfl

theorem resolve_nil (order : EvalOrder) (gs : Resolver) (s : Container) (w : World) :
    resolve order gs [] s w = Outcome.ok [] s w := by
  have h : order.seq s w 0 = [] := List.Perm.eq_nil (by simpa using order.perm s w 0)
  simp only [resolve, List.length_nil, h, resolve_at, Outcome.bind, List.range_zero,
    List.filterMap_nil]

theorem resolve_at_terminates (gs : Resolver) (As : List type_id_t)
    (hgs : ∀ A, A ∈ As → ∀ s w, gs A s w ≠ Outcome.out_of_fuel) (σ : List Nat)
    (s : Container) (w : World) :
    resolve_at gs As σ s w ≠ Outcome.out_of_fuel := by
  induction σ generalizing s w with
  | nil => simp [resolve_at]
  | cons i σ ih =>
    simp only [resolve_at]
    cases hA : As[i]? with
    | none => exact ih s w
    | some A =>
      apply Outcome.bind_ne_out_of_fuel _ _ (hgs A (List.getElem?_mem hA) s w)
      intro a s1 w1
      apply Outcome.bind_ne_out_of_fuel _ _ (ih s1 w1)
      intro rest s2 w2
      simp

theorem resolve_terminates {order : EvalOrder} (gs : Resolver) (As : List type_id_t)
    (hgs : ∀ A, A ∈ As → ∀ s w, gs A s w ≠ Outcome.out_of_fuel) (s : Container) (w : World) :
    resolve order gs As s w ≠ Outcome.out_of_fuel := by
  unfold resolve
  apply Outcome.bind_ne_out_of_fuel _ _ (resolve_at_terminates gs As hgs _ s w)
  intro rs s1 w1
  simp

theorem call_terminates (function : Callable) (all : List Arg) (s : Container) (w : World) :
    call function all s w ≠ Outcome.out_of_fuel := by
  unfold call
  cases function.body all <;> simp

theorem invoke_raw_terminates (gs : Resolver) (function : Callable) (args : List Arg)
    (hgs : ∀ A, A ∈ function.params → ∀ s w, gs A s w ≠ Outcome.out_of_fuel)
    (s : Container) (w : World) :
    invoke_raw gs function args s w ≠ Outcome.out_of_fuel := by
  unfold invoke_raw
  split
  · unfold invoke_seq
    apply Outcome.bind_ne_out_of_fuel _ _
      (resolve_terminates gs _ (fun A hA => hgs A (List.mem_of_mem_take hA)) s w)
    intro rs s1 w1
    exact call_terminates _ _ _ _
  · simp

theorem invoke_service_helper_terminates (gs : Resolver) (T : type_id_t) (chain : List Method)
    (hgs : ∀ m, m ∈ chain → ∀ A, A ∈ m.params → ∀ s w, gs A s w ≠ Outcome.out_of_fuel)
    (i : Nat) (service : Val) (s : Container) (w : World) :
    invoke_service_helper gs T i chain service s w ≠ Outcome.out_of_fuel := by
  induction chain generalizing i service s w with
  | nil => simp [invoke_service_helper]
  | cons m Next ih =>
    simp only [invoke_service_helper]
    apply Outcome.bind_ne_out_of_fuel
    · unfold do_invoke_service
      exact invoke_raw_terminates gs
        { id := FnId.autocall T i, params := m.params, body := m.run service, order := m.order } []
        (fun A hA => hgs m (by simp) A hA) s w
    · intro service1 s1 w1
      exact ih (fun m2 hm2 => hgs m2 (by simp [hm2])) (i + 1) service1 s1 w1

theorem make_service_instance_terminates (gs : Resolver) (D : Decls) (T : type_id_t)
    (args : List Arg)
    (hgs : ∀ A, A ∈ deps D T → ∀ s w, gs A s w ≠ Outcome.out_of_fuel)
    (s : Container) (w : World) :
    make_service_instance gs D T args s w ≠ Outcome.out_of_fuel := by
  unfold make_service_instance
  apply Outcome.bind_ne_out_of_fuel
  · exact invoke_raw_terminates gs
      { id := FnId.construct T, params := (D T).construct_params,
        body := (D T).construct, order := (D T).construct_order } args
      (fun A hA => hgs A (by simp only [deps, List.mem_append]; exact Or.inl hA)) s w
  · intro service s1 w1
    unfold invoke_service
    cases hinv : (D T).invoke with
    | none => simp
    | some chain =>
      refine invoke_service_helper_terminates gs T chain ?_ 0 service s1 w1
      intro m hm A hA
      apply hgs
      simp only [deps, chain_of, hinv, List.mem_append, List.mem_flatMap]
      exact Or.inr ⟨m, hm, hA⟩

theorem save_new_instance_terminates (gs : Resolver) (D : Decls) (T : type_id_t)
    (args : List Arg)
    (hgs : ∀ A, A ∈ deps D T → ∀ s w, gs A s w ≠ Outcome.out_of_fuel)
    (s : Container) (w : World) :
    save_new_instance gs D T args s w ≠ Outcome.out_of_fuel := by
  unfold save_new_instance
  split
  · split
    · simp
    · apply Outcome.bind_ne_out_of_fuel _ _
        (make_service_instance_terminates gs D T args hgs s w)
      intro service s1 w1
      simp
  · simp

theorem Reaches.trans (D : Decls) (T U V : type_id_t) (h1 : Reaches D T U)
    (h2 : Reaches D U V) : Reaches D T V := by
  induction h1 with
  | refl => exact h2
  | step A B C hB _ ih => exact Reaches.step A B V hB (ih h2)

theorem Reaches.tail (D : Decls) (T U V : type_id_t) (h1 : Reaches D T U)
    (hV : V ∈ deps D U) : Reaches D T V :=
  Reaches.trans D T U V h1 (Reaches.step U V V hV (Reaches.refl V))

/-- With a ranking that decreases along the dependencies of the types `T`
reaches, `get_service` on such a type comes to an end as soon as the fuel
exceeds the rank of the type. -/
theorem get_service_terminates (D : Decls) (T : type_id_t) (rank : type_id_t → Nat)
    (hrank : ∀ U, Reaches D T U → ∀ V, V ∈ deps D U → rank V < rank U)
    (fuel : Nat) (U : type_id_t) (hU : Reaches D T U) (hfuel : rank U < fuel)
    (args : List Arg) (s : Container) (w : World) :
    get_service fuel D U args s w ≠ Outcome.out_of_fuel := by
  induction fuel generalizing U args s w with
  | zero => exact absurd hfuel (Nat.not_lt_zero _)
  | succ n ih =>
    have hgs : ∀ A, A ∈ deps D U → ∀ s w,
        (fun A => get_service n D A []) A s w ≠ Outcome.out_of_fuel := by
      intro A hA s w
      have h1 := hrank U hU A hA
      exact ih A (Reaches.tail D T U A hU hA) (by omega) [] s w
    simp only [get_service]
    split
    · split <;> simp
    · split
      · split
        · split <;> simp
        · simp
      · split
        · split
          · split
            · simp
            · apply Outcome.bind_ne_out_of_fuel _ _
                (save_new_instance_terminates _ D U [] hgs _ w)
              intro p s1 w1
              simp
          · simp
        · apply Outcome.bind_ne_out_of_fuel _ _
            (make_service_instance_terminates _ D U args hgs s w)
          intro v s1 w1
          simp

theorem Outcome.bind_stable {α β : Type} (o o2 : Outcome α)
    (k k2 : α → Container → World → Outcome β) (ho : o2 = o)
    (hk : ∀ a s w, o = Outcome.ok a s w → k a s w ≠ Outcome.out_of_fuel → k2 a s w = k a s w)
    (h : o.bind k ≠ Outcome.out_of_fuel) : o2.bind k2 = o.bind k := by
  subst ho
  cases o2 with
  | ok a s w => exact hk a s w rfl h
  | throw e s w => rfl
  | undefined => rfl
  | ill_formed => rfl
  | out_of_fuel => rfl

theorem resolve_at_stable (gs gs2 : Resolver)
    (hle : ∀ A s w, gs A s w ≠ Outcome.out_of_fuel → gs2 A s w = gs A s w)
    (As : List type_id_t) (σ : List Nat) (s : Container) (w : World)
    (h : resolve_at gs As σ s w ≠ Outcome.out_of_fuel) :
    resolve_at gs2 As σ s w = resolve_at gs As σ s w := by
  induction σ generalizing s w with
  | nil => rfl
  | cons i σ ih =>
    simp only [resolve_at] at h ⊢
    cases hA : As[i]? with
    | none =>
      rw [hA] at h
      exact ih s w h
    | some A =>
      rw [hA] at h
      simp only at h ⊢
      apply Outcome.bind_stable _ _ _ _ (hle A s w (Outcome.ne_out_of_fuel_of_bind _ _ h)) _ h
      intro a s1 w1 _ hk
      apply Outcome.bind_stable _ _ _ _ (ih s1 w1 (Outcome.ne_out_of_fuel_of_bind _ _ hk)) _ hk
      intro rest s2 w2 _ _
      rfl

theorem resolve_stable {order : EvalOrder} (gs gs2 : Resolver)
    (hle : ∀ A s w, gs A s w ≠ Outcome.out_of_fuel → gs2 A s w = gs A s w)
    (As : List type_id_t) (s : Container) (w : World)
    (h : resolve order gs As s w ≠ Outcome.out_of_fuel) :
    resolve order gs2 As s w = resolve order gs As s w := by
  unfold resolve at h ⊢
  apply Outcome.bind_stable _ _ _ _
    (resolve_at_stable gs gs2 hle As _ s w (Outcome.ne_out_of_fuel_of_bind _ _ h)) _ h
  intro rs s1 w1 _ _
  rfl

theorem invoke_raw_stable (gs gs2 : Resolver)
    (hle : ∀ A s w, gs A s w ≠ Outcome.out_of_fuel → gs2 A s w = gs A s w)
    (function : Callable) (args : List Arg) (s : Container) (w : World)
    (h : invoke_raw gs function args s w ≠ Outcome.out_of_fuel) :
    invoke_raw gs2 function args s w = invoke_raw gs function args s w := by
  unfold invoke_raw at h ⊢
  split
  · rename_i hm
    rw [if_pos hm] at h
    unfold invoke_seq at h ⊢
    apply Outcome.bind_stable _ _ _ _
      (resolve_stable gs gs2 hle _ s w (Outcome.ne_out_of_fuel_of_bind _ _ h)) _ h
    intro rs s1 w1 _ _
    rfl
  · rfl

theorem invoke_service_helper_stable (gs gs2 : Resolver)
    (hle : ∀ A s w, gs A s w ≠ Outcome.out_of_fuel → gs2 A s w = gs A s w)
    (T : type_id_t) (chain : List Method) (i : Nat) (service : Val) (s : Container) (w : World)
    (h : invoke_service_helper gs T i chain service s w ≠ Outcome.out_of_fuel) :
    invoke_service_helper gs2 T i chain service s w
      = invoke_service_helper gs T i chain service s w := by
  induction chain generalizing i service s w with
  | nil => rfl
  | cons m Next ih =>
    simp only [invoke_service_helper] at h ⊢
    apply Outcome.bind_stable _ _ _ _ _ _ h
    · unfold do_invoke_service
      apply invoke_raw_stable gs gs2 hle
      have := Outcome.ne_out_of_fuel_of_bind _ _ h
      unfold do_invoke_service at this
      exact this
    · intro service1 s1 w1 _ h2
      exact ih (i + 1) service1 s1 w1 h2

theorem make_service_instance_stable (gs gs2 : Resolver)
    (hle : ∀ A s w, gs A s w ≠ Outcome.out_of_fuel → gs2 A s w = gs A s w)
    (D : Decls) (T : type_id_t) (args : List Arg) (s : Container) (w : World)
    (h : make_service_instance gs D T args s w ≠ Outcome.out_of_fuel) :
    make_service_instance gs2 D T args s w = make_service_instance gs D T args s w := by
  unfold make_service_instance at h ⊢
  apply Outcome.bind_stable _ _ _ _
    (invoke_raw_stable gs gs2 hle _ args s w (Outcome.ne_out_of_fuel_of_bind _ _ h)) _ h
  intro service s1 w1 _ h2
  unfold invoke_service at h2 ⊢
  cases hinv : (D T).invoke with
  | none => rfl
  | some chain =>
    rw [hinv] at h2
    exact invoke_service_helper_stable gs gs2 hle T chain 0 service s1 w1 h2

theorem save_new_instance_stable (gs gs2 : Resolver)
    (hle : ∀ A s w, gs A s w ≠ Outcome.out_of_fuel → gs2 A s w = gs A s w)
    (D : Decls) (T : type_id_t) (args : List Arg) (s : Container) (w : World)
    (h : save_new_instance gs D T args s w ≠ Outcome.out_of_fuel) :
    save_new_instance gs2 D T args s w = save_new_instance gs D T args s w := by
  unfold save_new_instance at h ⊢
  by_cases hS : (D T).is_single = true
  · simp only [hS, if_true] at h ⊢
    by_cases hA : (D T).is_abstract = true
    · simp only [hA, if_true]
    · simp only [hA, if_false, Bool.false_eq_true] at h ⊢
      apply Outcome.bind_stable _ _ _ _
        (make_service_instance_stable gs gs2 hle D T args s w
          (Outcome.ne_out_of_fuel_of_bind _ _ h)) _ h
      intro service s1 w1 _ _
      rfl
  · simp only [hS, if_false, Bool.false_eq_true]

/-- More fuel does not change an outcome that did not run out of fuel. -/
theorem get_service_stable (D : Decls) (fuel : Nat) (T : type_id_t) (args : List Arg)
    (s : Container) (w : World)
    (h : get_service fuel D T args s w ≠ Outcome.out_of_fuel) :
    get_service (fuel + 1) D T args s w = get_service fuel D T args s w := by
  induction fuel generalizing T args s w with
  | zero => exact absurd rfl h
  | succ n ih =>
    have hle : ∀ A s w, (fun A => get_service n D A []) A s w ≠ Outcome.out_of_fuel →
        (fun A => get_service (n + 1) D A []) A s w = (fun A => get_service n D A []) A s w :=
      fun A s w hA => ih A [] s w hA
    rw [get_service] at h
    conv_lhs => rw [get_service]
    conv_rhs => rw [get_service]
    by_cases hC : (D T).is_container_service = true
    · simp only [if_pos hC]
    · simp only [if_neg hC] at h ⊢
      by_cases hB : (D T).is_base_of_container_service = true
      · simp only [if_pos hB]
      · simp only [if_neg hB] at h ⊢
        by_cases hS : (D T).is_single = true
        · simp only [if_pos hS] at h ⊢
          by_cases ha : args = []
          · simp only [if_pos ha] at h ⊢
            by_cases hit : (map_index s._services T).1 ≠ 0
            · simp only [if_pos hit]
            · simp only [if_neg hit] at h ⊢
              apply Outcome.bind_stable _ _ _ _
                (save_new_instance_stable _ _ hle D T [] _ w
                  (Outcome.ne_out_of_fuel_of_bind _ _ h)) _ h
              intro p s1 w1 _ _
              rfl
          · simp only [if_neg ha]
        · simp only [if_neg hS] at h ⊢
          apply Outcome.bind_stable _ _ _ _
            (make_service_instance_stable _ _ hle D T args s w
              (Outcome.ne_out_of_fuel_of_bind _ _ h)) _ h
          intro v s1 w1 _ _
          rfl

theorem get_service_stable_add (D : Decls) (fuel extra : Nat) (T : type_id_t) (args : List Arg)
    (s : Container) (w : World)
    (h : get_service fuel D T args s w ≠ Outcome.out_of_fuel) :
    get_service (fuel + extra) D T args s w = get_service fuel D T args s w := by
  induction extra with
  | zero => rfl
  | succ k ih =>
    rw [← Nat.add_assoc, get_service_stable D (fuel + k) T args s w (by rw [ih]; exact h), ih]

/-! ## Resolutions that come to an end -/

theorem get_service_succ_terminates (D : Decls) (n : Nat) (U : type_id_t)
    (hgs : ∀ A, A ∈ deps D U → ∀ s w, get_service n D A [] s w ≠ Outcome.out_of_fuel)
    (args : List Arg) (s : Container) (w : World) :
    get_service (n + 1) D U args s w ≠ Outcome.out_of_fuel := by
  have hgs2 : ∀ A, A ∈ deps D U → ∀ s w,
      (fun A => get_service n D A []) A s w ≠ Outcome.out_of_fuel := hgs
  simp only [get_service]
  split
  · split <;> simp
  · split
    · split
      · split <;> simp
      · simp
    · split
      · split
        · split
          · simp
          · apply Outcome.bind_ne_out_of_fuel _ _
              (save_new_instance_terminates _ D U [] hgs2 _ w)
            intro p s1 w1
            simp
        · simp
      · apply Outcome.bind_ne_out_of_fuel _ _
          (make_service_instance_terminates _ D U args hgs2 s w)
        intro v s1 w1
        simp

theorem get_service_terminates_mono (D : Decls) (n m : Nat) (hnm : n ≤ m) (T : type_id_t)
    (args : List Arg) (s : Container) (w : World)
    (h : get_service n D T args s w ≠ Outcome.out_of_fuel) :
    get_service m D T args s w ≠ Outcome.out_of_fuel := by
  obtain ⟨k, rfl⟩ := Nat.exists_eq_add_of_le hnm
  rw [get_service_stable_add D n k T args s w h]
  exact h

theorem exists_fuel_of_forall_mem (P : type_id_t → Nat → Prop)
    (hmono : ∀ V n m, n ≤ m → P V n → P V m) (l : List type_id_t)
    (h : ∀ V, V ∈ l → ∃ n, P V n) : ∃ n, ∀ V, V ∈ l → P V n := by
  induction l with
  | nil => exact ⟨0, by simp⟩
  | cons A l ih =>
    obtain ⟨a, ha⟩ := h A (by simp)
    obtain ⟨b, hb⟩ := ih (fun V hV => h V (by simp [hV]))
    refine ⟨max a b, ?_⟩
    intro V hV
    rcases List.mem_cons.mp hV with h1 | h1
    · subst h1
      exact hmono _ _ _ (le_max_left a b) ha
    · exact hmono _ _ _ (le_max_right a b) (hb V h1)

/-- When the dependency relation is well-founded on the types `T` reaches, there
is an amount of fuel from which on `get_service` on such a type comes to an end,
in every state. -/
theorem get_service_total (D : Decls) (T : type_id_t) (hwf : WellFounded (depends_on D T))
    (U : type_id_t) (hU : Reaches D T U) :
    ∃ n, ∀ args s w, get_service n D U args s w ≠ Outcome.out_of_fuel := by
  refine hwf.induction
    (C := fun U => Reaches D T U →
      ∃ n, ∀ args s w, get_service n D U args s w ≠ Outcome.out_of_fuel) U ?_ hU
  intro U ih hU
  have hdeps : ∀ V, V ∈ deps D U →
      ∃ n, ∀ s w, get_service n D V [] s w ≠ Outcome.out_of_fuel := by
    intro V hV
    obtain ⟨n, hn⟩ := ih V ⟨hU, hV⟩ (Reaches.tail D T U V hU hV)
    exact ⟨n, fun s w => hn [] s w⟩
  obtain ⟨n, hn⟩ := exists_fuel_of_forall_mem
    (fun V n => ∀ s w, get_service n D V [] s w ≠ Outcome.out_of_fuel)
    (fun V n m hnm h s w => get_service_terminates_mono D n m hnm V [] s w (h s w))
    (deps D U) hdeps
  exact ⟨n + 1, fun args s w => get_service_succ_terminates D n U hn args s w⟩

theorem service_ne_out_of_fuel (D : Decls) (fuel : Nat) (T : type_id_t) (args : List Arg)
    (s : Container) (w : World) (h : get_service fuel D T args s w ≠ Outcome.out_of_fuel) :
    service fuel D T args s w ≠ Outcome.out_of_fuel := by
  unfold service
  apply Outcome.bind_ne_out_of_fuel _ _ h
  intro a s1 w1
  simp

theorem service_stable_add (D : Decls) (fuel extra : Nat) (T : type_id_t) (args : List Arg)
    (s : Container) (w : World) (h : get_service fuel D T args s w ≠ Outcome.out_of_fuel) :
    service (fuel + extra) D T args s w = service fuel D T args s w := by
  unfold service
  rw [get_service_stable_add D fuel extra T args s w h]

/-- A ranking that decreases along the dependencies of the types `T` reaches
makes the dependency relation well-founded there. -/
theorem depends_on_wf_of_rank (D : Decls) (T : type_id_t) (rank : type_id_t → Nat)
    (hrank : ∀ U, Reaches D T U → ∀ V, V ∈ deps D U → rank V < rank U) :
    WellFounded (depends_on D T) :=
  Subrelation.wf (r := InvImage (fun a b : Nat => a < b) rank)
    (fun {V U} h => hrank U h.1 V h.2) (InvImage.wf rank Nat.lt_wfRel.wf)

theorem demo_wf (T : type_id_t) : WellFounded (depends_on demo T) :=
  depends_on_wf_of_rank demo T (fun t => t) (fun U _ V hV => demo_ranked U V hV)

/-! ## What a construction leaves in the trace -/

theorem get_service_trace_ext (D : Decls) (fuel : Nat) (T : type_id_t) (args : List Arg)
    (s : Container) (w : World) :
    (get_service fuel D T args s w).Sat (fun _ w1 => ∃ evs, w1.trace = w.trace ++ evs) := by
  intro s1 w1 h
  obtain ⟨evs, he, _⟩ := get_service_footprint D _ (owned_footprint D) fuel T args s w s1 w1 h
  exact ⟨evs, he⟩

theorem save_instance_next (D : Decls) (T : type_id_t) (v : Val) (s : Container) (w : World) :
    (save_instance D T v s w).2.2.next = w.next + 1 + (parents_of D T).length := by
  unfold save_instance parents_of
  cases (D T).ParentTypes <;> simp [save_instance_helper_next, makeInstancePtr]

/-- The allocation counter never decreases. -/
theorem next_footprint (D : Decls) :
    Footprint D (fun _ _ w _ w1 => w.next ≤ w1.next) where
  refl := fun _ _ _ => le_refl _
  trans := fun _ _ _ _ _ _ _ h1 h2 => le_trans h1 h2
  dep := fun _ _ _ _ _ _ _ h => h
  lookup := fun _ _ _ => le_refl _
  call := fun _ _ _ _ _ _ => le_refl _
  save := by
    intro T v s w
    rw [save_instance_next]
    simp only [Ptr] at *
    omega

theorem invoke_service_sat (Q : Container → World → Container → World → Prop)
    (hrefl : ∀ s w, Q s w s w)
    (htrans : ∀ s w s1 w1 s2 w2, Q s w s1 w1 → Q s1 w1 s2 w2 → Q s w s2 w2)
    (gs : Resolver) (D : Decls) (T : type_id_t)
    (hgs : ∀ A, A ∈ deps D T → ∀ s w, (gs A s w).Sat (Q s w))
    (hcall : ∀ i all s w,
      Q s w s { w with trace := w.trace ++ [Event.call (FnId.autocall T i) all] })
    (service : Val) (s : Container) (w : World) :
    (invoke_service gs D T service s w).Sat (Q s w) := by
  unfold invoke_service
  cases hinv : (D T).invoke with
  | none =>
    intro s2 w2 h
    simp only [Outcome.final, Option.some.injEq, Prod.mk.injEq] at h
    obtain ⟨h1, h2⟩ := h
    subst h1 h2
    exact hrefl _ _
  | some chain =>
    have hgs2 : ∀ m, m ∈ chain → ∀ A, A ∈ m.params → ∀ s w, (gs A s w).Sat (Q s w) := by
      intro m hm A hA
      apply hgs
      simp only [deps, chain_of, hinv, List.mem_append, List.mem_flatMap]
      exact Or.inr ⟨m, hm, hA⟩
    clear hinv
    generalize 0 = i
    induction chain generalizing i service s w with
    | nil =>
      intro s1 w1 h
      simp only [invoke_service_helper, Outcome.final, Option.some.injEq, Prod.mk.injEq] at h
      obtain ⟨h1, h2⟩ := h
      subst h1 h2
      exact hrefl _ _
    | cons m Next ih =>
      simp only [invoke_service_helper]
      apply Outcome.sat_bind_trans Q htrans
      · unfold do_invoke_service
        exact invoke_raw_sat Q hrefl htrans gs
          { id := FnId.autocall T i, params := m.params, body := m.run service, order := m.order } []
          (fun A hA => hgs2 m (by simp) A hA)
          (fun all s w => hcall i all s w) s w
      · intro service1 s1 w1
        exact ih service1 s1 w1 (fun m2 hm2 => hgs2 m2 (by simp [hm2])) (i + 1)

/-- A returning `invoke_raw` ends with the call of the callable. -/
theorem invoke_raw_ok_call (gs : Resolver) (function : Callable) (args : List Arg)
    (hgs : ∀ A, A ∈ function.params → ∀ s w,
      (gs A s w).Sat (fun _ w1 => ∃ evs, w1.trace = w.trace ++ evs))
    (s s1 : Container) (w w1 : World) (r : Val)
    (h : invoke_raw gs function args s w = Outcome.ok r s1 w1) :
    ∃ e1 all, function.body all = Except.ok r ∧
      w1.trace = w.trace ++ e1 ++ [Event.call function.id all] := by
  unfold invoke_raw at h
  split at h
  · unfold invoke_seq at h
    obtain ⟨rs, s2, w2, hres, hcall⟩ := Outcome.bind_eq_ok.mp h
    obtain ⟨e1, he1⟩ := Outcome.sat_of_ok
      (resolve_sat (fun _ w _ w1 => ∃ evs, w1.trace = w.trace ++ evs)
        (fun _ _ => ⟨[], by simp⟩)
        (fun _ _ _ _ _ _ h1 h2 => by
          obtain ⟨a, ha⟩ := h1
          obtain ⟨b, hb⟩ := h2
          exact ⟨a ++ b, by rw [hb, ha, List.append_assoc]⟩)
        gs _ (fun A hA => hgs A (List.mem_of_mem_take hA)) s w) hres
    unfold call at hcall
    cases hb : function.body (rs ++ args) with
    | error e => simp [hb] at hcall
    | ok r2 =>
      simp only [hb] at hcall
      injection hcall with hr hs hw
      subst hr hs hw
      exact ⟨e1, rs ++ args, hb, by simp [he1]⟩
  · cases h

/-- A returning `make_service_instance<T>` has called the factory of `T`. -/
theorem make_service_instance_ok_call (D : Decls) (T : type_id_t) (gs : Resolver)
    (args : List Arg)
    (hgs : ∀ A, A ∈ deps D T → ∀ s w,
      (gs A s w).Sat (fun _ w1 => ∃ evs, w1.trace = w.trace ++ evs))
    (s s1 : Container) (w w1 : World) (v : Val)
    (h : make_service_instance gs D T args s w = Outcome.ok v s1 w1) :
    ∃ e1 cargs e2, (∃ v0, (D T).construct cargs = Except.ok v0) ∧
      w1.trace = w.trace ++ e1 ++ Event.call (FnId.construct T) cargs :: e2 := by
  unfold make_service_instance at h
  obtain ⟨service, s2, w2, hcons, hhooks⟩ := Outcome.bind_eq_ok.mp h
  obtain ⟨e1, cargs, hbody, he1⟩ := invoke_raw_ok_call gs
    { id := FnId.construct T, params := (D T).construct_params,
      body := (D T).construct, order := (D T).construct_order } args
    (fun A hA => hgs A (by simp only [deps, List.mem_append]; exact Or.inl hA))
    s s2 w w2 service hcons
  obtain ⟨e2, he2⟩ := Outcome.sat_of_ok
    (invoke_service_sat (fun _ w _ w1 => ∃ evs, w1.trace = w.trace ++ evs)
      (fun _ _ => ⟨[], by simp⟩)
      (fun _ _ _ _ _ _ h1 h2 => by
        obtain ⟨a, ha⟩ := h1
        obtain ⟨b, hb⟩ := h2
        exact ⟨a ++ b, by rw [hb, ha, List.append_assoc]⟩)
      gs D T hgs (fun i all s w => ⟨[Event.call (FnId.autocall T i) all], rfl⟩)
      service s2 w2) hhooks
  exact ⟨e1, cargs, e2, ⟨service, hbody⟩, by rw [he2, he1]; simp⟩

/-! ## Transient services -/

/-- When every singleton that a `T` needs is registered, resolving a `T` leaves
the container and the heap as they are. -/
theorem get_service_resolved_frame (D : Decls) (fuel : Nat) (T : type_id_t) (args : List Arg)
    (s : Container) (w : World) (hres : SingletonsResolved D s T) :
    (get_service fuel D T args s w).Sat
      (fun s1 w1 => s1 = s ∧ w1.heap = w.heap ∧ w1.next = w.next) := by
  induction fuel generalizing T args s w with
  | zero =>
    intro s1 w1 h
    simp [get_service, Outcome.final] at h
  | succ n ih =>
    have hdone : ∀ {α : Type} (a : α),
        (Outcome.ok a s w).Sat (fun s1 w1 => s1 = s ∧ w1.heap = w.heap ∧ w1.next = w.next) := by
      intro α a s1 w1 h
      simp only [Outcome.final, Option.some.injEq, Prod.mk.injEq] at h
      obtain ⟨h1, h2⟩ := h
      subst h1 h2
      exact ⟨rfl, rfl, rfl⟩
    have hnone : ∀ {α : Type} (o : Outcome α), o.final = none →
        o.Sat (fun s1 w1 => s1 = s ∧ w1.heap = w.heap ∧ w1.next = w.next) := by
      intro α o ho s1 w1 h
      rw [ho] at h
      cases h
    rw [get_service]
    by_cases hC : (D T).is_container_service = true
    · simp only [if_pos hC]
      split
      · exact hdone _
      · exact hnone _ rfl
    · simp only [if_neg hC]
      by_cases hB : (D T).is_base_of_container_service = true
      · simp only [if_pos hB]
        split
        · split
          · exact hdone _
          · exact hnone _ rfl
        · exact hnone _ rfl
      · simp only [if_neg hB]
        by_cases hS : (D T).is_single = true
        · simp only [if_pos hS]
          by_cases ha : args = []
          · simp only [if_pos ha]
            obtain ⟨p, hp, hf⟩ := hres T (Needs.refl T)
              ⟨by simpa using hC, by simpa using hB, hS⟩
            rw [map_index_of_find _ _ _ hf]
            simp only [ne_eq, hp, not_false_eq_true, if_true]
            exact hdone _
          · simp only [if_neg ha]
            exact hnone _ rfl
        · simp only [if_neg hS]
          have hns : ¬ is_singleton D T := fun h => hS h.2.2
          have hmake := make_service_instance_sat
            (fun s0 w0 s1 w1 => SingletonsResolved D s0 T →
              s1 = s0 ∧ w1.heap = w0.heap ∧ w1.next = w0.next)
            (fun _ _ _ => ⟨rfl, rfl, rfl⟩)
            (fun s0 w0 s1 w1 s2 w2 h1 h2 h0 => by
              obtain ⟨a1, a2, a3⟩ := h1 h0
              obtain ⟨b1, b2, b3⟩ := h2 (a1 ▸ h0)
              exact ⟨b1.trans a1, b2.trans a2, b3.trans a3⟩)
            (fun A => get_service n D A []) D T args
            (fun A hA s0 w0 s1 w1 h h0 =>
              ih A [] s0 w0 (fun U hU => h0 U (Needs.step T A U hns hA hU)) s1 w1 h)
            (fun _ _ _ _ _ _ => ⟨rfl, rfl, rfl⟩) s w
          apply Outcome.sat_bind
          · intro e s1 w1 h
            exact Outcome.sat_of_throw hmake h hres
          · intro v s1 w1 h s2 w2 hf
            simp only [Outcome.final, Option.some.injEq, Prod.mk.injEq] at hf
            obtain ⟨h1, h2⟩ := hf
            subst h1 h2
            exact Outcome.sat_of_ok hmake h hres

/-- A transient `get_service<T>` that returns has called the factory of `T` and
returns the service by value. -/
theorem get_service_transient_ok (D : Decls) (fuel : Nat) (T : type_id_t) (args : List Arg)
    (s s1 : Container) (w w1 : World) (a : Arg)
    (hC : (D T).is_container_service = false)
    (hB : (D T).is_base_of_container_service = false)
    (hS : (D T).is_single = false)
    (h : get_service fuel D T args s w = Outcome.ok a s1 w1) :
    (∃ v, a = Arg.val v) ∧
    ∃ e1 cargs e2, (∃ v0, (D T).construct cargs = Except.ok v0) ∧
      w1.trace = w.trace ++ e1 ++ Event.call (FnId.construct T) cargs :: e2 := by
  cases fuel with
  | zero => simp [get_service] at h
  | succ n =>
    simp only [get_service, hC, hB, hS, Bool.false_eq_true, if_false] at h
    obtain ⟨v, s3, w3, hmake, hk⟩ := Outcome.bind_eq_ok.mp h
    injection hk with ha hs hw
    subst ha hs hw
    exact ⟨⟨v, rfl⟩, make_service_instance_ok_call D T _ args
      (fun A _ s0 w0 => get_service_trace_ext D n A [] s0 w0) s s3 w w3 v hmake⟩

theorem service_eq_ok_val (D : Decls) (fuel : Nat) (T : type_id_t) (args : List Arg)
    (s s1 : Container) (w w1 : World) (r : Arg)
    (h : service fuel D T args s w = Outcome.ok r s1 w1) :
    ∃ a, get_service fuel D T args s w = Outcome.ok a s1 w1 ∧ r = forward w1.heap a := by
  unfold service at h
  obtain ⟨a, s2, w2, hg, hk⟩ := Outcome.bind_eq_ok.mp h
  injection hk with hr hs hw
  subst hs hw
  exact ⟨a, hg, hr.symm⟩

theorem service_sat_of_get_service (D : Decls) (fuel : Nat) (T : type_id_t) (args : List Arg)
    (s : Container) (w : World) (R : Container → World → Prop)
    (h : (get_service fuel D T args s w).Sat R) : (service fuel D T args s w).Sat R := by
  unfold service
  apply Outcome.sat_bind
  · intro e s1 w1 he
    exact Outcome.sat_of_throw h he
  · intro a s1 w1 ha s2 w2 hf
    simp only [Outcome.final, Option.some.injEq, Prod.mk.injEq] at hf
    obtain ⟨h1, h2⟩ := hf
    subst h1 h2
    exact Outcome.sat_of_ok h ha

/-- In the small program, making the transient service `4` needs the services
`4`, `1` and `0` only. -/
theorem demo_four_needs (U : type_id_t) (h : Needs demo 4 U) : U = 4 ∨ U = 1 ∨ U = 0 := by
  cases h with
  | refl => exact Or.inl rfl
  | step _ V _ _ hV hU =>
    have hV2 : V = 1 ∨ V = 0 := by
      simpa [deps, demo, chain_of, no_service] using hV
    rcases hV2 with rfl | rfl
    · cases hU with
      | refl => exact Or.inr (Or.inl rfl)
      | step _ W _ hns hW _ =>
        simp [deps, demo, chain_of, no_service] at hW
    · cases hU with
      | refl => exact Or.inr (Or.inr rfl)
      | step _ W _ hns hW _ =>
        simp [deps, demo, chain_of, no_service] at hW

theorem demo_four_resolved : SingletonsResolved demo demo_container1 4 := by
  intro U hU hs
  rcases demo_four_needs U hU with rfl | rfl | rfl
  · exact absurd hs.2.2 (by decide)
  · exact ⟨1, by decide, by decide⟩
  · exact absurd hs.2.2 (by decide)

/-- C12 (transient independence).  Let `T` be a transient service (not `Single`,
not a container service) and `s` a container in which every singleton that
making a `T` needs is registered.  Every `service<T>(args...)` on `s`, whether
it returns or throws, leaves the container (Registry and Instance Store) and
the heap as they are.  When it returns, the result is a service by value and
the trace has gained a call of the factory of `T`.  Two consecutive requests
that return have each called the factory, the container is still `s`, and a
write through one result is not seen through the other.  When the dependency
relation is well-founded on the types `T` reaches, some amount of fuel brings
every such request to an end, with an outcome that more fuel does not change. -/
theorem transient_independence (D : Decls) (T : type_id_t) (s : Container)
    (hC : (D T).is_container_service = false)
    (hB : (D T).is_base_of_container_service = false)
    (hS : (D T).is_single = false)
    (hres : SingletonsResolved D s T) :
    (∀ fuel args w, (service fuel D T args s w).Sat
      (fun s1 w1 => s1 = s ∧ w1.heap = w.heap ∧ w1.next = w.next)) ∧
    (∀ fuel args w r s1 w1, service fuel D T args s w = Outcome.ok r s1 w1 →
      s1 = s ∧ (∃ v, r = Arg.val v) ∧
      ∃ e1 cargs e2, (∃ v0, (D T).construct cargs = Except.ok v0) ∧
        w1.trace = w.trace ++ e1 ++ Event.call (FnId.construct T) cargs :: e2) ∧
    (∀ fuel fuel2 args args2 w r1 s1 w1 r2 s2 w2,
      service fuel D T args s w = Outcome.ok r1 s1 w1 →
      service fuel2 D T args2 s1 w1 = Outcome.ok r2 s2 w2 →
      s2 = s ∧ w2.heap = w.heap ∧ (∃ v1 v2, r1 = Arg.val v1 ∧ r2 = Arg.val v2) ∧
      (∃ e1 c1 e2 c2 e3,
        w2.trace = w.trace ++ e1 ++ Event.call (FnId.construct T) c1 :: e2
          ++ Event.call (FnId.construct T) c2 :: e3) ∧
      ∀ x, read (write w2.heap r1 x) r2 = read w2.heap r2 ∧
        read (write w2.heap r2 x) r1 = read w2.heap r1) ∧
    (WellFounded (depends_on D T) → ∃ n, ∀ extra args w,
      service (n + extra) D T args s w ≠ Outcome.out_of_fuel ∧
      service (n + extra) D T args s w = service n D T args s w) := by
  have hframe : ∀ fuel args w, (service fuel D T args s w).Sat
      (fun s1 w1 => s1 = s ∧ w1.heap = w.heap ∧ w1.next = w.next) :=
    fun fuel args w => service_sat_of_get_service D fuel T args s w _
      (get_service_resolved_frame D fuel T args s w hres)
  have hok : ∀ fuel args w r s1 w1, service fuel D T args s w = Outcome.ok r s1 w1 →
      s1 = s ∧ (∃ v, r = Arg.val v) ∧
      ∃ e1 cargs e2, (∃ v0, (D T).construct cargs = Except.ok v0) ∧
        w1.trace = w.trace ++ e1 ++ Event.call (FnId.construct T) cargs :: e2 := by
    intro fuel args w r s1 w1 h
    obtain ⟨a, hg, hr⟩ := service_eq_ok_val D fuel T args s s1 w w1 r h
    obtain ⟨⟨v, hv⟩, htr⟩ := get_service_transient_ok D fuel T args s s1 w w1 a hC hB hS hg
    refine ⟨(Outcome.sat_of_ok (hframe fuel args w) h).1, ⟨v, ?_⟩, htr⟩
    rw [hr, hv]
    rfl
  refine ⟨hframe, hok, ?_, ?_⟩
  · intro fuel fuel2 args args2 w r1 s1 w1 r2 s2 w2 h1 h2
    obtain ⟨hs1, ⟨v1, hv1⟩, e1, c1, e2, _, ht1⟩ := hok fuel args w r1 s1 w1 h1
    subst hs1
    obtain ⟨hs2, ⟨v2, hv2⟩, e3, c2, e4, _, ht2⟩ := hok fuel2 args2 w1 r2 s2 w2 h2
    have hh1 := (Outcome.sat_of_ok (hframe fuel args w) h1).2.1
    have hh2 := (Outcome.sat_of_ok (hframe fuel2 args2 w1) h2).2.1
    refine ⟨hs2, hh2.trans hh1, ⟨v1, v2, hv1, hv2⟩, ⟨e1, c1, e2 ++ e3, c2, e4, ?_⟩, ?_⟩
    · rw [ht2, ht1]
      simp
    · intro x
      subst hv1 hv2
      exact ⟨rfl, rfl⟩
  · intro hwf
    obtain ⟨n, hn⟩ := get_service_total D T hwf T (Reaches.refl T)
    refine ⟨n, ?_⟩
    intro extra args w
    refine ⟨?_, service_stable_add D n extra T args s w (hn args s w)⟩
    rw [service_stable_add D n extra T args s w (hn args s w)]
    exact service_ne_out_of_fuel D n T args s w (hn args s w)

theorem transient_independence_witness :
    service 2 demo 4 [Arg.val 5] demo_container1 demo_world1
      = Outcome.ok (Arg.val 2) demo_container1
          { demo_world1 with
            trace := demo_world1.trace
              ++ [Event.call (FnId.construct 4) [Arg.ref 1, Arg.val 5]] } ∧
    (demo_container1 = demo_container1 ∧ (∃ v, Arg.val 2 = Arg.val v) ∧
      ∃ e1 cargs e2, (∃ v0, (demo 4).construct cargs = Except.ok v0) ∧
        demo_world1.trace ++ [Event.call (FnId.construct 4) [Arg.ref 1, Arg.val 5]]
          = demo_world1.trace ++ e1 ++ Event.call (FnId.construct 4) cargs :: e2) :=
  ⟨by decide,
   (transient_independence demo 4 demo_container1 (by decide) (by decide) (by decide)
     demo_four_resolved).2.1 2 [Arg.val 5] demo_world1 (Arg.val 2) demo_container1
     { demo_world1 with
       trace := demo_world1.trace ++ [Event.call (FnId.construct 4) [Arg.ref 1, Arg.val 5]] }
     (by decide)⟩

/-! ## A singleton made anew -/

/-- A `get_service<T>` of a singleton that misses the Registry and returns has
called the factory of `T` and then stored a newly allocated `T`, which it
returns and which the Registry now holds. -/
theorem get_service_miss_ok_fresh (D : Decls) (T : type_id_t) (fuel : Nat)
    (s s1 : Container) (w w1 : World) (a : Arg)
    (hC : (D T).is_container_service = false)
    (hB : (D T).is_base_of_container_service = false)
    (hS : (D T).is_single = true)
    (hmiss : (map_index s._services T).1 = 0)
    (h : get_service fuel D T [] s w = Outcome.ok a s1 w1) :
    ∃ p v e1 cargs e2, a = Arg.ref p ∧ w.next < p ∧
      heap_find w1.heap p = some (Obj.service T v) ∧
      map_find s1._services T = some p ∧
      (∃ old, s1._instances = old ++ [instance_ptr.mk p T]) ∧
      w1.trace = w.trace ++ e1 ++ Event.call (FnId.construct T) cargs :: e2
        ++ save_events D T p v := by
  cases fuel with
  | zero => simp [get_service] at h
  | succ n =>
    simp only [get_service, hC, hB, hS, if_true, Bool.false_eq_true, if_false] at h
    rw [if_neg (by simp [hmiss])] at h
    obtain ⟨p, s3, w3, hsave, hk⟩ := Outcome.bind_eq_ok.mp h
    injection hk with ha hs hw
    subst ha hs hw
    unfold save_new_instance at hsave
    rw [if_pos hS] at hsave
    by_cases hA : (D T).is_abstract = true
    · exact absurd hsave (by rw [if_pos hA]; simp)
    · rw [if_neg hA] at hsave
      obtain ⟨v, s2, w2, hmake, hk2⟩ := Outcome.bind_eq_ok.mp hsave
      injection hk2 with hp hs hw
      subst hp hs hw
      obtain ⟨e1, cargs, e2, _, htr⟩ := make_service_instance_ok_call D T _ []
        (fun A _ s0 w0 => get_service_trace_ext D n A [] s0 w0) _ s2 w w2 v hmake
      have hnext : w.next ≤ w2.next := Outcome.sat_of_ok
        (make_service_instance_sat (fun _ w0 _ w1 => w0.next ≤ w1.next)
          (fun _ _ => le_refl _) (fun _ _ _ _ _ _ h1 h2 => le_trans h1 h2)
          (fun A => get_service n D A []) D T []
          (fun A _ s0 w0 => get_service_footprint D _ (next_footprint D) n A [] s0 w0)
          (fun _ _ _ _ _ => le_refl _) _ w) hmake
      refine ⟨w2.next + 1, v, e1, cargs, e2, ?_, ?_, ?_, ?_, ?_, ?_⟩
      · rw [save_instance_fst]
      · exact Nat.lt_succ_of_le hnext
      · exact save_instance_heap_self D T v s2 w2
      · exact save_instance_find_self D T v s2 w2
      · rw [save_instance_instances]
        exact ⟨_, (List.append_assoc _ _ _).symm⟩
      · rw [save_instance_trace, htr]

/-- C17 (clear resets the container).  After `clear()` the Instance Store and
the Registry of the container are empty, whatever they held.  For a
non-abstract singleton `T`, a following `service<T>()` that returns has
called the factory of `T` after the clear and returns a `T` allocated after
the clear, which is the last entry of the Instance Store and the Registry
entry of `T`.  When the dependency relation is well-founded on the types `T`
reaches, some amount of fuel brings the call to an end, with an outcome that
more fuel does not change; and when `T` has no factory parameter, no autocall
method and a factory that does not throw, the call returns the `T` allocated
next, for every positive fuel. -/
theorem clear_resets (D : Decls) (T : type_id_t) (order : DestructionOrder) (self : Container)
    (w : World)
    (hC : (D T).is_container_service = false)
    (hB : (D T).is_base_of_container_service = false)
    (hS : (D T).is_single = true)
    (hA : (D T).is_abstract = false) :
    (clear order self w).1._instances = [] ∧
    (clear order self w).1._services = [] ∧
    (∀ fuel r s1 w1,
      service fuel D T [] (clear order self w).1 (clear order self w).2 = Outcome.ok r s1 w1 →
      ∃ p v e1 cargs e2, r = Arg.ref p ∧ (clear order self w).2.next < p ∧
        heap_find w1.heap p = some (Obj.service T v) ∧
        map_find s1._services T = some p ∧
        (∃ old, s1._instances = old ++ [instance_ptr.mk p T]) ∧
        w1.trace = (clear order self w).2.trace ++ e1
          ++ Event.call (FnId.construct T) cargs :: e2 ++ save_events D T p v) ∧
    (WellFounded (depends_on D T) → ∃ n, ∀ extra,
      service (n + extra) D T [] (clear order self w).1 (clear order self w).2
        ≠ Outcome.out_of_fuel ∧
      service (n + extra) D T [] (clear order self w).1 (clear order self w).2
        = service n D T [] (clear order self w).1 (clear order self w).2) ∧
    ((D T).construct_params = [] → chain_of D T = [] →
      ∀ v, (D T).construct [] = Except.ok v → ∀ fuel,
      service (fuel + 1) D T [] (clear order self w).1 (clear order self w).2
        = Outcome.ok (Arg.ref ((clear order self w).2.next + 1))
            (save_instance D T v
              { self with _instances := [], _services := [(T, 0)] }
              { (clear order self w).2 with
                trace := (clear order self w).2.trace ++ [Event.call (FnId.construct T) []] }).2.1
            (save_instance D T v
              { self with _instances := [], _services := [(T, 0)] }
              { (clear order self w).2 with
                trace := (clear order self w).2.trace ++ [Event.call (FnId.construct T) []] }).2.2) := by
  refine ⟨rfl, rfl, ?_, ?_, ?_⟩
  · intro fuel r s1 w1 h
    obtain ⟨a, hg, hr⟩ := service_eq_ok_val D fuel T [] _ s1 _ w1 r h
    obtain ⟨p, v, e1, cargs, e2, ha, hp, hheap, hfind, hinst, htr⟩ :=
      get_service_miss_ok_fresh D T fuel _ s1 _ w1 a hC hB hS (by simp [clear, map_index, map_find])
        hg
    refine ⟨p, v, e1, cargs, e2, ?_, hp, hheap, hfind, hinst, htr⟩
    rw [hr, ha]
    exact forward_service w1.heap p T v hheap
  · intro hwf
    obtain ⟨n, hn⟩ := get_service_total D T hwf T (Reaches.refl T)
    refine ⟨n, ?_⟩
    intro extra
    refine ⟨?_, service_stable_add D n extra T [] _ _ (hn [] _ _)⟩
    rw [service_stable_add D n extra T [] _ _ (hn [] _ _)]
    exact service_ne_out_of_fuel D n T [] _ _ (hn [] _ _)
  · intro hparams hchain v hv fuel
    have hinv : invoke_service (fun A => get_service fuel D A []) D T v
        { self with _instances := [], _services := [(T, 0)] }
        { (clear order self w).2 with
          trace := (clear order self w).2.trace ++ [Event.call (FnId.construct T) []] }
        = Outcome.ok v { self with _instances := [], _services := [(T, 0)] }
          { (clear order self w).2 with
            trace := (clear order self w).2.trace ++ [Event.call (FnId.construct T) []] } := by
      unfold invoke_service
      unfold chain_of at hchain
      cases hi : (D T).invoke with
      | none => rfl
      | some chain =>
        rw [hi] at hchain
        simp only at hchain
        subst hchain
        rfl
    have hg : get_service (fuel + 1) D T [] (clear order self w).1 (clear order self w).2
        = Outcome.ok (Arg.ref ((clear order self w).2.next + 1))
            (save_instance D T v
              { self with _instances := [], _services := [(T, 0)] }
              { (clear order self w).2 with
                trace := (clear order self w).2.trace ++ [Event.call (FnId.construct T) []] }).2.1
            (save_instance D T v
              { self with _instances := [], _services := [(T, 0)] }
              { (clear order self w).2 with
                trace := (clear order self w).2.trace ++ [Event.call (FnId.construct T) []] }).2.2 := by
      simp only [get_service, hC, hB, hS, hA, if_true, Bool.false_eq_true, if_false, clear,
        map_index, map_find, ne_eq, not_true_eq_false, save_new_instance, make_service_instance,
        invoke_raw, invoke_seq, hparams, List.length_nil, le_refl, List.take_nil, resolve_nil,
        Outcome.bind, call, hv, List.append_nil, List.nil_append]
      have hinv2 := hinv
      simp only [clear] at hinv2
      rw [hinv2]
      simp only [save_instance_fst]
    have hh : heap_find
        (save_instance D T v
          { self with _instances := [], _services := [(T, 0)] }
          { (clear order self w).2 with
            trace := (clear order self w).2.trace ++ [Event.call (FnId.construct T) []] }).2.2.heap
        ((clear order self w).2.next + 1) = some (Obj.service T v) :=
      save_instance_heap_self D T v
        { self with _instances := [], _services := [(T, 0)] }
        { (clear order self w).2 with
          trace := (clear order self w).2.trace ++ [Event.call (FnId.construct T) []] }
    unfold service
    rw [hg]
    simp only [Outcome.bind]
    rw [forward_service _ _ T v hh]

theorem clear_resets_witness :
    clear front_to_back demo_container2 demo_world3 = (empty_container, demo_world6) ∧
    service 3 demo 2 [] empty_container demo_world6
      = Outcome.ok (Arg.ref 5) demo_container7 demo_world7 ∧
    ∃ p v e1 cargs e2, Arg.ref 5 = Arg.ref p ∧
      (clear front_to_back demo_container2 demo_world3).2.next < p ∧
      heap_find demo_world7.heap p = some (Obj.service 2 v) ∧
      map_find demo_container7._services 2 = some p ∧
      (∃ old, demo_container7._instances = old ++ [instance_ptr.mk p 2]) ∧
      demo_world7.trace = (clear front_to_back demo_container2 demo_world3).2.trace ++ e1
        ++ Event.call (FnId.construct 2) cargs :: e2 ++ save_events demo 2 p v :=
  ⟨by decide, by decide,
   (clear_resets demo 2 front_to_back demo_container2 demo_world3 (by decide) (by decide)
     (by decide) (by decide)).2.2.1 3 (Arg.ref 5) demo_container7 demo_world7 (by decide)⟩

/-! ## Registry entries and the objects they refer to -/

theorem save_instance_helper_grows (T : type_id_t) (parents : List type_id_t)
    (service : instance_ptr) (self : Container) (w : World) :
    StoreGrows self (save_instance_helper T parents service self w).2.1 := by
  induction parents generalizing self w with
  | nil =>
    refine ⟨⟨[service], rfl⟩, ?_⟩
    intro k p hf _
    simp only [save_instance_helper] at hf ⊢
    by_cases hk : T = k
    · subst hk
      rw [map_find_assign_self] at hf
      injection hf with hf
      exact Or.inr ⟨service, by simp, hf⟩
    · rw [map_find_assign_ne _ _ _ _ hk] at hf
      exact Or.inl ⟨k, hf⟩
  | cons O Others ih =>
    simp only [save_instance_helper]
    obtain ⟨⟨new, hnew⟩, hreg⟩ := ih
      { self with
        _services := map_assign self._services O
          (makeInstancePtr O (Obj.ServiceOverride T O service.get) w).1.get,
        _instances := self._instances
          ++ [(makeInstancePtr O (Obj.ServiceOverride T O service.get) w).1] }
      (makeInstancePtr O (Obj.ServiceOverride T O service.get) w).2
    refine ⟨⟨(makeInstancePtr O (Obj.ServiceOverride T O service.get) w).1 :: new,
      by rw [hnew]; simp⟩, ?_⟩
    intro k p hf hp
    rcases hreg k p hf hp with ⟨k0, h0⟩ | h1
    · by_cases hk : O = k0
      · subst hk
        simp only [map_find_assign_self] at h0
        injection h0 with h0
        refine Or.inr ⟨(makeInstancePtr O (Obj.ServiceOverride T O service.get) w).1, ?_, h0⟩
        rw [hnew]
        simp
      · simp only [map_find_assign_ne _ _ _ _ hk] at h0
        exact Or.inl ⟨k0, h0⟩
    · exact Or.inr h1

theorem save_instance_grows (D : Decls) (T : type_id_t) (v : Val) (s : Container) (w : World) :
    StoreGrows s (save_instance D T v s w).2.1 := by
  unfold save_instance
  cases (D T).ParentTypes with
  | none => exact save_instance_helper_grows T [] _ s _
  | some parents => exact save_instance_helper_grows T parents _ s _

theorem store_grows_refl (s : Container) : StoreGrows s s :=
  ⟨⟨[], by simp⟩, fun k p hf _ => Or.inl ⟨k, hf⟩⟩

theorem store_grows_trans (s s1 s2 : Container) (h1 : StoreGrows s s1) (h2 : StoreGrows s1 s2) :
    StoreGrows s s2 := by
  obtain ⟨⟨n1, hn1⟩, r1⟩ := h1
  obtain ⟨⟨n2, hn2⟩, r2⟩ := h2
  refine ⟨⟨n1 ++ n2, by rw [hn2, hn1, List.append_assoc]⟩, ?_⟩
  intro k p hf hp
  rcases r2 k p hf hp with ⟨k0, h0⟩ | h
  · rcases r1 k0 p h0 hp with h | ⟨e, he, hg⟩
    · exact Or.inl h
    · exact Or.inr ⟨e, by rw [hn2]; exact List.mem_append_left _ he, hg⟩
  · exact Or.inr h

/-- The Instance Store only grows, and the Registry gains only pointers to
stored instances. -/
theorem grows_footprint (D : Decls) :
    Footprint D (fun _ s _ s1 _ => StoreGrows s s1) where
  refl := fun _ s _ => store_grows_refl s
  trans := fun _ s _ s1 _ s2 _ h1 h2 => store_grows_trans s s1 s2 h1 h2
  dep := fun _ _ _ _ _ _ _ h => h
  lookup := by
    intro T s w
    refine ⟨⟨[], by simp⟩, ?_⟩
    intro k p hf hp
    simp only [map_find_index] at hf
    cases hm : map_find s._services k with
    | some q =>
      rw [hm] at hf
      simp only [Option.or_some, Option.some.injEq] at hf
      subst hf
      exact Or.inl ⟨k, hm⟩
    | none =>
      rw [hm] at hf
      simp only [Option.none_or] at hf
      split at hf
      · injection hf with hf
        exact absurd hf.symm hp
      · cases hf
  call := fun _ _ _ s _ _ => store_grows_refl s
  save := fun T v s w => save_instance_grows D T v s w

theorem service_grows (D : Decls) (fuel : Nat) (T : type_id_t) (args : List Arg)
    (s : Container) (w : World) :
    (service fuel D T args s w).Sat (fun s1 _ => StoreGrows s s1) :=
  service_sat_of_get_service D fuel T args s w _
    (get_service_footprint D _ (grows_footprint D) fuel T args s w)

theorem instance_value_grows (D : Decls) (T : type_id_t) (v : Val) (s : Container) (w : World) :
    (instance_value D T v s w).Sat (fun s1 _ => StoreGrows s s1) := by
  unfold instance_value
  split
  · intro s1 w1 h
    simp only [Outcome.final, Option.some.injEq, Prod.mk.injEq] at h
    obtain ⟨h1, _⟩ := h
    subst h1
    exact save_instance_grows D T v s w
  · intro s1 w1 h
    simp [Outcome.final] at h

theorem instance_new_grows (D : Decls) (fuel : Nat) (T : type_id_t) (args : List Arg)
    (s : Container) (w : World) :
    (instance_new fuel D T args s w).Sat (fun s1 _ => StoreGrows s s1) := by
  unfold instance_new
  split
  · apply Outcome.sat_bind_trans (fun s _ s1 _ => StoreGrows s s1)
      (fun s _ s1 _ s2 _ h1 h2 => store_grows_trans s s1 s2 h1 h2) _ _ s w
      (save_new_instance_sat (fun s _ s1 _ => StoreGrows s s1)
        (fun s _ => store_grows_refl s)
        (fun s _ s1 _ s2 _ h1 h2 => store_grows_trans s s1 s2 h1 h2)
        _ D T args
        (fun A _ s0 w0 => get_service_footprint D _ (grows_footprint D) fuel A [] s0 w0)
        (fun _ _ s0 _ _ => store_grows_refl s0)
        (fun v s0 w0 => save_instance_grows D T v s0 w0) s w)
    intro p s1 w1 s2 w2 h
    simp only [Outcome.final, Option.some.injEq, Prod.mk.injEq] at h
    obtain ⟨h1, _⟩ := h
    subst h1
    exact store_grows_refl _
  · intro s1 w1 h
    simp [Outcome.final] at h

theorem Process.registry_valid_step (s t : Process) (hv : s.RegistryValid)
    (hown : ∀ p, s.Owned p → t.Owned p)
    (hreg : ∀ (j : Nat) (c : Container) (k : type_id_t) (p : Ptr),
      t.containers[j]? = some c → map_find c._services k = some p → p ≠ 0 →
      t.Owned p ∨ ∃ (j0 : Nat) (c0 : Container) (k0 : type_id_t),
        s.containers[j0]? = some c0 ∧ map_find c0._services k0 = some p) :
    t.RegistryValid := by
  intro j c k p hj hf hp
  rcases hreg j c k p hj hf hp with h | ⟨j0, c0, k0, h0, hf0⟩
  · exact h
  · exact hown p (hv j0 c0 k0 p h0 hf0 hp)

theorem getElem?_set_same {α : Type} (l : List α) (i : Nat) (a : α) (h : i < l.length) :
    (l.set i a)[i]? = some a := by
  simp [List.getElem?_set, h]

theorem Process.commit_valid {α : Type} (s : Process) (i : Nat) (c : Container) (o : Outcome α)
    (hi : s.containers[i]? = some c) (hv : s.RegistryValid)
    (hg : o.Sat (fun c1 _ => StoreGrows c c1)) : (s.commit i o).RegistryValid := by
  have hlt : i < s.containers.length := (List.getElem?_eq_some_iff.mp hi).1
  have key : ∀ c1 w1, StoreGrows c c1 →
      Process.RegistryValid { containers := s.containers.set i c1, world := w1 } := by
    intro c1 w1 hgrow
    obtain ⟨⟨new, hnew⟩, hreg⟩ := hgrow
    apply Process.registry_valid_step s _ hv
    · rintro p ⟨j, d, e, hj, he, hp⟩
      by_cases hji : i = j
      · subst hji
        rw [hi] at hj
        injection hj with hj
        subst hj
        exact ⟨i, c1, e, getElem?_set_same _ _ _ hlt,
          by rw [hnew]; exact List.mem_append_left _ he, hp⟩
      · exact ⟨j, d, e, by simp only [List.getElem?_set_ne hji]; exact hj, he, hp⟩
    · intro j d k p hj hf hp
      by_cases hji : i = j
      · subst hji
        simp only [getElem?_set_same _ _ _ hlt] at hj
        injection hj with hj
        subst hj
        rcases hreg k p hf hp with ⟨k0, h0⟩ | ⟨e, he, hge⟩
        · exact Or.inr ⟨i, c, k0, hi, h0⟩
        · exact Or.inl ⟨i, c1, e, getElem?_set_same _ _ _ hlt, he, hge⟩
      · simp only [List.getElem?_set_ne hji] at hj
        exact Or.inr ⟨j, d, k, hj, hf⟩
  cases o with
  | ok a c1 w1 => exact key c1 w1 (hg c1 w1 rfl)
  | throw e c1 w1 => exact key c1 w1 (hg c1 w1 rfl)
  | undefined => exact hv
  | ill_formed => exact hv
  | out_of_fuel => exact hv

theorem Process.service_valid (fuel : Nat) (D : Decls) (s : Process) (i : Nat) (T : type_id_t)
    (args : List Arg) (hv : s.RegistryValid) : (s.service fuel D i T args).RegistryValid := by
  unfold Process.service
  cases hc : s.containers[i]? with
  | none => exact hv
  | some c => exact Process.commit_valid s i c _ hc hv (service_grows D fuel T args c s.world)

theorem Process.instance_value_valid (D : Decls) (s : Process) (i : Nat) (T : type_id_t)
    (v : Val) (hv : s.RegistryValid) : (s.instance_value D i T v).RegistryValid := by
  unfold Process.instance_value
  cases hc : s.containers[i]? with
  | none => exact hv
  | some c => exact Process.commit_valid s i c _ hc hv (instance_value_grows D T v c s.world)

theorem Process.instance_new_valid (fuel : Nat) (D : Decls) (s : Process) (i : Nat)
    (T : type_id_t) (args : List Arg) (hv : s.RegistryValid) :
    (s.instance_new fuel D i T args).RegistryValid := by
  unfold Process.instance_new
  cases hc : s.containers[i]? with
  | none => exact hv
  | some c => exact Process.commit_valid s i c _ hc hv (instance_new_grows D fuel T args c s.world)

theorem Process.fork_valid (s : Process) (i : Nat) (hv : s.RegistryValid) :
    (s.fork i).RegistryValid := by
  unfold Process.fork
  cases hc : s.containers[i]? with
  | none => exact hv
  | some c =>
    apply Process.registry_valid_step s _ hv
    · rintro p ⟨j, d, e, hj, he, hp⟩
      have hlt : j < s.containers.length := (List.getElem?_eq_some_iff.mp hj).1
      exact ⟨j, d, e, by simp only [List.getElem?_append_left hlt]; exact hj, he, hp⟩
    · intro j d k p hj hf hp
      simp only at hj
      by_cases hlt : j < s.containers.length
      · rw [List.getElem?_append_left hlt] at hj
        exact Or.inr ⟨j, d, k, hj, hf⟩
      · rw [List.getElem?_append_right (not_lt.mp hlt)] at hj
        have hd : d = kgr.fork c := by
          cases hk : j - s.containers.length with
          | zero =>
            rw [hk] at hj
            simpa using hj.symm
          | succ n =>
            rw [hk] at hj
            simp at hj
        subst hd
        exact Or.inr ⟨i, c, k, hc, hf⟩

theorem Process.merge_valid (s : Process) (i j : Nat) (hv : s.RegistryValid) :
    (s.merge i j).RegistryValid := by
  unfold Process.merge
  cases hc : s.containers[i]? with
  | none => exact hv
  | some c =>
    cases hd : s.containers[j]? with
    | none => exact hv
    | some d =>
      simp only
      by_cases hij : i = j
      · rw [if_pos hij]
        exact hv
      · rw [if_neg hij]
        have hi : i < s.containers.length := (List.getElem?_eq_some_iff.mp hc).1
        have hj : j < s.containers.length := (List.getElem?_eq_some_iff.mp hd).1
        have hgi : ((s.containers.set i (kgr.merge c d).1).set j (kgr.merge c d).2)[i]?
            = some (kgr.merge c d).1 := by
          rw [List.getElem?_set_ne (Ne.symm hij)]
          exact getElem?_set_same _ _ _ hi
        have hgj : ((s.containers.set i (kgr.merge c d).1).set j (kgr.merge c d).2)[j]?
            = some (kgr.merge c d).2 :=
          getElem?_set_same _ _ _ (by rw [List.length_set]; exact hj)
        have hgx : ∀ x, i ≠ x → j ≠ x →
            ((s.containers.set i (kgr.merge c d).1).set j (kgr.merge c d).2)[x]?
              = s.containers[x]? := by
          intro x hxi hxj
          rw [List.getElem?_set_ne hxj, List.getElem?_set_ne hxi]
        apply Process.registry_valid_step s _ hv
        · rintro p ⟨x, c0, e, hx, he, hp⟩
          by_cases hxi : i = x
          · subst hxi
            rw [hc] at hx
            injection hx with hx
            subst hx
            exact ⟨i, _, e, hgi, by simp [kgr.merge, he], hp⟩
          · by_cases hxj : j = x
            · subst hxj
              rw [hd] at hx
              injection hx with hx
              subst hx
              exact ⟨i, _, e, hgi, by simp [kgr.merge, he], hp⟩
            · exact ⟨x, c0, e, by simp only [hgx x hxi hxj]; exact hx, he, hp⟩
        · intro x c0 k p hx hf hp
          simp only at hx
          by_cases hxi : i = x
          · subst hxi
            rw [hgi] at hx
            injection hx with hx
            subst hx
            simp only [kgr.merge, map_find_insert_range] at hf
            cases hm : map_find c._services k with
            | some q =>
              rw [hm] at hf
              simp only [Option.or_some, Option.some.injEq] at hf
              subst hf
              exact Or.inr ⟨i, c, k, hc, hm⟩
            | none =>
              rw [hm] at hf
              simp only [Option.none_or] at hf
              exact Or.inr ⟨j, d, k, hd, hf⟩
          · by_cases hxj : j = x
            · subst hxj
              rw [hgj] at hx
              injection hx with hx
              subst hx
              exact Or.inr ⟨j, d, k, hd, hf⟩
            · rw [hgx x hxi hxj] at hx
              exact Or.inr ⟨x, c0, k, hx, hf⟩

theorem Process.clear_valid (order : DestructionOrder) (s : Process) (i : Nat)
    (hv : s.RegistryValid) (hu : s.Unshared i) : (s.clear order i).RegistryValid := by
  unfold Process.clear
  cases hc : s.containers[i]? with
  | none => exact hv
  | some d =>
    have hlt : i < s.containers.length := (List.getElem?_eq_some_iff.mp hc).1
    intro j c k p hj hf hp
    simp only at hj
    by_cases hji : i = j
    · subst hji
      rw [getElem?_set_same _ _ _ hlt] at hj
      injection hj with hj
      subst hj
      simp [kgr.clear, map_find] at hf
    · rw [List.getElem?_set_ne hji] at hj
      obtain ⟨x, c0, e, hx, he, hg⟩ := hv j c k p hj hf hp
      by_cases hxi : i = x
      · subst hxi
        rw [hc] at hx
        injection hx with hx
        subst hx
        exact absurd hg (hu j c d k p (Ne.symm hji) hj hc hf hp e he)
      · exact ⟨x, c0, e, by simp only [List.getElem?_set_ne hxi]; exact hx, he, hg⟩

/-! ## Steps that return and steps that throw -/

theorem Outcome.sat2_bind {α β : Type} (Qok Qthrow : Container → World → Container → World → Prop)
    (hQ : TwoLevel Qok Qthrow)
    (o : Outcome α) (k : α → Container → World → Outcome β) (s : Container) (w : World)
    (ho : o.Sat2 (Qok s w) (Qthrow s w))
    (hk : ∀ a s1 w1, (k a s1 w1).Sat2 (Qok s1 w1) (Qthrow s1 w1)) :
    (o.bind k).Sat2 (Qok s w) (Qthrow s w) := by
  cases o with
  | ok a s1 w1 =>
    have h1 : Qok s w s1 w1 := ho
    have h2 := hk a s1 w1
    simp only [Outcome.bind]
    cases hr : k a s1 w1 with
    | ok b s2 w2 =>
      rw [hr] at h2
      exact hQ.trans _ _ _ _ _ _ h1 h2
    | throw e s2 w2 =>
      rw [hr] at h2
      exact hQ.trans_throw _ _ _ _ _ _ h1 h2
    | undefined => trivial
    | ill_formed => trivial
    | out_of_fuel => trivial
  | throw e s1 w1 => exact ho
  | undefined => trivial
  | ill_formed => trivial
  | out_of_fuel => trivial

theorem resolve_at_sat2 (Qok Qthrow : Container → World → Container → World → Prop)
    (hQ : TwoLevel Qok Qthrow) (gs : Resolver) (As : List type_id_t)
    (hgs : ∀ A, A ∈ As → ∀ s w, (gs A s w).Sat2 (Qok s w) (Qthrow s w)) (σ : List Nat)
    (s : Container) (w : World) :
    (resolve_at gs As σ s w).Sat2 (Qok s w) (Qthrow s w) := by
  induction σ generalizing s w with
  | nil => exact hQ.refl s w
  | cons i σ ih =>
    simp only [resolve_at]
    cases hA : As[i]? with
    | none => exact ih s w
    | some A =>
      apply Outcome.sat2_bind Qok Qthrow hQ _ _ s w (hgs A (List.getElem?_mem hA) s w)
      intro a s1 w1
      apply Outcome.sat2_bind Qok Qthrow hQ _ _ s1 w1 (ih s1 w1)
      intro rest s2 w2
      exact hQ.refl s2 w2

theorem resolve_sat2 (Qok Qthrow : Container → World → Container → World → Prop)
    (hQ : TwoLevel Qok Qthrow) {order : EvalOrder} (gs : Resolver) (As : List type_id_t)
    (hgs : ∀ A, A ∈ As → ∀ s w, (gs A s w).Sat2 (Qok s w) (Qthrow s w))
    (s : Container) (w : World) :
    (resolve order gs As s w).Sat2 (Qok s w) (Qthrow s w) := by
  unfold resolve
  apply Outcome.sat2_bind Qok Qthrow hQ _ _ s w (resolve_at_sat2 Qok Qthrow hQ gs As hgs _ s w)
  intro rs s1 w1
  exact hQ.refl s1 w1

theorem call_sat2 (Qok Qthrow : Container → World → Container → World → Prop)
    (function : Callable) (all : List Arg) (s : Container) (w : World)
    (hok : Qok s w s { w with trace := w.trace ++ [Event.call function.id all] })
    (hthrow : Qthrow s w s { w with trace := w.trace ++ [Event.call function.id all] }) :
    (call function all s w).Sat2 (Qok s w) (Qthrow s w) := by
  unfold call
  cases function.body all with
  | ok r => exact hok
  | error e => exact hthrow

theorem invoke_raw_sat2 (Qok Qthrow : Container → World → Container → World → Prop)
    (hQ : TwoLevel Qok Qthrow) (gs : Resolver) (function : Callable) (args : List Arg)
    (hgs : ∀ A, A ∈ function.params → ∀ s w, (gs A s w).Sat2 (Qok s w) (Qthrow s w))
    (hok : ∀ all s w, Qok s w s { w with trace := w.trace ++ [Event.call function.id all] })
    (hthrow : ∀ all s w,
      Qthrow s w s { w with trace := w.trace ++ [Event.call function.id all] })
    (s : Container) (w : World) :
    (invoke_raw gs function args s w).Sat2 (Qok s w) (Qthrow s w) := by
  unfold invoke_raw
  split
  · unfold invoke_seq
    apply Outcome.sat2_bind Qok Qthrow hQ _ _ s w
      (resolve_sat2 Qok Qthrow hQ gs _ (fun A hA => hgs A (List.mem_of_mem_take hA)) s w)
    intro rs s1 w1
    exact call_sat2 Qok Qthrow function _ s1 w1 (hok _ _ _) (hthrow _ _ _)
  · trivial

theorem invoke_service_sat2 (Qok Qthrow : Container → World → Container → World → Prop)
    (hQ : TwoLevel Qok Qthrow) (gs : Resolver) (D : Decls) (T : type_id_t)
    (hgs : ∀ A, A ∈ deps D T → ∀ s w, (gs A s w).Sat2 (Qok s w) (Qthrow s w))
    (hok : ∀ i all s w,
      Qok s w s { w with trace := w.trace ++ [Event.call (FnId.autocall T i) all] })
    (hthrow : ∀ i all s w,
      Qthrow s w s { w with trace := w.trace ++ [Event.call (FnId.autocall T i) all] })
    (service : Val) (s : Container) (w : World) :
    (invoke_service gs D T service s w).Sat2 (Qok s w) (Qthrow s w) := by
  unfold invoke_service
  cases hinv : (D T).invoke with
  | none => exact hQ.refl s w
  | some chain =>
    have hgs2 : ∀ m, m ∈ chain → ∀ A, A ∈ m.params → ∀ s w,
        (gs A s w).Sat2 (Qok s w) (Qthrow s w) := by
      intro m hm A hA
      apply hgs
      simp only [deps, chain_of, hinv, List.mem_append, List.mem_flatMap]
      exact Or.inr ⟨m, hm, hA⟩
    clear hinv
    generalize 0 = i
    induction chain generalizing i service s w with
    | nil => exact hQ.refl s w
    | cons m Next ih =>
      simp only [invoke_service_helper]
      apply Outcome.sat2_bind Qok Qthrow hQ
      · unfold do_invoke_service
        exact invoke_raw_sat2 Qok Qthrow hQ gs
          { id := FnId.autocall T i, params := m.params, body := m.run service, order := m.order } []
          (fun A hA => hgs2 m (by simp) A hA)
          (fun all s w => hok i all s w) (fun all s w => hthrow i all s w) s w
      · intro service1 s1 w1
        exact ih service1 s1 w1 (fun m2 hm2 => hgs2 m2 (by simp [hm2])) (i + 1)

theorem make_service_instance_sat2 (Qok Qthrow : Container → World → Container → World → Prop)
    (hQ : TwoLevel Qok Qthrow) (gs : Resolver) (D : Decls) (T : type_id_t) (args : List Arg)
    (hgs : ∀ A, A ∈ deps D T → ∀ s w, (gs A s w).Sat2 (Qok s w) (Qthrow s w))
    (hok : ∀ f all s w, (Event.call f all).owner = some T →
      Qok s w s { w with trace := w.trace ++ [Event.call f all] })
    (hthrow : ∀ f all s w, (Event.call f all).owner = some T →
      Qthrow s w s { w with trace := w.trace ++ [Event.call f all] })
    (s : Container) (w : World) :
    (make_service_instance gs D T args s w).Sat2 (Qok s w) (Qthrow s w) := by
  unfold make_service_instance
  apply Outcome.sat2_bind Qok Qthrow hQ
  · exact invoke_raw_sat2 Qok Qthrow hQ gs
      { id := FnId.construct T, params := (D T).construct_params,
        body := (D T).construct, order := (D T).construct_order } args
      (fun A hA => hgs A (by simp only [deps, List.mem_append]; exact Or.inl hA))
      (fun all s w => hok (FnId.construct T) all s w rfl)
      (fun all s w => hthrow (FnId.construct T) all s w rfl) s w
  · intro service s1 w1
    exact invoke_service_sat2 Qok Qthrow hQ gs D T hgs
      (fun i all s w => hok (FnId.autocall T i) all s w rfl)
      (fun i all s w => hthrow (FnId.autocall T i) all s w rfl) service s1 w1

theorem save_new_instance_sat2 (Qok Qthrow : Container → World → Container → World → Prop)
    (hQ : TwoLevel Qok Qthrow) (gs : Resolver) (D : Decls) (T : type_id_t) (args : List Arg)
    (hgs : ∀ A, A ∈ deps D T → ∀ s w, (gs A s w).Sat2 (Qok s w) (Qthrow s w))
    (hok : ∀ f all s w, (Event.call f all).owner = some T →
      Qok s w s { w with trace := w.trace ++ [Event.call f all] })
    (hthrow : ∀ f all s w, (Event.call f all).owner = some T →
      Qthrow s w s { w with trace := w.trace ++ [Event.call f all] })
    (hsave : ∀ v s w, Qok s w (save_instance D T v s w).2.1 (save_instance D T v s w).2.2)
    (s : Container) (w : World) :
    (save_new_instance gs D T args s w).Sat2 (Qok s w) (Qthrow s w) := by
  unfold save_new_instance
  by_cases hS : (D T).is_single = true
  · rw [if_pos hS]
    by_cases hA : (D T).is_abstract = true
    · rw [if_pos hA]
      exact hQ.refl_throw s w
    · rw [if_neg hA]
      apply Outcome.sat2_bind Qok Qthrow hQ _ _ s w
        (make_service_instance_sat2 Qok Qthrow hQ gs D T args hgs hok hthrow s w)
      intro service s1 w1
      exact hsave service s1 w1
  · rw [if_neg hS]
    trivial

/-! ## Each singleton is constructed at most once -/

theorem calls_of_events_of (U : type_id_t) (tr : List Event) :
    calls_of (FnId.construct U) (events_of U tr) = calls_of (FnId.construct U) tr := by
  induction tr with
  | nil => rfl
  | cons e tr ih =>
    cases e with
    | call f a =>
      cases f with
      | construct T =>
        by_cases hT : T = U
        · subst hT
          simp only [events_of, calls_of, Event.owner, decide_True, List.filter_cons_of_pos] at ih ⊢
          rw [ih]
        · have h1 : ¬ (some T = some U) := fun h => hT (Option.some.inj h)
          have h2 : ¬ (FnId.construct T = FnId.construct U) := fun h => hT (FnId.construct.inj h)
          simp only [events_of, calls_of, Event.owner, h1, h2, decide_False, Bool.false_eq_true,
            not_false_eq_true, List.filter_cons_of_neg] at ih ⊢
          exact ih
      | autocall T i =>
        by_cases hT : T = U
        · subst hT
          simp only [events_of, calls_of, Event.owner, decide_True, List.filter_cons_of_pos,
            reduceCtorEq, decide_False, Bool.false_eq_true, not_false_eq_true,
            List.filter_cons_of_neg] at ih ⊢
          exact ih
        · have h1 : ¬ (some T = some U) := fun h => hT (Option.some.inj h)
          simp only [events_of, calls_of, Event.owner, h1, decide_False, Bool.false_eq_true,
            not_false_eq_true, List.filter_cons_of_neg, reduceCtorEq] at ih ⊢
          exact ih
      | user m =>
        simp only [events_of, calls_of, Event.owner, reduceCtorEq, decide_False,
          Bool.false_eq_true, not_false_eq_true, List.filter_cons_of_neg] at ih ⊢
        exact ih
    | alloc p o =>
      cases o with
      | service T v =>
        by_cases hT : T = U
        · subst hT
          simp only [events_of, calls_of, Event.owner, decide_True, List.filter_cons_of_pos,
            Bool.false_eq_true, not_false_eq_true, List.filter_cons_of_neg] at ih ⊢
          exact ih
        · have h1 : ¬ (some T = some U) := fun h => hT (Option.some.inj h)
          simp only [events_of, calls_of, Event.owner, h1, decide_False, Bool.false_eq_true,
            not_false_eq_true, List.filter_cons_of_neg] at ih ⊢
          exact ih
      | ServiceOverride T O t =>
        by_cases hT : T = U
        · subst hT
          simp only [events_of, calls_of, Event.owner, decide_True, List.filter_cons_of_pos,
            Bool.false_eq_true, not_false_eq_true, List.filter_cons_of_neg] at ih ⊢
          exact ih
        · have h1 : ¬ (some T = some U) := fun h => hT (Option.some.inj h)
          simp only [events_of, calls_of, Event.owner, h1, decide_False, Bool.false_eq_true,
            not_false_eq_true, List.filter_cons_of_neg] at ih ⊢
          exact ih
    | destroy p C =>
      simp only [events_of, calls_of, Event.owner, reduceCtorEq, decide_False,
        Bool.false_eq_true, not_false_eq_true, List.filter_cons_of_neg] at ih ⊢
      exact ih

theorem constructions_of_events_of (U : type_id_t) (tr tr1 : List Event)
    (h : events_of U tr1 = events_of U tr) : constructions U tr1 = constructions U tr := by
  unfold constructions
  rw [← calls_of_events_of U tr1, ← calls_of_events_of U tr, h]

theorem constructions_append (U : type_id_t) (a b : List Event) :
    constructions U (a ++ b) = constructions U a + constructions U b := by
  simp [constructions, calls_of_append]

theorem constructions_call_self (U : type_id_t) (all : List Arg) :
    constructions U [Event.call (FnId.construct U) all] = 1 := by
  simp [constructions, calls_of]

theorem constructions_call_other (U : type_id_t) (f : FnId) (all : List Arg)
    (hf : f ≠ FnId.construct U) : constructions U [Event.call f all] = 0 := by
  simp [constructions, calls_of, hf]

theorem constructions_save_events (U : type_id_t) (D : Decls) (T : type_id_t) (p : Ptr)
    (v : Val) : constructions U (save_events D T p v) = 0 := by
  simp only [constructions, calls_of, save_events, List.length_eq_zero, List.filter_eq_nil_iff]
  intro e he
  simp only [List.mem_cons, List.mem_map] at he
  rcases he with rfl | ⟨x, _, rfl⟩ <;> simp

theorem constructions_save_instance (U : type_id_t) (D : Decls) (T : type_id_t) (v : Val)
    (s : Container) (w : World) :
    constructions U (save_instance D T v s w).2.2.trace = constructions U w.trace := by
  rw [save_instance_trace, constructions_append, constructions_save_events]
  rfl

theorem Outcome.Sat.mono {α : Type} {o : Outcome α} {R R2 : Container → World → Prop}
    (h : o.Sat R) (himp : ∀ s w, R s w → R2 s w) : o.Sat R2 :=
  fun s w hf => himp s w (h s w hf)

theorem Outcome.sat2_prepend {α : Type}
    (Qok Qthrow : Container → World → Container → World → Prop) (hQ : TwoLevel Qok Qthrow)
    (o : Outcome α) (s : Container) (w : World) (s1 : Container) (w1 : World)
    (h1 : Qok s w s1 w1) (ho : o.Sat2 (Qok s1 w1) (Qthrow s1 w1)) :
    o.Sat2 (Qok s w) (Qthrow s w) := by
  cases o with
  | ok a s2 w2 => exact hQ.trans _ _ _ _ _ _ h1 ho
  | throw e s2 w2 => exact hQ.trans_throw _ _ _ _ _ _ h1 ho
  | undefined => trivial
  | ill_formed => trivial
  | out_of_fuel => trivial

theorem Outcome.sat2_bind_ok {α β : Type} (o : Outcome α) (f : α → β)
    (Rok Rthrow : Container → World → Prop) (h : o.Sat2 Rok Rthrow) :
    (o.bind fun a s w => Outcome.ok (f a) s w).Sat2 Rok Rthrow := by
  cases o with
  | ok a s2 w2 => exact h
  | throw e s2 w2 => exact h
  | undefined => trivial
  | ill_formed => trivial
  | out_of_fuel => trivial

theorem Outcome.sat_of_sat2 {α : Type} (o : Outcome α) (Rok Rthrow R : Container → World → Prop)
    (h : o.Sat2 Rok Rthrow) (h1 : ∀ s w, Rok s w → R s w) (h2 : ∀ s w, Rthrow s w → R s w) :
    o.Sat R := by
  intro s w hf
  cases o with
  | ok a s2 w2 =>
    simp only [Outcome.final, Option.some.injEq, Prod.mk.injEq] at hf
    obtain ⟨e1, e2⟩ := hf
    subst e1 e2
    exact h1 _ _ h
  | throw e s2 w2 =>
    simp only [Outcome.final, Option.some.injEq, Prod.mk.injEq] at hf
    obtain ⟨e1, e2⟩ := hf
    subst e1 e2
    exact h2 _ _ h
  | undefined => simp [Outcome.final] at hf
  | ill_formed => simp [Outcome.final] at hf
  | out_of_fuel => simp [Outcome.final] at hf

theorem once_two_level (U : type_id_t) : TwoLevel (OnceOk U) (OnceThrow U) where
  refl := fun _ _ => ⟨id, Or.inl rfl⟩
  refl_throw := fun _ _ => ⟨fun _ => rfl, Nat.le_succ _⟩
  trans := by
    rintro s w s1 w1 s2 w2 ⟨m1, c1⟩ ⟨m2, c2⟩
    refine ⟨fun h => m2 (m1 h), ?_⟩
    rcases c1 with e1 | ⟨e1, hn, hr⟩
    · rcases c2 with e2 | ⟨e2, hn2, hr2⟩
      · exact Or.inl (e2.trans e1)
      · exact Or.inr ⟨by rw [e2, e1], fun h => hn2 (m1 h), hr2⟩
    · rcases c2 with e2 | ⟨_, hn2, _⟩
      · exact Or.inr ⟨e2.trans e1, hn, m2 hr⟩
      · exact absurd hr hn2
  trans_throw := by
    rintro s w s1 w1 s2 w2 ⟨m1, c1⟩ ⟨t1, t2⟩
    constructor
    · intro h
      rcases c1 with e1 | ⟨_, hn, _⟩
      · exact (t1 (m1 h)).trans e1
      · exact absurd h hn
    · rcases c1 with e1 | ⟨e1, _, hr⟩
      · rw [← e1]
        exact t2
      · rw [t1 hr, e1]

theorem not_registered_of_miss (s : Container) (T : type_id_t)
    (h : (map_index s._services T).1 = 0) : ¬ Registered s T := by
  rintro ⟨p, hp, hf⟩
  rw [map_index_of_find _ _ _ hf] at h
  exact hp h

theorem registered_lookup (s : Container) (A U : type_id_t) (h : Registered s U) :
    Registered { s with _services := (map_index s._services A).2 } U := by
  obtain ⟨p, hp, hf⟩ := h
  refine ⟨p, hp, ?_⟩
  simp only [map_find_index, hf, Option.or_some]

theorem once_lookup (U A : type_id_t) (s : Container) (w : World) :
    OnceOk U s w { s with _services := (map_index s._services A).2 } w :=
  ⟨registered_lookup s A U, Or.inl rfl⟩

theorem save_instance_helper_registered (T U : type_id_t) (parents : List type_id_t)
    (service : instance_ptr) (self : Container) (w : World) (hs : service.get ≠ 0)
    (h : Registered self U) :
    Registered (save_instance_helper T parents service self w).2.1 U := by
  induction parents generalizing self w with
  | nil =>
    obtain ⟨p, hp, hf⟩ := h
    simp only [save_instance_helper]
    by_cases hk : T = U
    · subst hk
      exact ⟨service.get, hs, map_find_assign_self _ _ _⟩
    · exact ⟨p, hp, by simp only [map_find_assign_ne _ _ _ _ hk]; exact hf⟩
  | cons O Others ih =>
    simp only [save_instance_helper]
    apply ih
    obtain ⟨p, hp, hf⟩ := h
    by_cases hk : O = U
    · subst hk
      exact ⟨w.next + 1, Nat.succ_ne_zero _, by simp [makeInstancePtr, map_find_assign_self]⟩
    · exact ⟨p, hp, by simp only [map_find_assign_ne _ _ _ _ hk]; exact hf⟩

theorem save_instance_registered (D : Decls) (T U : type_id_t) (v : Val) (s : Container)
    (w : World) (h : Registered s U) : Registered (save_instance D T v s w).2.1 U := by
  unfold save_instance
  cases (D T).ParentTypes with
  | none => exact save_instance_helper_registered T U [] _ s _ (Nat.succ_ne_zero _) h
  | some parents =>
    exact save_instance_helper_registered T U parents _ s _ (Nat.succ_ne_zero _) h

theorem save_instance_registered_self (D : Decls) (T : type_id_t) (v : Val) (s : Container)
    (w : World) : Registered (save_instance D T v s w).2.1 T :=
  ⟨w.next + 1, Nat.succ_ne_zero _, save_instance_find_self D T v s w⟩

theorem once_save (D : Decls) (U A : type_id_t) (v : Val) (s : Container) (w : World) :
    OnceOk U s w (save_instance D A v s w).2.1 (save_instance D A v s w).2.2 :=
  ⟨save_instance_registered D A U v s w, Or.inl (constructions_save_instance U D A v s w)⟩

theorem once_call_ok (U A : type_id_t) (hAU : A ≠ U) (f : FnId) (all : List Arg)
    (s : Container) (w : World) (hown : (Event.call f all).owner = some A) :
    OnceOk U s w s { w with trace := w.trace ++ [Event.call f all] } := by
  refine ⟨id, Or.inl ?_⟩
  have hf : f ≠ FnId.construct U := by
    rintro rfl
    simp only [Event.owner, Option.some.injEq] at hown
    exact hAU hown.symm
  simp only [constructions_append, constructions_call_other U f all hf, Nat.add_zero]

theorem once_call_throw (U A : type_id_t) (hAU : A ≠ U) (f : FnId) (all : List Arg)
    (s : Container) (w : World) (hown : (Event.call f all).owner = some A) :
    OnceThrow U s w s { w with trace := w.trace ++ [Event.call f all] } := by
  have h := (once_call_ok U A hAU f all s w hown).2
  rcases h with h | ⟨h, _, _⟩
  · exact ⟨fun _ => h, by rw [h]; exact Nat.le_succ _⟩
  · exact ⟨fun _ => by
      have hf : f ≠ FnId.construct U := by
        rintro rfl
        simp only [Event.owner, Option.some.injEq] at hown
        exact hAU hown.symm
      simp only [constructions_append, constructions_call_other U f all hf, Nat.add_zero],
      by rw [h]⟩

/-- The construction of a singleton `U` that is not registered, when resolving
its dependencies calls no factory of `U` : the factory of `U` is called at most
once, and `U` is registered when the construction returns. -/
theorem save_new_instance_once_self (D : Decls) (U : type_id_t) (gs : Resolver)
    (hgs : ∀ V, V ∈ deps D U → ∀ s w,
      (gs V s w).Sat (fun _ w1 => constructions U w1.trace = constructions U w.trace))
    (args : List Arg) (s : Container) (w : World) (hn : ¬ Registered s U) :
    (save_new_instance gs D U args s w).Sat2 (OnceOk U s w) (OnceThrow U s w) := by
  have hraw : (invoke_raw gs
      { id := FnId.construct U, params := (D U).construct_params,
        body := (D U).construct, order := (D U).construct_order }
      args s w).Sat (fun _ w1 => constructions U w1.trace = constructions U w.trace ∨
        constructions U w1.trace = constructions U w.trace + 1) := by
    unfold invoke_raw
    split
    · unfold invoke_seq
      have hres : (resolve (D U).construct_order gs
            ((D U).construct_params.take ((D U).construct_params.length - args.length))
            s w).Sat (fun _ w1 => constructions U w1.trace = constructions U w.trace) :=
        resolve_sat
        (fun _ w0 _ w1 => constructions U w1.trace = constructions U w0.trace)
        (fun _ _ => rfl) (fun _ _ _ _ _ _ h1 h2 => h2.trans h1) gs
        ((D U).construct_params.take ((D U).construct_params.length - args.length))
        (fun A hA => hgs A (by
          simp only [deps, List.mem_append]
          exact Or.inl (List.mem_of_mem_take hA))) s w
      apply Outcome.sat_bind
      · intro e s1 w1 h
        exact Or.inl (Outcome.sat_of_throw hres h)
      · intro rs s1 w1 h
        have h1 := Outcome.sat_of_ok hres h
        refine Outcome.Sat.mono (call_sat
          (fun _ w0 _ w2 => constructions U w2.trace = constructions U w0.trace + 1)
          _ (rs ++ args) s1 w1 ?_) ?_
        · simp only [constructions_append, constructions_call_self]
        · intro s2 w2 h2
          exact Or.inr (by rw [h2, h1])
    · intro s1 w1 h
      simp [Outcome.final] at h
  have hmake : (make_service_instance gs D U args s w).Sat
      (fun _ w1 => constructions U w1.trace = constructions U w.trace ∨
        constructions U w1.trace = constructions U w.trace + 1) := by
    unfold make_service_instance
    apply Outcome.sat_bind
    · intro e s1 w1 h
      exact Outcome.sat_of_throw hraw h
    · intro v s1 w1 h
      have h1 := Outcome.sat_of_ok hraw h
      refine Outcome.Sat.mono (invoke_service_sat
        (fun _ w0 _ w2 => constructions U w2.trace = constructions U w0.trace)
        (fun _ _ => rfl) (fun _ _ _ _ _ _ h1 h2 => h2.trans h1) gs D U hgs ?_ v s1 w1) ?_
      · intro i all s0 w0
        simp only [constructions_append,
          constructions_call_other U (FnId.autocall U i) all (by simp), Nat.add_zero]
      · intro s2 w2 h2
        rcases h1 with h1 | h1
        · exact Or.inl (h2.trans h1)
        · exact Or.inr (h2.trans h1)
  unfold save_new_instance
  by_cases hS : (D U).is_single = true
  · rw [if_pos hS]
    by_cases hA : (D U).is_abstract = true
    · rw [if_pos hA]
      exact (once_two_level U).refl_throw s w
    · rw [if_neg hA]
      cases hm : make_service_instance gs D U args s w with
      | ok v s2 w2 =>
        have h1 := Outcome.sat_of_ok hmake hm
        simp only [Outcome.bind]
        refine ⟨fun h => absurd h hn, ?_⟩
        rcases h1 with h1 | h1
        · exact Or.inl ((constructions_save_instance U D U v s2 w2).trans h1)
        · exact Or.inr ⟨(constructions_save_instance U D U v s2 w2).trans h1, hn,
            save_instance_registered_self D U v s2 w2⟩
      | throw e s2 w2 =>
        have h1 := Outcome.sat_of_throw hmake hm
        refine ⟨fun h => absurd h hn, ?_⟩
        rcases h1 with h1 | h1
        · rw [h1]
          exact Nat.le_succ _
        · rw [h1]
      | undefined => trivial
      | ill_formed => trivial
      | out_of_fuel => trivial
  · rw [if_neg hS]
    trivial

/-- Resolving any service calls the factory of a singleton `U` that its own
dependencies do not reach at most once, and not at all when `U` is registered. -/
theorem get_service_once (D : Decls) (U : type_id_t) (hU : is_singleton D U)
    (hself : ∀ V, V ∈ deps D U → ¬ Reaches D V U)
    (fuel : Nat) (A : type_id_t) (args : List Arg) (s : Container) (w : World) :
    (get_service fuel D A args s w).Sat2 (OnceOk U s w) (OnceThrow U s w) := by
  induction fuel generalizing A args s w with
  | zero =>
    rw [get_service]
    trivial
  | succ n ih =>
    have hQ := once_two_level U
    have hgs : ∀ V, V ∈ deps D A → ∀ s w,
        ((fun V => get_service n D V []) V s w).Sat2 (OnceOk U s w) (OnceThrow U s w) :=
      fun V _ s w => ih V [] s w
    rw [get_service]
    by_cases hC : (D A).is_container_service = true
    · simp only [if_pos hC]
      split
      · exact hQ.refl s w
      · trivial
    · simp only [if_neg hC]
      by_cases hB : (D A).is_base_of_container_service = true
      · simp only [if_pos hB]
        split
        · split
          · exact hQ.refl s w
          · trivial
        · trivial
      · simp only [if_neg hB]
        by_cases hS : (D A).is_single = true
        · simp only [if_pos hS]
          by_cases ha : args = []
          · simp only [if_pos ha]
            by_cases hit : (map_index s._services A).1 ≠ 0
            · simp only [if_pos hit]
              exact once_lookup U A s w
            · simp only [if_neg hit]
              apply Outcome.sat2_bind_ok
              apply Outcome.sat2_prepend (OnceOk U) (OnceThrow U) hQ _ s w _ w
                (once_lookup U A s w)
              by_cases hAU : A = U
              · subst hAU
                refine save_new_instance_once_self D A _ ?_ [] _ w ?_
                · intro V hV s0 w0
                  exact Outcome.Sat.mono (get_service_silent D n A V (hself V hV) s0 w0)
                    (fun _ w1 h => constructions_of_events_of A _ _ h)
                · rintro ⟨p, hp, hf⟩
                  have hz := map_find_index_miss s._services A (not_not.mp hit)
                  simp only at hf
                  rw [hz] at hf
                  injection hf with hf
                  exact hp hf.symm
              · exact save_new_instance_sat2 (OnceOk U) (OnceThrow U) hQ _ D A [] hgs
                  (fun f all s0 w0 hown => once_call_ok U A hAU f all s0 w0 hown)
                  (fun f all s0 w0 hown => once_call_throw U A hAU f all s0 w0 hown)
                  (fun v s0 w0 => once_save D U A v s0 w0) _ w
          · simp only [if_neg ha]
            trivial
        · simp only [if_neg hS]
          have hAU : A ≠ U := by
            rintro rfl
            exact hS hU.2.2
          apply Outcome.sat2_bind_ok
          exact make_service_instance_sat2 (OnceOk U) (OnceThrow U) hQ _ D A args hgs
            (fun f all s0 w0 hown => once_call_ok U A hAU f all s0 w0 hown)
            (fun f all s0 w0 hown => once_call_throw U A hAU f all s0 w0 hown) s w

theorem Reaches.eq_or_transGen (D : Decls) (T V U : type_id_t) (hTV : Reaches D T V)
    (h : Reaches D V U) : V = U ∨ Relation.TransGen (depends_on D T) U V := by
  induction h with
  | refl => exact Or.inl rfl
  | step A B C hB _ ih =>
    have hdep : depends_on D T B A := ⟨hTV, hB⟩
    rcases ih (Reaches.tail D T A B hTV hB) with h | h
    · subst h
      exact Or.inr (Relation.TransGen.single hdep)
    · exact Or.inr (Relation.TransGen.tail h hdep)

/-- With a well-founded dependency relation, no type that `T` reaches is reached
by one of its own dependencies. -/
theorem not_reaches_self_of_wf (D : Decls) (T : type_id_t)
    (hwf : WellFounded (depends_on D T)) (U : type_id_t) (hU : Reaches D T U)
    (V : type_id_t) (hV : V ∈ deps D U) : ¬ Reaches D V U := by
  intro h
  have hirr := hwf.transGen.isIrrefl
  have hdep : depends_on D T V U := ⟨hU, hV⟩
  rcases Reaches.eq_or_transGen D T V U (Reaches.tail D T U V hU hV) h with h1 | h1
  · subst h1
    exact hirr.irrefl V (Relation.TransGen.single hdep)
  · exact hirr.irrefl U (Relation.TransGen.tail h1 hdep)

/-- A set of services, none of them a container service or an abstract
singleton, in which the factory parameter that the call of the factory
evaluates first is, in every state, a member again: as long as no singleton of
the set is registered, resolving a member never comes to an end. -/
theorem get_service_cycle (D : Decls) (C : type_id_t → Prop)
    (hC : ∀ U, C U → (D U).is_container_service = false ∧
      (D U).is_base_of_container_service = false ∧
      ((D U).is_single = true → (D U).is_abstract = false) ∧
      ∀ s w, ∃ i rest V,
        (D U).construct_order.seq s w (D U).construct_params.length = i :: rest ∧
        (D U).construct_params[i]? = some V ∧ C V)
    (fuel : Nat) (U : type_id_t) (hU : C U) (s : Container) (w : World)
    (hmiss : ∀ V, C V → (D V).is_single = true → (map_index s._services V).1 = 0) :
    get_service fuel D U [] s w = Outcome.out_of_fuel := by
  induction fuel generalizing U s w with
  | zero => rfl
  | succ n ih =>
    obtain ⟨h1, h2, h3, h4⟩ := hC U hU
    have hraw : ∀ s0 w0,
        (∀ V, C V → (D V).is_single = true → (map_index s0._services V).1 = 0) →
        make_service_instance (fun A => get_service n D A []) D U [] s0 w0
          = Outcome.out_of_fuel := by
      intro s0 w0 hm0
      obtain ⟨i, rest, V, hseq, hp, hV⟩ := h4 s0 w0
      simp only [make_service_instance, invoke_raw, invoke_seq, List.length_nil,
        Nat.zero_le, if_true, Nat.sub_zero, List.take_length, resolve, hseq, resolve_at, hp]
      rw [ih V hV s0 w0 hm0]
      rfl
    rw [get_service]
    simp only [h1, h2, Bool.false_eq_true, if_false, if_true]
    by_cases hS : (D U).is_single = true
    · rw [if_pos hS, if_neg (by simp [hmiss U hU hS])]
      simp only [save_new_instance, hS, h3 hS, if_true, Bool.false_eq_true, if_false]
      rw [hraw]
      · rfl
      · intro W hW hWS
        simp only [map_index_fst, map_find_index]
        have h0 := hmiss W hW hWS
        rw [map_index_fst] at h0
        cases hm : map_find s._services W with
        | none =>
          simp only [Option.none_or]
          split <;> rfl
        | some q =>
          rw [hm] at h0
          simpa using h0
    · rw [if_neg hS, hraw s w hmiss]
      rfl

/-- C20 (resolution terminates on acyclic dependencies).  When the relation
"`V` is a parameter type of the factory or of an autocall method of `U`" is
well-founded on the service types `T` reaches, there is an amount of fuel
with which `service<T>(args...)` comes to an end in every container state,
with an outcome that more fuel does not change; and for every singleton `U`
that `T` reaches, a `service<T>(args...)`, returning or throwing, calls the
factory of `U` at most once, and not at all when `U` is registered; when the
call returns and the factory of `U` was called, `U` was not registered before
and is registered afterwards.  Without well-foundedness: in a set of
services (no container service, no abstract singleton) in which the factory
parameter that the call of the factory evaluates first, whatever the order of
evaluation chosen in a state, is a member again, a `service<T>()` of a member
never comes to an end as long as no singleton of the set is registered,
because the singleton is registered only after its factory and hooks have
run; a registered `T` is returned at once. -/
theorem resolution_terminates (D : Decls) (T : type_id_t) :
    (WellFounded (depends_on D T) →
      (∃ n, ∀ extra args s w,
        service (n + extra) D T args s w ≠ Outcome.out_of_fuel ∧
        service (n + extra) D T args s w = service n D T args s w) ∧
      (∀ U, Reaches D T U → is_singleton D U → ∀ fuel args s w,
        (service fuel D T args s w).Sat (fun _ w1 =>
          constructions U w1.trace ≤ constructions U w.trace + 1 ∧
          (Registered s U → constructions U w1.trace = constructions U w.trace)) ∧
        ∀ r s1 w1, service fuel D T args s w = Outcome.ok r s1 w1 →
          (Registered s U → Registered s1 U) ∧
          (constructions U w1.trace ≠ constructions U w.trace →
            ¬ Registered s U ∧ Registered s1 U))) ∧
    (∀ C : type_id_t → Prop, C T →
      (∀ U, C U → (D U).is_container_service = false ∧
        (D U).is_base_of_container_service = false ∧
        ((D U).is_single = true → (D U).is_abstract = false) ∧
        ∀ s w, ∃ i rest V,
          (D U).construct_order.seq s w (D U).construct_params.length = i :: rest ∧
          (D U).construct_params[i]? = some V ∧ C V) →
      ∀ s, (∀ V, C V → (D V).is_single = true → (map_index s._services V).1 = 0) →
      ∀ fuel w, service fuel D T [] s w = Outcome.out_of_fuel) ∧
    (is_singleton D T → ∀ fuel s w p, map_find s._services T = some p → p ≠ 0 →
      service (fuel + 1) D T [] s w = Outcome.ok (forward w.heap (Arg.ref p)) s w) := by
  refine ⟨?_, ?_, ?_⟩
  · intro hwf
    constructor
    · obtain ⟨n, hn⟩ := get_service_total D T hwf T (Reaches.refl T)
      refine ⟨n, ?_⟩
      intro extra args s w
      refine ⟨?_, service_stable_add D n extra T args s w (hn args s w)⟩
      rw [service_stable_add D n extra T args s w (hn args s w)]
      exact service_ne_out_of_fuel D n T args s w (hn args s w)
    · intro U hU hsing fuel args s w
      have honce := get_service_once D U hsing
        (fun V hV => not_reaches_self_of_wf D T hwf U hU V hV) fuel T args s w
      constructor
      · apply service_sat_of_get_service
        refine Outcome.sat_of_sat2 _ _ _ _ honce ?_ ?_
        · rintro s1 w1 ⟨_, h⟩
          rcases h with h | ⟨h, hn, _⟩
          · exact ⟨by rw [h]; exact Nat.le_succ _, fun _ => h⟩
          · exact ⟨by rw [h], fun hr => absurd hr hn⟩
        · rintro s1 w1 ⟨h1, h2⟩
          exact ⟨h2, h1⟩
      · intro r s1 w1 h
        obtain ⟨a, hg, _⟩ := service_eq_ok_val D fuel T args s s1 w w1 r h
        rw [hg] at honce
        obtain ⟨hm, hc⟩ : OnceOk U s w s1 w1 := honce
        refine ⟨hm, ?_⟩
        intro hne
        rcases hc with hc | ⟨_, hn, hr⟩
        · exact absurd hc hne
        · exact ⟨hn, hr⟩
  · intro C hT hC s hmiss fuel w
    unfold service
    rw [get_service_cycle D C hC fuel T hT s w hmiss]
    rfl
  · intro hsing fuel s w p hf hp
    unfold service
    rw [get_service_hit D T fuel s w p hsing.1 hsing.2.1 hsing.2.2 hf hp]
    rfl

theorem resolution_terminates_witness :
    WellFounded (depends_on demo 2) ∧
    (∃ n, ∀ extra args s w,
      service (n + extra) demo 2 args s w ≠ Outcome.out_of_fuel ∧
      service (n + extra) demo 2 args s w = service n demo 2 args s w) ∧
    service 3 demo 2 [] empty_container empty_world
      = Outcome.ok (Arg.ref 2) demo_container2 demo_world3 ∧
    constructions 1 demo_world3.trace = 1 ∧ constructions 2 demo_world3.trace = 1 ∧
    (∀ fuel w, service fuel demo_cycle 1 [] empty_container w = Outcome.out_of_fuel) ∧
    (∀ fuel w,
      service fuel (demo_cycle2 left_to_right) 1 [] empty_container w = Outcome.out_of_fuel) ∧
    service 2 (demo_cycle2 right_to_left) 1 [] empty_container empty_world
      = Outcome.throw Err.out_of_range
          { empty_container with _services := [(1, 0), (3, 0)] } empty_world :=
  ⟨demo_wf 2, ((resolution_terminates demo 2).1 (demo_wf 2)).1, by decide, by decide, by decide,
   fun fuel w => (resolution_terminates demo_cycle 1).2.1 (fun U => U = 1 ∨ U = 2) (Or.inl rfl)
     (fun U hU => by
       rcases hU with rfl | rfl
       · exact ⟨rfl, rfl, fun _ => rfl, fun _ _ => ⟨0, [], 2, rfl, rfl, Or.inr rfl⟩⟩
       · exact ⟨rfl, rfl, fun _ => rfl, fun _ _ => ⟨0, [], 1, rfl, rfl, Or.inl rfl⟩⟩)
     empty_container (fun _ _ _ => rfl) fuel w,
   fun fuel w => (resolution_terminates (demo_cycle2 left_to_right) 1).2.1
     (fun U => U = 1 ∨ U = 2) (Or.inl rfl)
     (fun U hU => by
       rcases hU with rfl | rfl
       · exact ⟨rfl, rfl, fun _ => rfl, fun _ _ => ⟨0, [1], 2, rfl, rfl, Or.inr rfl⟩⟩
       · exact ⟨rfl, rfl, fun _ => rfl, fun _ _ => ⟨0, [], 1, rfl, rfl, Or.inl rfl⟩⟩)
     empty_container (fun _ _ _ => rfl) fuel w,
   by decide⟩

/-! ## Live instances of a singleton -/

theorem save_instance_heap_old (D : Decls) (T : type_id_t) (v : Val) (s : Container) (w : World)
    (p : Ptr) (hp : p ≤ w.next) :
    heap_find (save_instance D T v s w).2.2.heap p = heap_find w.heap p := by
  have hne : w.next + 1 ≠ p := by simp only [Ptr] at *; omega
  unfold save_instance
  cases (D T).ParentTypes with
  | none =>
    rw [save_instance_helper_heap_old _ _ _ _ _ p
      (by simp only [makeInstancePtr, Ptr] at *; omega)]
    simp [makeInstancePtr, heap_find, hne]
  | some parents =>
    rw [save_instance_helper_heap_old _ _ _ _ _ p
      (by simp only [makeInstancePtr, Ptr] at *; omega)]
    simp [makeInstancePtr, heap_find, hne]

theorem save_instance_heap_adapter (D : Decls) (T : type_id_t) (v : Val) (s : Container)
    (w : World) (i : Nat) (P : type_id_t) (hi : (parents_of D T)[i]? = some P) :
    heap_find (save_instance D T v s w).2.2.heap (w.next + 2 + i)
      = some (Obj.ServiceOverride T P (w.next + 1)) := by
  unfold parents_of at hi
  unfold save_instance
  cases hP : (D T).ParentTypes with
  | none =>
    rw [hP] at hi
    simp at hi
  | some parents =>
    rw [hP] at hi
    simp only at hi
    have h := save_instance_helper_heap_parent T parents
      (makeInstancePtr T (Obj.service T v) w).1 s (makeInstancePtr T (Obj.service T v) w).2 i P hi
    simp only [makeInstancePtr] at h ⊢
    rw [show w.next + 2 + i = w.next + 1 + 1 + i from rfl]
    exact h

theorem is_live_trace (s : Container) (w : World) (U : type_id_t) (tr : List Event) :
    live_instances s { w with trace := tr } U = live_instances s w U := rfl

theorem live_instances_save (D : Decls) (T U : type_id_t) (v : Val) (s : Container) (w : World)
    (hle : ∀ e, e ∈ s._instances → e.get ≤ w.next) :
    (live_instances (save_instance D T v s w).2.1 (save_instance D T v s w).2.2 U).length
      = (live_instances s w U).length + (if T = U then 1 else 0) := by
  unfold live_instances
  rw [save_instance_instances]
  simp only [List.filter_append, List.length_append]
  have hold : List.filter (fun e => is_live (save_instance D T v s w).2.2.heap U e.get)
        s._instances
      = List.filter (fun e => is_live w.heap U e.get) s._instances := by
    apply List.filter_congr
    intro e he
    simp only [is_live, save_instance_heap_old D T v s w e.get (hle e he)]
  have hadapt : List.filter (fun e => is_live (save_instance D T v s w).2.2.heap U e.get)
        ((List.enumFrom (w.next + 2) (parents_of D T)).map (fun x => instance_ptr.mk x.1 x.2))
      = [] := by
    rw [List.filter_eq_nil_iff]
    intro a ha
    simp only [List.mem_map] at ha
    obtain ⟨⟨q, P⟩, hx, rfl⟩ := ha
    obtain ⟨hq, hget⟩ := List.mk_mem_enumFrom_iff_le_and_getElem?_sub.mp hx
    have hheap := save_instance_heap_adapter D T v s w (q - (w.next + 2)) P hget
    rw [show w.next + 2 + (q - (w.next + 2)) = q by simp only [Ptr] at *; omega] at hheap
    simp only [is_live, hheap, Bool.false_eq_true, not_false_eq_true]
  have hself : List.filter (fun e => is_live (save_instance D T v s w).2.2.heap U e.get)
        [instance_ptr.mk (w.next + 1) T]
      = if T = U then [instance_ptr.mk (w.next + 1) T] else [] := by
    by_cases hTU : T = U
    · simp [List.filter_cons, is_live, save_instance_heap_self, hTU]
    · simp [List.filter_cons, is_live, save_instance_heap_self, hTU]
  rw [hold, hadapt, hself]
  by_cases hTU : T = U <;> simp [hTU]

theorem save_instance_bound (D : Decls) (T : type_id_t) (v : Val) (s : Container) (w : World)
    (hle : ∀ e, e ∈ s._instances → e.get ≤ w.next) :
    ∀ e, e ∈ (save_instance D T v s w).2.1._instances → e.get ≤ (save_instance D T v s w).2.2.next := by
  intro e he
  rw [save_instance_next]
  rw [save_instance_instances] at he
  simp only [List.mem_append, List.mem_map, List.mem_singleton] at he
  rcases he with he | ⟨⟨q, P⟩, hx, rfl⟩ | rfl
  · have := hle e he
    simp only [Ptr] at *
    omega
  · obtain ⟨_, h2, _⟩ := List.mem_enumFrom hx
    simp only [Ptr] at *
    omega
  · simp only [Ptr] at *
    omega

/-- Storing an instance of `A` keeps the invariant for `U`, provided no live `U`
is stored when `A` is `U`. -/
theorem save_instance_one_live (D : Decls) (A U : type_id_t) (v : Val) (s : Container)
    (w : World) (h : OneLive U s w) (hz : A = U → (live_instances s w U).length = 0) :
    OneLive U (save_instance D A v s w).2.1 (save_instance D A v s w).2.2 ∧
    (A ≠ U → (live_instances (save_instance D A v s w).2.1 (save_instance D A v s w).2.2 U).length
      = (live_instances s w U).length) := by
  obtain ⟨h1, h2, h3⟩ := h
  have hcount := live_instances_save D A U v s w h1
  refine ⟨⟨save_instance_bound D A v s w h1, ?_, ?_⟩, ?_⟩
  · rw [hcount]
    by_cases hAU : A = U
    · rw [hz hAU, if_pos hAU]
    · rw [if_neg hAU]
      exact h2
  · intro hone
    by_cases hAU : A = U
    · subst hAU
      exact save_instance_registered_self D A v s w
    · rw [hcount, if_neg hAU] at hone
      exact save_instance_registered D A U v s w (h3 hone)
  · intro hAU
    rw [hcount, if_neg hAU]
    rfl

theorem one_live_zero_of_not_registered (U : type_id_t) (s : Container) (w : World)
    (h : OneLive U s w) (hn : ¬ Registered s U) : (live_instances s w U).length = 0 := by
  obtain ⟨_, h2, h3⟩ := h
  by_contra hne
  have : (live_instances s w U).length = 1 := by omega
  exact hn (h3 this)

theorem one_live_lookup (U A : type_id_t) (s : Container) (w : World) (h : OneLive U s w) :
    OneLive U { s with _services := (map_index s._services A).2 } w :=
  ⟨h.1, h.2.1, fun hone => registered_lookup s A U (h.2.2 hone)⟩

theorem make_service_instance_one_live (D : Decls) (U : type_id_t) (gs : Resolver)
    (A : type_id_t)
    (hgs : ∀ V, V ∈ deps D A → ∀ s w, (gs V s w).Sat (fun s1 w1 =>
      OneLive U s w → OneLive U s1 w1 ∧
        (¬ Reaches D V U → (live_instances s1 w1 U).length = (live_instances s w U).length)))
    (args : List Arg) (s : Container) (w : World) :
    (make_service_instance gs D A args s w).Sat (fun s1 w1 =>
      OneLive U s w → OneLive U s1 w1 ∧
        ((∀ V, V ∈ deps D A → ¬ Reaches D V U) →
          (live_instances s1 w1 U).length = (live_instances s w U).length)) :=
  make_service_instance_sat
    (fun s0 w0 s1 w1 => OneLive U s0 w0 → OneLive U s1 w1 ∧
      ((∀ V, V ∈ deps D A → ¬ Reaches D V U) →
        (live_instances s1 w1 U).length = (live_instances s0 w0 U).length))
    (fun _ _ h => ⟨h, fun _ => rfl⟩)
    (fun _ _ _ _ _ _ h1 h2 h0 =>
      ⟨(h2 (h1 h0).1).1, fun hc => ((h2 (h1 h0).1).2 hc).trans ((h1 h0).2 hc)⟩)
    gs D A args
    (fun V hV s0 w0 => Outcome.Sat.mono (hgs V hV s0 w0)
      (fun _ _ h h0 => ⟨(h h0).1, fun hc => (h h0).2 (hc V hV)⟩))
    (fun _ _ _ _ _ h0 => ⟨h0, fun _ => rfl⟩) s w

theorem save_new_instance_one_live (D : Decls) (U : type_id_t)
    (hself : ∀ V, V ∈ deps D U → ¬ Reaches D V U) (gs : Resolver) (A : type_id_t)
    (hgs : ∀ V, V ∈ deps D A → ∀ s w, (gs V s w).Sat (fun s1 w1 =>
      OneLive U s w → OneLive U s1 w1 ∧
        (¬ Reaches D V U → (live_instances s1 w1 U).length = (live_instances s w U).length)))
    (args : List Arg) (s : Container) (w : World) (hn : A = U → ¬ Registered s U) :
    (save_new_instance gs D A args s w).Sat (fun s1 w1 =>
      OneLive U s w → OneLive U s1 w1 ∧
        (¬ Reaches D A U → (live_instances s1 w1 U).length = (live_instances s w U).length)) := by
  have hmake := make_service_instance_one_live D U gs A hgs args s w
  have hc : ¬ Reaches D A U → ∀ V, V ∈ deps D A → ¬ Reaches D V U :=
    fun hnr V hV hr => hnr (Reaches.step A V U hV hr)
  unfold save_new_instance
  by_cases hS : (D A).is_single = true
  · rw [if_pos hS]
    by_cases hA : (D A).is_abstract = true
    · rw [if_pos hA]
      intro s1 w1 hf
      simp only [Outcome.final, Option.some.injEq, Prod.mk.injEq] at hf
      obtain ⟨e1, e2⟩ := hf
      subst e1 e2
      exact fun h0 => ⟨h0, fun _ => rfl⟩
    · rw [if_neg hA]
      apply Outcome.sat_bind
      · intro e s2 w2 hm h0
        obtain ⟨i2, c2⟩ := Outcome.sat_of_throw hmake hm h0
        exact ⟨i2, fun hnr => c2 (hc hnr)⟩
      · intro v s2 w2 hm s3 w3 hf
        simp only [Outcome.final, Option.some.injEq, Prod.mk.injEq] at hf
        obtain ⟨e1, e2⟩ := hf
        subst e1 e2
        intro h0
        obtain ⟨i2, c2⟩ := Outcome.sat_of_ok hmake hm h0
        have hz : A = U → (live_instances s2 w2 U).length = 0 := by
          intro hAU
          subst hAU
          rw [c2 hself]
          exact one_live_zero_of_not_registered A s w h0 (hn rfl)
        obtain ⟨i3, c3⟩ := save_instance_one_live D A U v s2 w2 i2 hz
        refine ⟨i3, fun hnr => ?_⟩
        have hAU : A ≠ U := fun h => hnr (h ▸ Reaches.refl A)
        exact (c3 hAU).trans (c2 (hc hnr))
  · rw [if_neg hS]
    intro s1 w1 hf
    simp [Outcome.final] at hf

/-- Resolving any service keeps the invariant for a type `U` that its own
dependencies do not reach, and leaves the live instances of `U` as they are
when the service does not reach `U`. -/
theorem get_service_one_live (D : Decls) (U : type_id_t)
    (hself : ∀ V, V ∈ deps D U → ¬ Reaches D V U)
    (fuel : Nat) (A : type_id_t) (args : List Arg) (s : Container) (w : World) :
    (get_service fuel D A args s w).Sat (fun s1 w1 =>
      OneLive U s w → OneLive U s1 w1 ∧
        (¬ Reaches D A U → (live_instances s1 w1 U).length = (live_instances s w U).length)) := by
  induction fuel generalizing A args s w with
  | zero =>
    intro s1 w1 h
    simp [get_service, Outcome.final] at h
  | succ n ih =>
    have hdone : ∀ {α : Type} (a : α), (Outcome.ok a s w).Sat (fun s1 w1 =>
        OneLive U s w → OneLive U s1 w1 ∧
          (¬ Reaches D A U →
            (live_instances s1 w1 U).length = (live_instances s w U).length)) := by
      intro α a s1 w1 hf
      simp only [Outcome.final, Option.some.injEq, Prod.mk.injEq] at hf
      obtain ⟨e1, e2⟩ := hf
      subst e1 e2
      exact fun h0 => ⟨h0, fun _ => rfl⟩
    have hnone : ∀ {α : Type} (o : Outcome α), o.final = none → o.Sat (fun s1 w1 =>
        OneLive U s w → OneLive U s1 w1 ∧
          (¬ Reaches D A U →
            (live_instances s1 w1 U).length = (live_instances s w U).length)) := by
      intro α o ho s1 w1 hf
      rw [ho] at hf
      cases hf
    rw [get_service]
    by_cases hC : (D A).is_container_service = true
    · simp only [if_pos hC]
      split
      · exact hdone _
      · exact hnone _ rfl
    · simp only [if_neg hC]
      by_cases hB : (D A).is_base_of_container_service = true
      · simp only [if_pos hB]
        split
        · split
          · exact hdone _
          · exact hnone _ rfl
        · exact hnone _ rfl
      · simp only [if_neg hB]
        by_cases hS : (D A).is_single = true
        · simp only [if_pos hS]
          by_cases ha : args = []
          · simp only [if_pos ha]
            by_cases hit : (map_index s._services A).1 ≠ 0
            · simp only [if_pos hit]
              intro s1 w1 hf
              simp only [Outcome.final, Option.some.injEq, Prod.mk.injEq] at hf
              obtain ⟨e1, e2⟩ := hf
              subst e1 e2
              exact fun h0 => ⟨one_live_lookup U A s w h0, fun _ => rfl⟩
            · simp only [if_neg hit]
              have hsave := save_new_instance_one_live D U hself
                (fun V => get_service n D V []) A (fun V _ s0 w0 => ih V [] s0 w0) []
                { s with _services := (map_index s._services A).2 } w
                (by
                  intro hAU
                  subst hAU
                  rintro ⟨p, hp, hf⟩
                  have hz := map_find_index_miss s._services A (not_not.mp hit)
                  simp only at hf
                  rw [hz] at hf
                  injection hf with hf
                  exact hp hf.symm)
              apply Outcome.sat_bind
              · intro e s1 w1 h h0
                exact Outcome.sat_of_throw hsave h (one_live_lookup U A s w h0)
              · intro p s1 w1 h s2 w2 hf
                simp only [Outcome.final, Option.some.injEq, Prod.mk.injEq] at hf
                obtain ⟨e1, e2⟩ := hf
                subst e1 e2
                exact fun h0 => Outcome.sat_of_ok hsave h (one_live_lookup U A s w h0)
          · simp only [if_neg ha]
            exact hnone _ rfl
        · simp only [if_neg hS]
          have hmake := make_service_instance_one_live D U (fun V => get_service n D V []) A
            (fun V _ s0 w0 => ih V [] s0 w0) args s w
          have hc : ¬ Reaches D A U → ∀ V, V ∈ deps D A → ¬ Reaches D V U :=
            fun hnr V hV hr => hnr (Reaches.step A V U hV hr)
          apply Outcome.sat_bind
          · intro e s1 w1 h h0
            obtain ⟨i2, c2⟩ := Outcome.sat_of_throw hmake h h0
            exact ⟨i2, fun hnr => c2 (hc hnr)⟩
          · intro v s1 w1 h s2 w2 hf
            simp only [Outcome.final, Option.some.injEq, Prod.mk.injEq] at hf
            obtain ⟨e1, e2⟩ := hf
            subst e1 e2
            intro h0
            obtain ⟨i2, c2⟩ := Outcome.sat_of_ok hmake h h0
            exact ⟨i2, fun hnr => c2 (hc hnr)⟩

theorem reachable_one_live (D : Decls) (s : Container) (w : World)
    (h : Container.Reachable D s w) (U : type_id_t)
    (hself : ∀ V, V ∈ deps D U → ¬ Reaches D V U) : OneLive U s w := by
  induction h with
  | init dt w0 => exact ⟨by simp, by simp [live_instances], by simp [live_instances]⟩
  | service s0 w0 fuel T args s1 w1 _ hf ih =>
    exact (service_sat_of_get_service D fuel T args s0 w0 _
      (get_service_one_live D U hself fuel T args s0 w0) s1 w1 hf ih).1
  | instance_value s0 w0 T v s1 w1 _ hn hf ih =>
    unfold instance_value at hf
    by_cases hS : (D T).is_single = true
    · rw [if_pos hS] at hf
      simp only [Outcome.final, Option.some.injEq, Prod.mk.injEq] at hf
      obtain ⟨e1, e2⟩ := hf
      subst e1 e2
      exact (save_instance_one_live D T U v s0 w0 ih (by
        intro hTU
        subst hTU
        exact one_live_zero_of_not_registered T s0 w0 ih hn)).1
    · rw [if_neg hS] at hf
      simp [Outcome.final] at hf
  | instance_new s0 w0 fuel T args s1 w1 _ hn hf ih =>
    unfold instance_new at hf
    by_cases hS : (D T).is_single = true
    · rw [if_pos hS] at hf
      have hsave := save_new_instance_one_live D U hself (fun V => get_service fuel D V []) T
        (fun V _ s2 w2 => get_service_one_live D U hself fuel V [] s2 w2) args s0 w0
        (fun _ => by
          intro hr
          exact hn (by subst_vars; exact hr))
      have hsat : ((save_new_instance (fun V => get_service fuel D V []) D T args s0 w0).bind
          fun _ self1 w1 => Outcome.ok () self1 w1).Sat (fun s1 w1 =>
            OneLive U s0 w0 → OneLive U s1 w1 ∧
              (¬ Reaches D T U →
                (live_instances s1 w1 U).length = (live_instances s0 w0 U).length)) := by
        apply Outcome.sat_bind
        · intro e s2 w2 h
          exact Outcome.sat_of_throw hsave h
        · intro p s2 w2 h s3 w3 hf3
          simp only [Outcome.final, Option.some.injEq, Prod.mk.injEq] at hf3
          obtain ⟨e1, e2⟩ := hf3
          subst e1 e2
          exact Outcome.sat_of_ok hsave h
      exact (hsat s1 w1 hf ih).1
    · rw [if_neg hS] at hf
      simp [Outcome.final] at hf

/-- C16 (at most one live instance per singleton), amended.  In every state of a
container reached from a default-constructed one by `service<...>()` calls and
by `instance(...)` calls for a type under whose identity no instance is
registered at that moment, and for every service type `U` that is not
reached by its own dependencies, the Instance Store holds at most one entry
with a live object of type `U`; when it holds one, `U` is registered. -/
theorem one_live_instance (D : Decls) (s : Container) (w : World)
    (h : Container.Reachable D s w) (U : type_id_t)
    (hself : ∀ V, V ∈ deps D U → ¬ Reaches D V U) :
    (live_instances s w U).length ≤ 1 ∧
    ((live_instances s w U).length = 1 → Registered s U) ∧
    (∀ e, e ∈ s._instances →
      (e ∈ live_instances s w U ↔ ∃ v, heap_find w.heap e.get = some (Obj.service U v))) := by
  obtain ⟨_, h2, h3⟩ := reachable_one_live D s w h U hself
  refine ⟨h2, h3, ?_⟩
  intro e he
  simp only [live_instances, List.mem_filter, he, true_and, is_live]
  constructor
  · intro hl
    split at hl
    · rename_i V v hfind
      simp only [decide_eq_true_eq] at hl
      subst hl
      exact ⟨v, hfind⟩
    · cases hl
  · rintro ⟨v, hv⟩
    simp [hv]

theorem one_live_instance_witness :
    Container.Reachable demo demo_container2 demo_world3 ∧
    live_instances demo_container2 demo_world3 2 = [{ get := 2, deleter := 2 }] ∧
    (live_instances demo_container2 demo_world3 2).length ≤ 1 ∧
    ((live_instances demo_container2 demo_world3 2).length = 1 →
      Registered demo_container2 2) :=
  ⟨Container.Reachable.service empty_container empty_world 3 2 [] demo_container2 demo_world3
     (Container.Reachable.init [] empty_world) (by decide),
   by decide,
   (one_live_instance demo demo_container2 demo_world3
     (Container.Reachable.service empty_container empty_world 3 2 [] demo_container2 demo_world3
       (Container.Reachable.init [] empty_world) (by decide))
     2 demo_two_acyclic).1,
   (one_live_instance demo demo_container2 demo_world3
     (Container.Reachable.service empty_container empty_world 3 2 [] demo_container2 demo_world3
       (Container.Reachable.init [] empty_world) (by decide))
     2 demo_two_acyclic).2.1⟩

/-- After `service<1>()` and `instance(x)` with another service `1`, the Instance
Store holds two live objects of the singleton `1`. -/
theorem one_live_instance_counterexample :
    service 1 demo 1 [] empty_container empty_world
      = Outcome.ok (Arg.ref 1) demo_container1 demo_world1 ∧
    instance_value demo 1 11 demo_container1 demo_world1
      = Outcome.ok () demo_container8 demo_world2 ∧
    (demo 1).is_single = true ∧
    live_instances demo_container8 demo_world2 1
      = [{ get := 1, deleter := 1 }, { get := 2, deleter := 1 }] ∧
    heap_find demo_world2.heap 1 = some (Obj.service 1 10) ∧
    heap_find demo_world2.heap 2 = some (Obj.service 1 11) ∧
    ¬ (live_instances demo_container8 demo_world2 1).length ≤ 1 := by
  decide

/-! ## Registry entries refer to live objects -/

theorem heap_find_erase_ne (heap : List (Ptr × Obj)) (q p : Ptr) (h : q ≠ p) :
    heap_find (heap_erase heap q) p = heap_find heap p := by
  induction heap with
  | nil => rfl
  | cons x heap ih =>
    obtain ⟨a, o⟩ := x
    simp only [heap_erase]
    by_cases ha : a = q
    · rw [if_pos ha, ih]
      have hap : a ≠ p := ha ▸ h
      simp [heap_find, hap]
    · rw [if_neg ha]
      simp only [heap_find, ih]

theorem vector_clear_heap (order : DestructionOrder) (v : instance_cont) (w : World) (p : Ptr)
    (h : ∀ e, e ∈ order v → e.get ≠ p) :
    heap_find (vector_clear order v w).heap p = heap_find w.heap p ∧
    (vector_clear order v w).next = w.next := by
  unfold vector_clear
  generalize order v = l at h
  induction l generalizing w with
  | nil => exact ⟨rfl, rfl⟩
  | cons e l ih =>
    rw [List.foldl_cons]
    obtain ⟨h1, h2⟩ := ih (e.destruct w) (fun x hx => h x (by simp [hx]))
    rw [h1, h2]
    by_cases he : e.get = 0
    · simp [instance_ptr.destruct, he]
    · simp only [instance_ptr.destruct, ne_eq, he, not_false_eq_true, if_true, deleter]
      exact ⟨heap_find_erase_ne _ _ _ (h e (by simp)), trivial⟩

theorem save_instance_helper_registry (T : type_id_t) (parents : List type_id_t)
    (service : instance_ptr) (self : Container) (w : World) (k : type_id_t) (p : Ptr)
    (hf : map_find (save_instance_helper T parents service self w).2.1._services k = some p) :
    map_find self._services k = some p ∨ p = service.get ∨
    ∃ i P, parents[i]? = some P ∧ p = w.next + 1 + i := by
  induction parents generalizing self w with
  | nil =>
    simp only [save_instance_helper] at hf
    by_cases hk : T = k
    · subst hk
      rw [map_find_assign_self] at hf
      injection hf with hf
      exact Or.inr (Or.inl hf.symm)
    · rw [map_find_assign_ne _ _ _ _ hk] at hf
      exact Or.inl hf
  | cons O Others ih =>
    simp only [save_instance_helper] at hf
    rcases ih _ _ hf with h | h | ⟨i, P, hi, hp⟩
    · simp only at h
      by_cases hk : O = k
      · subst hk
        rw [map_find_assign_self] at h
        injection h with h
        exact Or.inr (Or.inr ⟨0, O, by simp, by simp [makeInstancePtr] at h; simp [← h]⟩)
      · rw [map_find_assign_ne _ _ _ _ hk] at h
        exact Or.inl h
    · exact Or.inr (Or.inl h)
    · refine Or.inr (Or.inr ⟨i + 1, P, by simpa using hi, ?_⟩)
      rw [hp]
      simp only [makeInstancePtr, Ptr] at *
      omega

theorem save_instance_heap_grows (D : Decls) (T : type_id_t) (v : Val) (s : Container)
    (w : World) :
    HeapGrows s w (save_instance D T v s w).2.1 (save_instance D T v s w).2.2 := by
  refine ⟨?_, fun p hp => save_instance_heap_old D T v s w p hp, ?_⟩
  · rw [save_instance_next]
    simp only [Ptr] at *
    omega
  · intro k p hf hp
    have hcases : map_find s._services k = some p ∨ p = w.next + 1 ∨
        ∃ i P, (parents_of D T)[i]? = some P ∧ p = w.next + 2 + i := by
      unfold save_instance at hf
      unfold parents_of
      cases hP : (D T).ParentTypes with
      | none =>
        rw [hP] at hf
        rcases save_instance_helper_registry T [] _ s _ k p hf with h | h | ⟨i, P, hi, _⟩
        · exact Or.inl h
        · exact Or.inr (Or.inl h)
        · simp at hi
      | some parents =>
        rw [hP] at hf
        rcases save_instance_helper_registry T parents _ s _ k p hf with h | h | ⟨i, P, hi, hp2⟩
        · exact Or.inl h
        · exact Or.inr (Or.inl h)
        · refine Or.inr (Or.inr ⟨i, P, hi, ?_⟩)
          rw [hp2]
          rfl
    rcases hcases with h | h | ⟨i, P, hi, h⟩
    · exact Or.inl ⟨k, h⟩
    · refine Or.inr ⟨by rw [h]; exact Nat.lt_succ_self _, ?_,
        ⟨_, by rw [h]; exact save_instance_heap_self D T v s w⟩⟩
      rw [h, save_instance_next]
      simp only [Ptr] at *
      omega
    · have hlt : i < (parents_of D T).length := (List.getElem?_eq_some_iff.mp hi).1
      refine Or.inr ⟨?_, ?_, ⟨_, by rw [h]; exact save_instance_heap_adapter D T v s w i P hi⟩⟩
      · rw [h]
        simp only [Ptr] at *
        omega
      · rw [h, save_instance_next]
        simp only [Ptr] at *
        omega

theorem heap_grows_refl (s : Container) (w : World) : HeapGrows s w s w :=
  ⟨le_refl _, fun _ _ => rfl, fun k _ hf _ => Or.inl ⟨k, hf⟩⟩

theorem heap_grows_trans (s : Container) (w : World) (s1 : Container) (w1 : World)
    (s2 : Container) (w2 : World) (h1 : HeapGrows s w s1 w1) (h2 : HeapGrows s1 w1 s2 w2) :
    HeapGrows s w s2 w2 := by
  obtain ⟨n1, o1, r1⟩ := h1
  obtain ⟨n2, o2, r2⟩ := h2
  refine ⟨le_trans n1 n2, fun p hp => (o2 p (le_trans hp n1)).trans (o1 p hp), ?_⟩
  intro k p hf hp
  rcases r2 k p hf hp with ⟨k0, h0⟩ | ⟨a, b, c⟩
  · rcases r1 k0 p h0 hp with h | ⟨a, b, o, ho⟩
    · exact Or.inl h
    · exact Or.inr ⟨a, le_trans b n2, o, (o2 p b).trans ho⟩
  · exact Or.inr ⟨lt_of_le_of_lt n1 a, b, c⟩

/-- The heap only grows, and the Registry gains only pointers to objects
allocated on the way. -/
theorem heap_footprint (D : Decls) :
    Footprint D (fun _ s w s1 w1 => HeapGrows s w s1 w1) where
  refl := fun _ s w => heap_grows_refl s w
  trans := fun _ s w s1 w1 s2 w2 h1 h2 => heap_grows_trans s w s1 w1 s2 w2 h1 h2
  dep := fun _ _ _ _ _ _ _ h => h
  lookup := by
    intro T s w
    refine ⟨le_refl _, fun _ _ => rfl, ?_⟩
    intro k p hf hp
    simp only [map_find_index] at hf
    cases hm : map_find s._services k with
    | some q =>
      rw [hm] at hf
      simp only [Option.or_some, Option.some.injEq] at hf
      subst hf
      exact Or.inl ⟨k, hm⟩
    | none =>
      rw [hm] at hf
      simp only [Option.none_or] at hf
      split at hf
      · injection hf with hf
        exact absurd hf.symm hp
      · cases hf
  call := fun _ _ _ s w _ => ⟨le_refl _, fun _ _ => rfl, fun k _ hf _ => Or.inl ⟨k, hf⟩⟩
  save := fun T v s w => save_instance_heap_grows D T v s w

theorem service_heap_grows (D : Decls) (fuel : Nat) (T : type_id_t) (args : List Arg)
    (s : Container) (w : World) :
    (service fuel D T args s w).Sat (fun s1 w1 => HeapGrows s w s1 w1) :=
  service_sat_of_get_service D fuel T args s w _
    (get_service_footprint D _ (heap_footprint D) fuel T args s w)

theorem instance_value_heap_grows (D : Decls) (T : type_id_t) (v : Val) (s : Container)
    (w : World) : (instance_value D T v s w).Sat (fun s1 w1 => HeapGrows s w s1 w1) := by
  unfold instance_value
  split
  · intro s1 w1 h
    simp only [Outcome.final, Option.some.injEq, Prod.mk.injEq] at h
    obtain ⟨h1, h2⟩ := h
    subst h1 h2
    exact save_instance_heap_grows D T v s w
  · intro s1 w1 h
    simp [Outcome.final] at h

theorem instance_new_heap_grows (D : Decls) (fuel : Nat) (T : type_id_t) (args : List Arg)
    (s : Container) (w : World) :
    (instance_new fuel D T args s w).Sat (fun s1 w1 => HeapGrows s w s1 w1) := by
  unfold instance_new
  split
  · apply Outcome.sat_bind_trans HeapGrows heap_grows_trans _ _ s w
      (save_new_instance_sat HeapGrows heap_grows_refl heap_grows_trans
        _ D T args
        (fun A _ s0 w0 => get_service_footprint D _ (heap_footprint D) fuel A [] s0 w0)
        (fun _ _ s0 w0 _ =>
          ⟨le_refl _, fun _ _ => rfl, fun k _ hf _ => Or.inl ⟨k, hf⟩⟩)
        (fun v s0 w0 => save_instance_heap_grows D T v s0 w0) s w)
    intro p s1 w1 s2 w2 h
    simp only [Outcome.final, Option.some.injEq, Prod.mk.injEq] at h
    obtain ⟨h1, h2⟩ := h
    subst h1 h2
    exact heap_grows_refl _ _
  · intro s1 w1 h
    simp [Outcome.final] at h

theorem Process.registry_live_step (s t : Process) (hv : s.RegistryLive)
    (hnext : s.world.next ≤ t.world.next)
    (hheap : ∀ p, p ≤ s.world.next → heap_find t.world.heap p = heap_find s.world.heap p)
    (hreg : ∀ (j : Nat) (c : Container) (k : type_id_t) (p : Ptr),
      t.containers[j]? = some c → map_find c._services k = some p → p ≠ 0 →
      (∃ (j0 : Nat) (c0 : Container) (k0 : type_id_t),
        s.containers[j0]? = some c0 ∧ map_find c0._services k0 = some p) ∨
      (p ≤ t.world.next ∧ ∃ o, heap_find t.world.heap p = some o)) :
    t.RegistryLive := by
  intro j c k p hj hf hp
  rcases hreg j c k p hj hf hp with ⟨j0, c0, k0, h0, hf0⟩ | h
  · obtain ⟨hle, o, ho⟩ := hv j0 c0 k0 p h0 hf0 hp
    exact ⟨le_trans hle hnext, o, (hheap p hle).trans ho⟩
  · exact h

theorem Process.commit_live {α : Type} (s : Process) (i : Nat) (c : Container) (o : Outcome α)
    (hi : s.containers[i]? = some c) (hv : s.RegistryLive)
    (hg : o.Sat (fun c1 w1 => HeapGrows c s.world c1 w1)) : (s.commit i o).RegistryLive := by
  have hlt : i < s.containers.length := (List.getElem?_eq_some_iff.mp hi).1
  have key : ∀ c1 w1, HeapGrows c s.world c1 w1 →
      Process.RegistryLive { containers := s.containers.set i c1, world := w1 } := by
    intro c1 w1 hgrow
    obtain ⟨hn, hold, hreg⟩ := hgrow
    apply Process.registry_live_step s _ hv hn hold
    intro j d k p hj hf hp
    by_cases hji : i = j
    · subst hji
      simp only [getElem?_set_same _ _ _ hlt] at hj
      injection hj with hj
      subst hj
      rcases hreg k p hf hp with ⟨k0, h0⟩ | ⟨_, hle, ho⟩
      · exact Or.inl ⟨i, c, k0, hi, h0⟩
      · exact Or.inr ⟨hle, ho⟩
    · simp only [List.getElem?_set_ne hji] at hj
      exact Or.inl ⟨j, d, k, hj, hf⟩
  cases o with
  | ok a c1 w1 => exact key c1 w1 (hg c1 w1 rfl)
  | throw e c1 w1 => exact key c1 w1 (hg c1 w1 rfl)
  | undefined => exact hv
  | ill_formed => exact hv
  | out_of_fuel => exact hv

theorem Process.service_live (fuel : Nat) (D : Decls) (s : Process) (i : Nat) (T : type_id_t)
    (args : List Arg) (hv : s.RegistryLive) : (s.service fuel D i T args).RegistryLive := by
  unfold Process.service
  cases hc : s.containers[i]? with
  | none => exact hv
  | some c => exact Process.commit_live s i c _ hc hv (service_heap_grows D fuel T args c s.world)

theorem Process.instance_value_live (D : Decls) (s : Process) (i : Nat) (T : type_id_t)
    (v : Val) (hv : s.RegistryLive) : (s.instance_value D i T v).RegistryLive := by
  unfold Process.instance_value
  cases hc : s.containers[i]? with
  | none => exact hv
  | some c =>
    exact Process.commit_live s i c _ hc hv (instance_value_heap_grows D T v c s.world)

theorem Process.instance_new_live (fuel : Nat) (D : Decls) (s : Process) (i : Nat)
    (T : type_id_t) (args : List Arg) (hv : s.RegistryLive) :
    (s.instance_new fuel D i T args).RegistryLive := by
  unfold Process.instance_new
  cases hc : s.containers[i]? with
  | none => exact hv
  | some c =>
    exact Process.commit_live s i c _ hc hv (instance_new_heap_grows D fuel T args c s.world)

theorem Process.fork_live (s : Process) (i : Nat) (hv : s.RegistryLive) :
    (s.fork i).RegistryLive := by
  unfold Process.fork
  cases hc : s.containers[i]? with
  | none => exact hv
  | some c =>
    apply Process.registry_live_step s _ hv ?_ ?_ ?_
    · exact le_refl _
    · exact fun _ _ => rfl
    intro j d k p hj hf hp
    simp only at hj
    by_cases hlt : j < s.containers.length
    · rw [List.getElem?_append_left hlt] at hj
      exact Or.inl ⟨j, d, k, hj, hf⟩
    · rw [List.getElem?_append_right (not_lt.mp hlt)] at hj
      have hd : d = kgr.fork c := by
        cases hk : j - s.containers.length with
        | zero =>
          rw [hk] at hj
          simpa using hj.symm
        | succ n =>
          rw [hk] at hj
          simp at hj
      subst hd
      exact Or.inl ⟨i, c, k, hc, hf⟩

theorem Process.merge_live (s : Process) (i j : Nat) (hv : s.RegistryLive) :
    (s.merge i j).RegistryLive := by
  unfold Process.merge
  cases hc : s.containers[i]? with
  | none => exact hv
  | some c =>
    cases hd : s.containers[j]? with
    | none => exact hv
    | some d =>
      simp only
      by_cases hij : i = j
      · rw [if_pos hij]
        exact hv
      · rw [if_neg hij]
        have hi : i < s.containers.length := (List.getElem?_eq_some_iff.mp hc).1
        have hj : j < s.containers.length := (List.getElem?_eq_some_iff.mp hd).1
        have hgi : ((s.containers.set i (kgr.merge c d).1).set j (kgr.merge c d).2)[i]?
            = some (kgr.merge c d).1 := by
          rw [List.getElem?_set_ne (Ne.symm hij)]
          exact getElem?_set_same _ _ _ hi
        have hgj : ((s.containers.set i (kgr.merge c d).1).set j (kgr.merge c d).2)[j]?
            = some (kgr.merge c d).2 :=
          getElem?_set_same _ _ _ (by rw [List.length_set]; exact hj)
        have hgx : ∀ x, i ≠ x → j ≠ x →
            ((s.containers.set i (kgr.merge c d).1).set j (kgr.merge c d).2)[x]?
              = s.containers[x]? := by
          intro x hxi hxj
          rw [List.getElem?_set_ne hxj, List.getElem?_set_ne hxi]
        apply Process.registry_live_step s _ hv ?_ ?_ ?_
        · exact le_refl _
        · exact fun _ _ => rfl
        intro x c0 k p hx hf hp
        simp only at hx
        by_cases hxi : i = x
        · subst hxi
          rw [hgi] at hx
          injection hx with hx
          subst hx
          simp only [kgr.merge, map_find_insert_range] at hf
          cases hm : map_find c._services k with
          | some q =>
            rw [hm] at hf
            simp only [Option.or_some, Option.some.injEq] at hf
            subst hf
            exact Or.inl ⟨i, c, k, hc, hm⟩
          | none =>
            rw [hm] at hf
            simp only [Option.none_or] at hf
            exact Or.inl ⟨j, d, k, hd, hf⟩
        · by_cases hxj : j = x
          · subst hxj
            rw [hgj] at hx
            injection hx with hx
            subst hx
            exact Or.inl ⟨j, d, k, hd, hf⟩
          · rw [hgx x hxi hxj] at hx
            exact Or.inl ⟨x, c0, k, hx, hf⟩

theorem Process.clear_live (order : DestructionOrder) (s : Process) (i : Nat)
    (hv : s.RegistryLive) (horder : ∀ v, (order v).Perm v) (hu : s.Unshared i) :
    (s.clear order i).RegistryLive := by
  unfold Process.clear
  cases hc : s.containers[i]? with
  | none => exact hv
  | some d =>
    have hlt : i < s.containers.length := (List.getElem?_eq_some_iff.mp hc).1
    intro j c k p hj hf hp
    simp only at hj
    by_cases hji : i = j
    · subst hji
      rw [getElem?_set_same _ _ _ hlt] at hj
      injection hj with hj
      subst hj
      simp [kgr.clear, map_find] at hf
    · rw [List.getElem?_set_ne hji] at hj
      obtain ⟨hle, o, ho⟩ := hv j c k p hj hf hp
      have hne : ∀ e, e ∈ order d._instances → e.get ≠ p :=
        fun e he => hu j c d k p (Ne.symm hji) hj hc hf hp e ((horder d._instances).mem_iff.mp he)
      obtain ⟨h1, h2⟩ := vector_clear_heap order d._instances s.world p hne
      simp only [kgr.clear]
      exact ⟨by rw [h2]; exact hle, o, h1.trans ho⟩

/-- C15 (Registry validity), amended.  In every program state reached from
default-constructed containers by `instance`, `service`, `fork` and `merge`,
and by `clear` on a container whose objects no other container's Registry
refers to, every instance pointer held in the Registry of any container is
held by an entry of the Instance Store of some container, and is an allocated
address at which an object lives. -/
theorem registry_validity (D : Decls) (s : Process) (h : Process.Reachable D s) :
    s.RegistryValid ∧ s.RegistryLive := by
  induction h with
  | init n =>
    have hnone : ∀ (j : Nat) (c : Container) (k : type_id_t) (p : Ptr),
        (List.replicate n empty_container)[j]? = some c →
        map_find c._services k = some p → False := by
      intro j c k p hj hf
      simp only [List.getElem?_replicate] at hj
      split at hj
      · injection hj with hj
        subst hj
        simp [empty_container, map_find] at hf
      · cases hj
    exact ⟨fun j c k p hj hf _ => (hnone j c k p hj hf).elim,
      fun j c k p hj hf _ => (hnone j c k p hj hf).elim⟩
  | service s fuel i T args _ ih =>
    exact ⟨Process.service_valid fuel D s i T args ih.1,
      Process.service_live fuel D s i T args ih.2⟩
  | instance_value s i T v _ ih =>
    exact ⟨Process.instance_value_valid D s i T v ih.1,
      Process.instance_value_live D s i T v ih.2⟩
  | instance_new s fuel i T args _ ih =>
    exact ⟨Process.instance_new_valid fuel D s i T args ih.1,
      Process.instance_new_live fuel D s i T args ih.2⟩
  | fork s i _ ih => exact ⟨Process.fork_valid s i ih.1, Process.fork_live s i ih.2⟩
  | merge s i j _ ih => exact ⟨Process.merge_valid s i j ih.1, Process.merge_live s i j ih.2⟩
  | clear order s i _ horder hu ih =>
    exact ⟨Process.clear_valid order s i ih.1 hu, Process.clear_live order s i ih.2 horder hu⟩

theorem registry_validity_witness :
    (((Process.mk (List.replicate 1 empty_container) empty_world).service 1 demo 0 1 []).fork 0).containers
      = [demo_container1, demo_fork1] ∧
    Process.Reachable demo
      (((Process.mk (List.replicate 1 empty_container) empty_world).service 1 demo 0 1 []).fork 0) ∧
    (((Process.mk (List.replicate 1 empty_container) empty_world).service 1 demo 0 1 []).fork 0).RegistryValid ∧
    (((Process.mk (List.replicate 1 empty_container) empty_world).service 1 demo 0 1 []).fork 0).RegistryLive :=
  ⟨by decide,
   Process.Reachable.fork _ 0 (Process.Reachable.service _ 1 0 1 [] (Process.Reachable.init 1)),
   registry_validity demo _
     (Process.Reachable.fork _ 0 (Process.Reachable.service _ 1 0 1 [] (Process.Reachable.init 1)))⟩

/-- After `parent.service<1>()`, `child = parent.fork()` and `parent.clear()`, the
Registry of the child still holds the pointer to the destroyed instance, which
no Instance Store holds and which is no longer on the heap. -/
theorem registry_validity_counterexample :
    (((demo_process.service 1 demo 0 1 []).fork 0).clear front_to_back 0).containers
      = [empty_container, demo_fork1] ∧
    map_find demo_fork1._services 1 = some 1 ∧
    heap_find (((demo_process.service 1 demo 0 1 []).fork 0).clear front_to_back 0).world.heap 1
      = none ∧
    (((demo_process.service 1 demo 0 1 []).fork 0).clear front_to_back 0).world.trace
      = demo_world1.trace ++ [Event.destroy 1 1] ∧
    ¬ (((demo_process.service 1 demo 0 1 []).fork 0).clear front_to_back 0).RegistryValid := by
  have hc : (((demo_process.service 1 demo 0 1 []).fork 0).clear front_to_back 0).containers
      = [empty_container, demo_fork1] := by decide
  refine ⟨hc, by decide, by decide, by decide, ?_⟩
  intro hv
  obtain ⟨j, c, e, hj, he, _⟩ := hv 1 demo_fork1 1 1 (by rw [hc]; rfl) (by decide) (by decide)
  rw [hc] at hj
  match j, hj with
  | 0, hj =>
    injection hj with hj
    subst hj
    simp [empty_container] at he
  | 1, hj =>
    injection hj with hj
    subst hj
    simp [demo_fork1] at he
  | n + 2, hj => simp at hj

end kgr
